import Mathlib

/-!
Verification of the scene-graph metadata layer of the Graphite vector-graphics
document engine (`document_metadata.rs`) and its quad geometry module
(`quad.rs`).

The tree of layers is stored as a map from layer identifiers to
`NodeRelations` records (parent / previous_sibling / next_sibling /
first_child / last_child).  We embed the identifier map as an association
list over `Nat` keys, where a key is the value stored in the Rust
`NonZeroU64` (that is, `node_id + 1`); `ROOT` is the key `1`.

Rust `HashMap` operations are embedded as follows:
* `get` is `sfind?`,
* `entry(k).or_default()` followed by field mutation is `supdate`,
* `entry(k).or_default()` used only for reading is `sensure`,
* `remove` is `sremove`,
* `assert!` failures (fatal aborts) are `Option.none` results.

Iterators that walk the link structure are embedded as fuelled functions;
the public wrappers instantiate the fuel with `s.length + 1`, which is shown
to be sufficient on consistent tree states.
-/

namespace Graphite

/-- A layer key: the value stored inside the Rust `NonZeroU64`. -/
abbrev Key := Nat

/-- The reserved root key: `LayerNodeIdentifier::ROOT = new_unchecked(0)` stores `1`. -/
def ROOT : Key := 1

/-- Wrapping 64-bit modulus used by `new_unchecked`. -/
def U64MOD : Nat := 2 ^ 64

/-- `LayerNodeIdentifier::new_unchecked(node_id)` stores `node_id + 1` in a
`NonZeroU64`; on `u64` the addition wraps. The result is the stored value. -/
def new_unchecked (node_id : Nat) : Key := (node_id + 1) % U64MOD

/-- `LayerNodeIdentifier::to_node`: recover the node id from the stored value. -/
def to_node (k : Key) : Nat := k - 1

/-- The per-identifier link record (`NodeRelations` in the source): all five
links are optional layer identifiers, defaulting to `None`. -/
structure NodeRelations where
  parent : Option Key := none
  previous_sibling : Option Key := none
  next_sibling : Option Key := none
  first_child : Option Key := none
  last_child : Option Key := none
  deriving DecidableEq, Repr

instance : Inhabited NodeRelations := ⟨{}⟩

/-- The `structure` field of `DocumentMetadata`: a finite map from layer keys
to relation records, embedded as an association list. -/
abbrev Structure := List (Key × NodeRelations)

/-- `HashMap::get`. -/
def sfind? : Structure → Key → Option NodeRelations
  | [], _ => none
  | (k', r) :: rest, k => if k = k' then some r else sfind? rest k

/-- Replace the binding of `k` (or append it if absent). -/
def sset : Structure → Key → NodeRelations → Structure
  | [], k, r => [(k, r)]
  | (k', r') :: rest, k, r => if k = k' then (k, r) :: rest else (k', r') :: sset rest k r

/-- `entry(k).or_default()` followed by a mutation `f` of the record. -/
def supdate (s : Structure) (k : Key) (f : NodeRelations → NodeRelations) : Structure :=
  sset s k (f ((sfind? s k).getD default))

/-- `entry(k).or_default()` used only to read: inserts a default record if absent. -/
def sensure (s : Structure) (k : Key) : Structure :=
  sset s k ((sfind? s k).getD default)

/-- `HashMap::remove`. -/
def sremove (s : Structure) (k : Key) : Structure :=
  s.filter (fun e => !(e.1 = k))

theorem sfind?_sset (s : Structure) (k : Key) (r : NodeRelations) (q : Key) :
    sfind? (sset s k r) q = if q = k then some r else sfind? s q := by
  induction s with
  | nil => by_cases h : q = k <;> simp [sset, sfind?, h]
  | cons e rest ih =>
    obtain ⟨k', r'⟩ := e
    by_cases hk : k = k'
    · subst hk
      by_cases hq : q = k <;> simp [sset, sfind?, hq]
    · by_cases hq : q = k'
      · subst hq
        simp [sset, sfind?, hk, Ne.symm hk]
      · simp [sset, sfind?, hk, hq, ih]

theorem sfind?_supdate (s : Structure) (k : Key) (f : NodeRelations → NodeRelations) (q : Key) :
    sfind? (supdate s k f) q =
      if q = k then some (f ((sfind? s k).getD default)) else sfind? s q := by
  simp [supdate, sfind?_sset]

theorem sfind?_sensure (s : Structure) (k : Key) (q : Key) :
    sfind? (sensure s k) q = if q = k then some ((sfind? s k).getD default) else sfind? s q := by
  simp [sensure, sfind?_sset]

theorem sfind?_sremove (s : Structure) (k : Key) (q : Key) :
    sfind? (sremove s k) q = if q = k then none else sfind? s q := by
  induction s with
  | nil => simp [sremove, sfind?]
  | cons e rest ih =>
    obtain ⟨k', r'⟩ := e
    by_cases hk : k' = k
    · subst hk
      by_cases hq : q = k' <;>
        simp_all [sremove, sfind?, List.filter]
    · by_cases hq : q = k'
      · subst hq
        simp_all [sremove, sfind?, List.filter, Ne.symm hk]
      · simp_all [sremove, sfind?, List.filter, hk, hq]

/-- Accessor `LayerNodeIdentifier::parent`. -/
def parentS (s : Structure) (k : Key) : Option Key :=
  (sfind? s k).bind (fun r => r.parent)

/-- Accessor `LayerNodeIdentifier::previous_sibling`. -/
def previous_siblingS (s : Structure) (k : Key) : Option Key :=
  (sfind? s k).bind (fun r => r.previous_sibling)

/-- Accessor `LayerNodeIdentifier::next_sibling`. -/
def next_siblingS (s : Structure) (k : Key) : Option Key :=
  (sfind? s k).bind (fun r => r.next_sibling)

/-- Accessor `LayerNodeIdentifier::first_child`. -/
def first_childS (s : Structure) (k : Key) : Option Key :=
  (sfind? s k).bind (fun r => r.first_child)

/-- Accessor `LayerNodeIdentifier::last_child`. -/
def last_childS (s : Structure) (k : Key) : Option Key :=
  (sfind? s k).bind (fun r => r.last_child)

/-- Accessor `LayerNodeIdentifier::has_children`. -/
def has_childrenS (s : Structure) (k : Key) : Bool :=
  (first_childS s k).isSome

/-- Accessor `LayerNodeIdentifier::exists` (also `DocumentMetadata::layer_exists`). -/
def existsS (s : Structure) (k : Key) : Bool :=
  (sfind? s k).isSome

/-- The `structure` field of `DocumentMetadata::default()`: just the root record. -/
def defaultStructure : Structure := [(ROOT, default)]

/-! ### Tree mutation operations

Each insertion begins with `assert!(!document_metadata.structure.contains_key(&new))`;
a failing assertion is a fatal abort, embedded as `none`. -/

/-- Body of `LayerNodeIdentifier::push_front_child` after the assertion. -/
def push_front_child_go (s : Structure) (self new : Key) : Structure :=
  let pr := (sfind? s self).getD default
  let s1 := sset s self { pr with first_child := some new,
                                  last_child := some (pr.last_child.getD new) }
  let s2 := match pr.first_child with
    | some ofc => supdate s1 ofc (fun r => { r with previous_sibling := some new })
    | none => s1
  let s3 := supdate s2 new (fun r => { r with next_sibling := pr.first_child })
  supdate s3 new (fun r => { r with parent := some self })

/-- `LayerNodeIdentifier::push_front_child`: add a child towards the top of the
layer tree; aborts (`none`) if `new` is already present. -/
def push_front_child (s : Structure) (self new : Key) : Option Structure :=
  if existsS s new then none else some (push_front_child_go s self new)

/-- Body of `LayerNodeIdentifier::push_child` after the assertion. -/
def push_child_go (s : Structure) (self new : Key) : Structure :=
  let pr := (sfind? s self).getD default
  let s1 := sset s self { pr with last_child := some new,
                                  first_child := some (pr.first_child.getD new) }
  let s2 := match pr.last_child with
    | some olc => supdate s1 olc (fun r => { r with next_sibling := some new })
    | none => s1
  let s3 := supdate s2 new (fun r => { r with previous_sibling := pr.last_child })
  supdate s3 new (fun r => { r with parent := some self })

/-- `LayerNodeIdentifier::push_child`: add a child towards the bottom of the
layer tree; aborts (`none`) if `new` is already present. -/
def push_child (s : Structure) (self new : Key) : Option Structure :=
  if existsS s new then none else some (push_child_go s self new)

/-- Body of `LayerNodeIdentifier::add_before` after the assertion. -/
def add_before_go (s : Structure) (self new : Key) : Structure :=
  let s1 := supdate s new (fun r => { r with next_sibling := some self })
  let p := parentS s1 self
  let s2 := supdate s1 new (fun r => { r with parent := p })
  let oldPrev := previous_siblingS s2 self
  let s3 := supdate s2 self (fun r => { r with previous_sibling := some new })
  match oldPrev with
  | some ops =>
      let s4 := supdate s3 ops (fun r => { r with next_sibling := some new })
      supdate s4 new (fun r => { r with previous_sibling := some ops })
  | none =>
      match parentS s3 self with
      | some par =>
          let s4 := sensure s3 par
          if first_childS s4 par = some self then
            supdate s4 par (fun r => { r with first_child := some new })
          else s4
      | none => s3

/-- `LayerNodeIdentifier::add_before`: add a sibling above in the layer tree;
aborts (`none`) if `new` is already present. -/
def add_before (s : Structure) (self new : Key) : Option Structure :=
  if existsS s new then none else some (add_before_go s self new)

/-- Body of `LayerNodeIdentifier::add_after` after the assertion. -/
def add_after_go (s : Structure) (self new : Key) : Structure :=
  let s1 := supdate s new (fun r => { r with previous_sibling := some self })
  let p := parentS s1 self
  let s2 := supdate s1 new (fun r => { r with parent := p })
  let oldNext := next_siblingS s2 self
  let s3 := supdate s2 self (fun r => { r with next_sibling := some new })
  match oldNext with
  | some ons =>
      let s4 := supdate s3 ons (fun r => { r with previous_sibling := some new })
      supdate s4 new (fun r => { r with next_sibling := some ons })
  | none =>
      match parentS s3 self with
      | some par =>
          let s4 := sensure s3 par
          if last_childS s4 par = some self then
            supdate s4 par (fun r => { r with last_child := some new })
          else s4
      | none => s3

/-- `LayerNodeIdentifier::add_after`: add a sibling below in the layer tree;
aborts (`none`) if `new` is already present. -/
def add_after (s : Structure) (self new : Key) : Option Structure :=
  if existsS s new then none else some (add_after_go s self new)

/-! ### Iterators

`AxisIter` walks a single link; `DecendantsIter` is the double-ended pre-order
descendant iterator with `front`/`back` cursors. -/

/-- A fuelled walk of one optional link starting from an optional cursor:
the list produced by an `AxisIter`. -/
def axisList (s : Structure) (next : Structure → Key → Option Key) :
    Nat → Option Key → List Key
  | 0, _ => []
  | _, none => []
  | fuel + 1, some k => k :: axisList s next fuel (next s k)

/-- The chain of an `AxisIter` over `next_sibling` links. -/
def fwdChain (s : Structure) (fuel : Nat) (start : Option Key) : List Key :=
  axisList s next_siblingS fuel start

/-- The chain of an `AxisIter` over `previous_sibling` links. -/
def bwdChain (s : Structure) (fuel : Nat) (start : Option Key) : List Key :=
  axisList s previous_siblingS fuel start

/-- `LayerNodeIdentifier::children`: the forward chain from `first_child`. -/
def childrenList (s : Structure) (k : Key) : List Key :=
  fwdChain s (s.length + 1) (first_childS s k)

/-- `LayerNodeIdentifier::ancestors`: the chain of `parent` links including self. -/
def ancestorsList (s : Structure) (fuel : Nat) (k : Key) : List Key :=
  axisList s parentS fuel (some k)

/-- `LayerNodeIdentifier::last_children(...).last()`: the bottom of the
`last_child` chain starting at (and including) `k`. -/
def lastDesc (s : Structure) : Nat → Key → Key
  | 0, k => k
  | fuel + 1, k =>
    match last_childS s k with
    | none => k
    | some c => lastDesc s fuel c

/-- `ancestors(self).find_map(next_sibling)`: the next sibling of the nearest
ancestor-or-self that has one. -/
def ancFindNext (s : Structure) : Nat → Key → Option Key
  | 0, _ => none
  | fuel + 1, k =>
    match next_siblingS s k with
    | some n => some n
    | none =>
      match parentS s k with
      | some p => ancFindNext s fuel p
      | none => none

/-- The advance of the `front` cursor in `DecendantsIter::next`. -/
def stepF (s : Structure) (fuel : Nat) (k : Key) : Option Key :=
  match first_childS s k with
  | some c => some c
  | none => ancFindNext s fuel k

/-- The advance of the `back` cursor in `DecendantsIter::next_back`. -/
def stepB (s : Structure) (fuel : Nat) (k : Key) : Option Key :=
  match previous_siblingS s k with
  | some sib => some (lastDesc s fuel sib)
  | none => parentS s k

/-- The list of elements produced by repeatedly calling `DecendantsIter::next`
from the cursor state `(front, back)`: when the cursors meet, the met element
is produced and both cursors are cleared; otherwise `front` is produced and
advanced by `stepF`. -/
def descFwdList (s : Structure) (fuel : Nat) : Nat → Option Key → Option Key → List Key
  | 0, _, _ => []
  | _ + 1, none, _ => []
  | n + 1, some f, back =>
    if some f = back then [f]
    else f :: descFwdList s fuel n (stepF s fuel f) back

/-- The list of elements produced by repeatedly calling
`DecendantsIter::next_back` from the cursor state `(front, back)`. -/
def descBwdList (s : Structure) (fuel : Nat) : Nat → Option Key → Option Key → List Key
  | 0, _, _ => []
  | _ + 1, _, none => []
  | n + 1, front, some b =>
    if front = some b then [b]
    else b :: descBwdList s fuel n front (stepB s fuel b)

/-- Initial `front` cursor of `LayerNodeIdentifier::decendants`. -/
def descFront (s : Structure) (self : Key) : Option Key :=
  first_childS s self

/-- Initial `back` cursor of `LayerNodeIdentifier::decendants`:
`last_child.and_then(|child| child.last_children(self).last())`. -/
def descBack (s : Structure) (fuel : Nat) (self : Key) : Option Key :=
  (last_childS s self).map (lastDesc s fuel)

/-- `LayerNodeIdentifier::decendants(...)` collected forwards (`next`). -/
def decendantsList (s : Structure) (self : Key) : List Key :=
  descFwdList s (s.length + 1) (s.length + 1) (descFront s self)
    (descBack s (s.length + 1) self)

/-- `LayerNodeIdentifier::decendants(...).rev()` collected (`next_back`). -/
def decendantsListBack (s : Structure) (self : Key) : List Key :=
  descBwdList s (s.length + 1) (s.length + 1) (descFront s self)
    (descBack s (s.length + 1) self)

/-- `LayerNodeIdentifier::delete`: splice the node out of its sibling list,
fix the parent's boundary children, then remove the node and all its
descendants from the structure. -/
def delete (s : Structure) (self : Key) : Structure :=
  let prev := previous_siblingS s self
  let next := next_siblingS s self
  let s1 := match prev with
    | some p => supdate s p (fun r => { r with next_sibling := next })
    | none => s
  let s2 := match next with
    | some n => supdate s1 n (fun r => { r with previous_sibling := prev })
    | none => s1
  let s3 := match parentS s2 self with
    | some par =>
      let sa := sensure s2 par
      let sb := if first_childS sa par = some self then
          supdate sa par (fun r => { r with first_child := next }) else sa
      if last_childS sb par = some self then
          supdate sb par (fun r => { r with last_child := prev }) else sb
    | none => s2
  let del := self :: decendantsList s3 self
  del.foldl sremove s3

/-- `LayerNodeIdentifier::child_of_root`:
`ancestors(self).filter(!= ROOT).last().expect(...)`; `none` embeds the
fatal `expect` failure. -/
def child_of_root (s : Structure) (x : Key) : Option Key :=
  ((ancestorsList s (s.length + 1) x).filter (fun a => !(a = ROOT))).getLast?

/-! ### Geometry: vectors, affine transforms, quads

`f64` arithmetic is embedded over `ℚ`; all the operations the claims touch
are field operations and comparisons. -/

/-- A 2D vector (`glam::DVec2`). -/
structure Vec2 where
  x : ℚ
  y : ℚ
  deriving DecidableEq, Repr

/-- `DVec2::ZERO` (`Default::default()` for `DVec2`). -/
def Vec2.zero : Vec2 := ⟨0, 0⟩

/-- A 2D affine transform (`glam::DAffine2`): 2x2 matrix columns plus translation. -/
structure DAffine2 where
  xx : ℚ
  xy : ℚ
  yx : ℚ
  yy : ℚ
  tx : ℚ
  ty : ℚ
  deriving DecidableEq, Repr

/-- `DAffine2::IDENTITY`. -/
def DAffine2.IDENTITY : DAffine2 := ⟨1, 0, 0, 1, 0, 0⟩

/-- `DAffine2::transform_point2`. -/
def DAffine2.transform_point2 (m : DAffine2) (p : Vec2) : Vec2 :=
  ⟨m.xx * p.x + m.yx * p.y + m.tx, m.xy * p.x + m.yy * p.y + m.ty⟩

/-- An axis-aligned box `[DVec2; 2]` as a min/max corner pair. -/
abbrev Box := Vec2 × Vec2

/-- `Quad::combine_bounds`: componentwise min of mins and max of maxes. -/
def combine_bounds (a b : Box) : Box :=
  (⟨min a.1.x b.1.x, min a.1.y b.1.y⟩, ⟨max a.2.x b.2.x, max a.2.y b.2.y⟩)

/-- `Iterator::reduce`: fold a list with its own first element as the
accumulator, `none` on an empty list. -/
def reduceOption {α : Type} (f : α → α → α) : List α → Option α
  | [] => none
  | x :: xs => some (xs.foldl f x)

/-- A quad defined by four vertices (`Quad(pub [DVec2; 4])`). -/
structure Quad where
  v0 : Vec2
  v1 : Vec2
  v2 : Vec2
  v3 : Vec2
  deriving DecidableEq, Repr

/-- `Quad::from_box`: vertex order `bbox[0]`, `bbox[0] + size * X`, `bbox[1]`,
`bbox[0] + size * Y`. -/
def Quad.from_box (bmin bmax : Vec2) : Quad :=
  ⟨bmin, ⟨bmin.x + (bmax.x - bmin.x), bmin.y⟩, bmax, ⟨bmin.x, bmin.y + (bmax.y - bmin.y)⟩⟩

/-- One edge test of the loop in `Quad::contains`, with the comparison value
parenthesized exactly as the Rust source writes it:
`self.0[j].x - self.0[i].x * (p.y - self.0[i].y) / (self.0[j].y - self.0[i].y) + self.0[i].x`. -/
def edgeToggles (vi vj p : Vec2) : Bool :=
  (decide (vi.y > p.y) != decide (vj.y > p.y)) &&
    decide (p.x < vj.x - vi.x * (p.y - vi.y) / (vj.y - vi.y) + vi.x)

/-- `Quad::contains`: the even-odd loop over the edge pairing
`(0..4).zip([3, 0, 1, 2])`, toggling the inside flag per `edgeToggles`. -/
def Quad.contains (q : Quad) (p : Vec2) : Bool :=
  [(q.v0, q.v3), (q.v1, q.v0), (q.v2, q.v1), (q.v3, q.v2)].foldl
    (fun inside e => if edgeToggles e.1 e.2 p then !inside else inside) false

/-- The edge test as claim C4 (and the pnpoly reference cited by the source's
doc comment) states it: the x-intersection is the linear interpolation
`v[i].x + (v[j].x - v[i].x) * (p.y - v[i].y) / (v[j].y - v[i].y)`. -/
def edgeTogglesSpec (vi vj p : Vec2) : Bool :=
  (decide (vi.y > p.y) != decide (vj.y > p.y)) &&
    decide (p.x < vi.x + (vj.x - vi.x) * (p.y - vi.y) / (vj.y - vi.y))

/-- The point-in-polygon test as claim C4 states it (correct pnpoly). -/
def containsSpec (q : Quad) (p : Vec2) : Bool :=
  [(q.v0, q.v3), (q.v1, q.v0), (q.v2, q.v1), (q.v3, q.v2)].foldl
    (fun inside e => if edgeTogglesSpec e.1 e.2 p then !inside else inside) false

/-! ### DocumentMetadata -/

/-- Generic association-list lookup (`HashMap::get` for the other maps). -/
def alistFind? {α : Type} : List (Nat × α) → Nat → Option α
  | [], _ => none
  | (k', v) :: rest, k => if k = k' then some v else alistFind? rest k

/-- Modelled from the spec: a cached hit-test shape (`ClickTarget`; its
`subpath` field and `Subpath::bounding_box_with_transform` live in the
external `bezier_rs` crate, not under `src/`).  The shape is represented by
exactly the capability the metadata layer consumes: its axis-aligned
bounding box under a given affine transform, `None` when the shape has no
bounds. -/
structure ClickTarget where
  boundingBoxWithTransform : DAffine2 → Option Box

/-- Modelled from the spec: a hit-test shape that is a single point, whose
bounding box under a transform is the degenerate box at the transformed
point. -/
def pointClickTarget (p : Vec2) : ClickTarget :=
  ⟨fun t => some (t.transform_point2 p, t.transform_point2 p)⟩

/-- Modelled from the spec: the evaluation-context transform of a node
(`Footprint` from the external `graphene_core` crate); only its `transform`
field is consumed by this layer. -/
structure Footprint where
  transform : DAffine2

/-- The aggregate root `DocumentMetadata`. -/
structure DocumentMetadata where
  upstream_transforms : List (Nat × (Footprint × DAffine2))
  struct : Structure
  artboards : List Key
  folders : List Key
  click_targets : List (Key × List ClickTarget)
  selected_nodes : List Nat
  document_to_viewport : DAffine2

/-- `DocumentMetadata::default()`. -/
def defaultDocumentMetadata : DocumentMetadata :=
  { upstream_transforms := []
    struct := defaultStructure
    artboards := []
    folders := []
    click_targets := []
    selected_nodes := []
    document_to_viewport := DAffine2.IDENTITY }

/-- `DocumentMetadata::bounding_box_with_transform`: union of the bounding
boxes of the layer's cached click-target shapes under `transform`. -/
def bounding_box_with_transform (dm : DocumentMetadata) (layer : Key)
    (transform : DAffine2) : Option Box :=
  (alistFind? dm.click_targets layer).bind (fun cts =>
    reduceOption combine_bounds
      (cts.filterMap (fun ct => ct.boundingBoxWithTransform transform)))

/-- The threshold `1e-10` of `nonzero_bounding_box`. -/
def EPS : ℚ := 1 / 10 ^ 10

/-- `DocumentMetadata::nonzero_bounding_box`: the identity-transform click
target bounds (defaulting to the zero box), with each axis of extent below
`1e-10` widened to `1` by moving the max corner. -/
def nonzero_bounding_box (dm : DocumentMetadata) (layer : Key) : Box :=
  let bb := (bounding_box_with_transform dm layer DAffine2.IDENTITY).getD
    (Vec2.zero, Vec2.zero)
  let bmin := bb.1
  let bmax := bb.2
  let newMax : Vec2 :=
    ⟨if bmax.x - bmin.x < EPS then bmin.x + 1 else bmax.x,
     if bmax.y - bmin.y < EPS then bmin.y + 1 else bmax.y⟩
  (bmin, newMax)

/-! ### deepest_common_ancestor -/

/-- The truncation step of `deepest_common_ancestor`'s `reduce`:
`a.truncate(a.iter().zip(b).position(a != b).unwrap_or(min(len a, len b)))`. -/
def truncAtDivergence (a b : List Key) : List Key :=
  a.take (((a.zip b).findIdx? (fun e => !(e.1 = e.2))).getD (min a.length b.length))

/-- `DocumentMetadata::deepest_common_ancestor` as the source writes it: the
root-to-self path of each layer, with the last element popped when
`include_self || !folders.contains(layer)`, reduced by truncation at the
first divergence, answering with the final path's last element. -/
def deepest_common_ancestor (dm : DocumentMetadata) (layers : List Key)
    (include_self : Bool) : Option Key :=
  let paths := layers.map (fun layer =>
    let layer_path := (ancestorsList dm.struct (dm.struct.length + 1) layer).reverse
    if include_self || !(dm.folders.contains layer) then layer_path.dropLast
    else layer_path)
  (reduceOption truncAtDivergence paths).bind (fun l => l.getLast?)

/-- `deepest_common_ancestor` as claim C3 words it: the last element is
dropped exactly when `include_self` is false and the layer is a folder. -/
def deepest_common_ancestor_claimed (dm : DocumentMetadata) (layers : List Key)
    (include_self : Bool) : Option Key :=
  let paths := layers.map (fun layer =>
    let layer_path := (ancestorsList dm.struct (dm.struct.length + 1) layer).reverse
    if !include_self && dm.folders.contains layer then layer_path.dropLast
    else layer_path)
  (reduceOption truncAtDivergence paths).bind (fun l => l.getLast?)

/-- The longest common prefix of two paths. -/
def commonPrefix : List Key → List Key → List Key
  | a :: as_, b :: bs => if a = b then a :: commonPrefix as_ bs else []
  | _, _ => []

/-- The spec's description of `deepest_common_ancestor`, with the pop
condition as the code has it (claim C3 amended): build each layer's
root-to-self path; drop the path's last element exactly when `include_self`
is true or the layer is not a folder; fold the paths pairwise to their
common prefix; answer the final path's last element, `none` if empty. -/
def deepest_common_ancestor_spec (dm : DocumentMetadata) (layers : List Key)
    (include_self : Bool) : Option Key :=
  let paths := layers.map (fun layer =>
    let layer_path := (ancestorsList dm.struct (dm.struct.length + 1) layer).reverse
    if include_self = true ∨ ¬ layer ∈ dm.folders then layer_path.dropLast
    else layer_path)
  (reduceOption commonPrefix paths).bind (fun l => l.getLast?)

/-! ### Structural rebuild: `load_structure`

The computation-graph collaborator (`graph_craft`) is not under `src/`, so
its node type and upstream-walk primitive are modelled from the spec. -/

/-- Modelled from the spec: a node of the computation graph (`DocumentNode`
from the external `graph_craft` crate): its ordered input references, each
optionally a node id (the value of `NodeInput::as_node`), and the
layer/artboard capability tests. -/
structure DocumentNode where
  inputs : List (Option Nat)
  layerFlag : Bool
  artboardFlag : Bool
  deriving DecidableEq, Repr

/-- Modelled from the spec: a computation-graph snapshot (`NodeNetwork`): a
node map and the list of designated output node ids. -/
structure NodeNetwork where
  nodes : List (Nat × DocumentNode)
  outputs : List Nat
  deriving DecidableEq, Repr

/-- Modelled from the spec:
`NodeNetwork::upstream_flow_back_from_nodes(vec![id], true)` walks backward
through each node's first input, starting from and including `id`, yielding
each visited node with its id; the walk stops at a node with no first-input
reference or absent from the node map. -/
def upstreamFlow (g : NodeNetwork) : Nat → Nat → List (DocumentNode × Nat)
  | 0, _ => []
  | fuel + 1, id =>
    match alistFind? g.nodes id with
    | none => []
    | some n =>
      (n, id) :: (match (n.inputs.head?).getD none with
        | some next => upstreamFlow g fuel next
        | none => [])

/-- `first_child_layer`: the nearest upstream layer node reachable from
`node`'s first input. -/
def first_child_layer (g : NodeNetwork) (fuel : Nat) (node : DocumentNode) :
    Option (DocumentNode × Nat) :=
  (((node.inputs.get? 0).getD none).bind (fun id =>
    (upstreamFlow g fuel id).find? (fun e => e.1.layerFlag)))

/-- `sibling_below`: the node referenced by the second input, if it is a
layer node. -/
def sibling_below (g : NodeNetwork) (node : DocumentNode) :
    Option (DocumentNode × Nat) :=
  ((node.inputs.get? 1).getD none).bind (fun id =>
    (alistFind? g.nodes id).bind (fun n => if n.layerFlag then some (n, id) else none))

/-- `is_artboard(layer, network)`: the upstream flow from the layer,
including itself, has an artboard node. -/
def is_artboard_g (layer : Key) (g : NodeNetwork) (fuel : Nat) : Bool :=
  (upstreamFlow g fuel (to_node layer)).any (fun e => e.1.artboardFlag)

/-- `is_folder(layer, network)`: the first input is absent, or the upstream
flow excluding the layer itself has an artboard or layer node. -/
def is_folder_g (layer : Key) (g : NodeNetwork) (fuel : Nat) : Bool :=
  (match (alistFind? g.nodes (to_node layer)).bind (fun n => n.inputs.head?) with
   | some inp => inp.isNone
   | none => false) ||
  ((upstreamFlow g fuel (to_node layer)).drop 1).any
    (fun e => e.1.artboardFlag || e.1.layerFlag)

/-- The stack-driven depth-first walk of `load_structure`: the outer
`while let Some(...) = stack.pop()` loop and the inner sibling loop, fuelled;
`none` embeds a walk that does not terminate within the fuel. -/
def loadWalk (g : NodeNetwork) (gfuel : Nat) :
    Nat → List (DocumentNode × Nat × Key) → Option (DocumentNode × Nat) → Key →
    Structure × List Key × List Key → Option (Structure × List Key × List Key)
  | 0, _, _, _, _ => none
  | fuel + 1, stack, none, _, acc =>
    match stack with
    | [] => some acc
    | (node, id, par) :: rest => loadWalk g gfuel fuel rest (some (node, id)) par acc
  | fuel + 1, stack, some (node, id), par, acc =>
    let cid := new_unchecked id
    if existsS acc.1 cid then
      loadWalk g gfuel fuel stack (sibling_below g node) par acc
    else
      let str1 := push_child_go acc.1 par cid
      let stack1 := match first_child_layer g gfuel node with
        | some (cn, cnid) => (cn, cnid, cid) :: stack
        | none => stack
      let arts1 := if is_artboard_g cid g gfuel then cid :: acc.2.1 else acc.2.1
      let folds1 := if is_folder_g cid g gfuel then cid :: acc.2.2 else acc.2.2
      loadWalk g gfuel fuel stack1 (sibling_below g node) par (str1, arts1, folds1)

/-- `DocumentMetadata::load_structure`: reset `structure`/`folders`/`artboards`,
walk the graph, then prune `selected_nodes`, `upstream_transforms` and
`click_targets`.  `none` embeds the panic on an empty `outputs` list and
walk non-termination; the two `let ... else { return; }` early exits return
without pruning. -/
def load_structure (dm : DocumentMetadata) (g : NodeNetwork) (fuel : Nat) :
    Option DocumentMetadata :=
  let dm0 := { dm with struct := defaultStructure, folders := ([] : List Key),
                       artboards := ([] : List Key) }
  match g.outputs.head? with
  | none => none
  | some id =>
    match alistFind? g.nodes id with
    | none => some dm0
    | some output_node =>
      match first_child_layer g fuel output_node with
      | none => some dm0
      | some (layer_node, node_id) =>
        (loadWalk g fuel fuel [] (some (layer_node, node_id)) ROOT
            (dm0.struct, [], [])).map (fun acc =>
          { dm0 with
            struct := acc.1
            artboards := acc.2.1
            folders := acc.2.2
            selected_nodes :=
              dm0.selected_nodes.filter (fun n => (alistFind? g.nodes n).isSome)
            upstream_transforms :=
              dm0.upstream_transforms.filter (fun e => (alistFind? g.nodes e.1).isSome)
            click_targets :=
              dm0.click_targets.filter (fun e => existsS acc.1 e.1) })

/-- The condition under which `load_structure` takes one of its two
`return;` early exits: the output node is absent from the node map, or no
first upstream layer is found. -/
def earlyReturn (g : NodeNetwork) (fuel : Nat) : Bool :=
  match g.outputs.head? with
  | none => false
  | some id =>
    match alistFind? g.nodes id with
    | none => true
    | some n => (first_child_layer g fuel n).isNone

/-! ### Rose-tree representation of consistent link structures

A consistent tree state is one whose `structure` map is exactly the
link-record family of an ordered rose tree rooted at `ROOT` with pairwise
distinct keys.  `relT`/`relF` compute, for each key of the tree, the record
the five links must hold. -/

mutual
/-- An ordered rose tree of layer keys. -/
inductive RT : Type where
  | node : Key → Forest → RT
  deriving DecidableEq
/-- An ordered forest of layer keys. -/
inductive Forest : Type where
  | nil : Forest
  | cons : RT → Forest → Forest
  deriving DecidableEq
end

/-- The key at the root of a tree. -/
def RT.key : RT → Key
  | .node k _ => k

/-- The child forest of the root of a tree. -/
def RT.children : RT → Forest
  | .node _ cs => cs

mutual
/-- Pre-order key list of a tree. -/
def preT : RT → List Key
  | .node k cs => k :: preF cs
/-- Pre-order key list of a forest. -/
def preF : Forest → List Key
  | .nil => []
  | .cons t ts => preT t ++ preF ts
end

/-- Key of the first tree of a forest. -/
def headKey : Forest → Option Key
  | .nil => none
  | .cons t _ => some t.key

/-- The last tree of a forest. -/
def lastTree : Forest → Option RT
  | .nil => none
  | .cons t .nil => some t
  | .cons _ (.cons u ts) => lastTree (.cons u ts)

/-- Key of the last tree of a forest. -/
def lastKey (ts : Forest) : Option Key :=
  (lastTree ts).map RT.key

/-- Top-level (root) keys of a forest, in order. -/
def topKeys : Forest → List Key
  | .nil => []
  | .cons t ts => t.key :: topKeys ts

/-- Number of top-level trees of a forest. -/
def topLen : Forest → Nat
  | .nil => 0
  | .cons _ ts => topLen ts + 1

mutual
/-- The link record of each key of a tree, given the root's context links
(`par`, `prev`, `next`). -/
def relT (par prev next : Option Key) : RT → Key → Option NodeRelations
  | .node k cs, q =>
    if q = k then some ⟨par, prev, next, headKey cs, lastKey cs⟩
    else relF (some k) none cs q
/-- The link record of each key of a forest, given the parent key context
and the key of the sibling preceding the forest. -/
def relF (par prev : Option Key) : Forest → Key → Option NodeRelations
  | .nil, _ => none
  | .cons t ts, q =>
    match relT par prev (headKey ts) t q with
    | some r => some r
    | none => relF par (some t.key) ts q
end

/-- The link consistency invariant: the structure map is exactly the record
family of an ordered rose tree `t` rooted at `ROOT` with pairwise distinct
keys. -/
def TreeState (s : Structure) (t : RT) : Prop :=
  t.key = ROOT ∧ (preT t).Nodup ∧ ∀ q, sfind? s q = relT none none none t q

/-- A structure with no bindings at all (the state `delete(ROOT)` leaves). -/
def EmptyState (s : Structure) : Prop :=
  ∀ q, sfind? s q = none

/-- The lookups of `s` agree with the records of the subtree `t` sitting at
context (`par`, `prev`, `next`), for every key of `t`. -/
def RealizedT (s : Structure) (par prev next : Option Key) (t : RT) : Prop :=
  ∀ q ∈ preT t, sfind? s q = relT par prev next t q

/-- The lookups of `s` agree with the records of the subforest `ts` whose
parent has key `par` and whose preceding sibling is `prev`, for every key
of `ts`. -/
def RealizedF (s : Structure) (par : Option Key) (prev : Option Key) (ts : Forest) : Prop :=
  ∀ q ∈ preF ts, sfind? s q = relF par prev ts q

theorem preT_def (k : Key) (cs : Forest) : preT (.node k cs) = k :: preF cs := rfl

theorem key_mem_preT (t : RT) : t.key ∈ preT t := by
  obtain ⟨k, cs⟩ := t
  simp [preT, RT.key]

mutual
theorem relT_isSome :
    ∀ (t : RT) (par prev next : Option Key) (q : Key),
      (relT par prev next t q).isSome = true ↔ q ∈ preT t
  | .node k cs, par, prev, next, q => by
    by_cases hq : q = k
    · subst hq
      simp [relT, preT]
    · simp only [relT, preT, hq, if_false, List.mem_cons, false_or]
      exact relF_isSome cs (some k) none q
theorem relF_isSome :
    ∀ (ts : Forest) (par prev : Option Key) (q : Key),
      (relF par prev ts q).isSome = true ↔ q ∈ preF ts
  | .nil, par, prev, q => by simp [relF, preF]
  | .cons t ts, par, prev, q => by
    simp only [relF, preF, List.mem_append]
    cases h : relT par prev (headKey ts) t q with
    | some r =>
      have hmem : q ∈ preT t := by
        have := (relT_isSome t par prev (headKey ts) q).mp
        simp [h] at this
        exact this
      simp [hmem]
    | none =>
      have hq : ¬ q ∈ preT t := by
        intro hmem
        have := (relT_isSome t par prev (headKey ts) q).mpr hmem
        simp [h] at this
      simp only [hq, false_or]
      exact relF_isSome ts par (some t.key) q
end

/-- Context links only influence the record of the root key. -/
theorem relT_congr {q : Key} {t : RT} (h : q ≠ t.key)
    (par prev next par' prev' next' : Option Key) :
    relT par prev next t q = relT par' prev' next' t q := by
  obtain ⟨k, cs⟩ := t
  simp only [RT.key] at h
  simp [relT, h]

theorem relT_none_of_not_mem {q : Key} {t : RT} (h : ¬ q ∈ preT t)
    (par prev next : Option Key) : relT par prev next t q = none := by
  cases hrel : relT par prev next t q with
  | none => rfl
  | some r =>
    exact absurd ((relT_isSome t par prev next q).mp (by simp [hrel])) h

theorem relF_none_of_not_mem :
    ∀ {ts : Forest} {q : Key}, ¬ q ∈ preF ts →
      ∀ (par prev : Option Key), relF par prev ts q = none
  | .nil, q, _, par, prev => by simp [relF]
  | .cons t ts, q, h, par, prev => by
    simp only [preF, List.mem_append] at h
    push_neg at h
    simp [relF, relT_none_of_not_mem h.1, relF_none_of_not_mem h.2]

theorem nodup_preF_of_cons {t : RT} {ts : Forest} (h : (preF (.cons t ts)).Nodup) :
    (preT t).Nodup ∧ (preF ts).Nodup ∧ ∀ q ∈ preT t, ¬ q ∈ preF ts := by
  simp only [preF] at h
  rw [List.nodup_append] at h
  exact ⟨h.1, h.2.1, fun q hq hq2 => h.2.2 hq hq2⟩

theorem nodup_preT (k : Key) (cs : Forest) (h : (preT (.node k cs)).Nodup) :
    ¬ k ∈ preF cs ∧ (preF cs).Nodup := by
  simp only [preT, List.nodup_cons] at h
  exact h

/-- Decomposition of a realized forest into its first tree and the rest. -/
theorem realizedF_cons {s : Structure} {par prev : Option Key} {t : RT} {ts : Forest}
    (hnd : (preF (.cons t ts)).Nodup)
    (h : RealizedF s par prev (.cons t ts)) :
    RealizedT s par prev (headKey ts) t ∧ RealizedF s par (some t.key) ts := by
  obtain ⟨hndt, hndts, hdisj⟩ := nodup_preF_of_cons hnd
  constructor
  · intro q hq
    have hmem : q ∈ preF (.cons t ts) := by simp [preF, hq]
    have := h q hmem
    rw [this]
    have hsome : (relT par prev (headKey ts) t q).isSome = true :=
      (relT_isSome t par prev (headKey ts) q).mpr hq
    cases hrel : relT par prev (headKey ts) t q with
    | none => simp [hrel] at hsome
    | some r => simp [relF, hrel]
  · intro q hq
    have hmem : q ∈ preF (.cons t ts) := by simp [preF, hq]
    have := h q hmem
    rw [this]
    have hnotm : ¬ q ∈ preT t := fun hm => hdisj q hm hq
    simp [relF, relT_none_of_not_mem hnotm]

/-- Decomposition of a realized tree into its root record and child forest. -/
theorem realizedT_node {s : Structure} {par prev next : Option Key} {k : Key} {cs : Forest}
    (hnd : (preT (.node k cs)).Nodup)
    (h : RealizedT s par prev next (.node k cs)) :
    sfind? s k = some ⟨par, prev, next, headKey cs, lastKey cs⟩ ∧
      RealizedF s (some k) none cs := by
  obtain ⟨hknot, hndcs⟩ := nodup_preT k cs hnd
  constructor
  · have := h k (key_mem_preT (.node k cs))
    rw [this]
    simp [relT]
  · intro q hq
    have hqk : q ≠ k := fun hqe => hknot (hqe ▸ hq)
    have hmem : q ∈ preT (.node k cs) := by simp [preT, hq]
    have := h q hmem
    rw [this]
    simp [relT, hqk]

/-- A tree state realizes the whole tree. -/
theorem treeState_realized {s : Structure} {t : RT} (h : TreeState s t) :
    RealizedT s none none none t := by
  intro q _
  exact h.2.2 q

/-! ### Domain cardinality: fuel bounds -/

theorem mem_fst_of_sfind?_isSome :
    ∀ {s : Structure} {q : Key}, (sfind? s q).isSome = true → q ∈ s.map Prod.fst
  | [], q, h => by simp [sfind?] at h
  | (k, r) :: rest, q, h => by
    by_cases hq : q = k
    · simp [hq]
    · simp only [sfind?, hq, if_false] at h
      simp [mem_fst_of_sfind?_isSome h]

/-- Any duplicate-free list of keys present in `s` is no longer than `s`. -/
theorem nodup_present_length_le {s : Structure} {l : List Key} (hnd : l.Nodup)
    (hmem : ∀ q ∈ l, (sfind? s q).isSome = true) : l.length ≤ s.length := by
  have hsub : l ⊆ s.map Prod.fst := fun q hq => mem_fst_of_sfind?_isSome (hmem q hq)
  calc l.length = l.toFinset.card := (List.toFinset_card_of_nodup hnd).symm
    _ ≤ (s.map Prod.fst).toFinset.card := Finset.card_le_card (fun q hq => by
        rw [List.mem_toFinset] at hq ⊢
        exact hsub hq)
    _ ≤ (s.map Prod.fst).length := (s.map Prod.fst).toFinset_card_le
    _ = s.length := by simp

theorem treeState_size_le {s : Structure} {t : RT} (h : TreeState s t) :
    (preT t).length ≤ s.length := by
  refine nodup_present_length_le h.2.1 (fun q hq => ?_)
  rw [h.2.2 q]
  exact (relT_isSome t none none none q).mpr hq

/-! ### Sibling chains -/

theorem axisList_nil_fuel (s : Structure) (next : Structure → Key → Option Key)
    (start : Option Key) : axisList s next 0 start = [] := by cases start <;> rfl

theorem axisList_none (s : Structure) (next : Structure → Key → Option Key)
    (fuel : Nat) : axisList s next fuel none = [] := by
  cases fuel <;> rfl

theorem axisList_some (s : Structure) (next : Structure → Key → Option Key)
    (fuel : Nat) (k : Key) :
    axisList s next (fuel + 1) (some k) = k :: axisList s next fuel (next s k) := rfl

theorem topKeys_cons (t : RT) (ts : Forest) :
    topKeys (.cons t ts) = t.key :: topKeys ts := rfl

theorem topLen_cons (t : RT) (ts : Forest) : topLen (.cons t ts) = topLen ts + 1 := rfl

/-- The forward `next_sibling` chain from the head of a realized forest
enumerates exactly its top-level keys. -/
theorem fwdChain_eq_topKeys :
    ∀ (ts : Forest) (s : Structure) (par prev : Option Key) (fuel : Nat),
      RealizedF s par prev ts → (preF ts).Nodup → topLen ts ≤ fuel →
      axisList s next_siblingS fuel (headKey ts) = topKeys ts
  | .nil, s, par, prev, fuel, _, _, _ => by
    simp [headKey, topKeys, axisList_none]
  | .cons t ts, s, par, prev, fuel, hreal, hnd, hfuel => by
    obtain ⟨hrt, hrts⟩ := realizedF_cons hnd hreal
    obtain ⟨k, cs⟩ := t
    obtain ⟨hfind, _⟩ := realizedT_node (nodup_preF_of_cons hnd).1 hrt
    cases fuel with
    | zero => simp [topLen] at hfuel
    | succ f =>
      have hnext : next_siblingS s (RT.node k cs).key = headKey ts := by
        simp [next_siblingS, RT.key] at hfind ⊢
        simp [hfind]
      rw [show headKey (.cons (RT.node k cs) ts) = some (RT.node k cs).key from rfl,
        axisList_some, hnext, topKeys_cons]
      have hf : topLen ts ≤ f := by
        have := hfuel
        rw [topLen_cons] at this
        omega
      rw [fwdChain_eq_topKeys ts s par (some (RT.node k cs).key) f hrts
        (nodup_preF_of_cons hnd).2.1 hf]

/-- The backward `previous_sibling` chain from the last key of a realized
forest enumerates its top-level keys in reverse order and then continues
from the forest's preceding-sibling context. -/
theorem bwdChain_eq :
    ∀ (ts : Forest) (t : RT) (s : Structure) (par prev : Option Key) (fuel : Nat),
      RealizedF s par prev (.cons t ts) → (preF (.cons t ts)).Nodup →
      topLen (.cons t ts) ≤ fuel →
      axisList s previous_siblingS fuel (lastKey (.cons t ts)) =
        (topKeys (.cons t ts)).reverse ++
          axisList s previous_siblingS (fuel - topLen (.cons t ts)) prev
  | .nil, t, s, par, prev, fuel, hreal, hnd, hfuel => by
    obtain ⟨hrt, _⟩ := realizedF_cons hnd hreal
    obtain ⟨k, cs⟩ := t
    obtain ⟨hfind, _⟩ := realizedT_node (nodup_preF_of_cons hnd).1 hrt
    cases fuel with
    | zero => simp [topLen] at hfuel
    | succ f =>
      have hprev : previous_siblingS s k = prev := by
        simp [previous_siblingS, RT.key] at hfind ⊢
        simp [hfind]
      have hlast : lastKey (.cons (RT.node k cs) .nil) = some k := rfl
      rw [hlast, axisList_some, hprev]
      simp [topKeys, topLen, RT.key]
  | .cons u ts, t, s, par, prev, fuel, hreal, hnd, hfuel => by
    obtain ⟨hrt, hrts⟩ := realizedF_cons hnd hreal
    obtain ⟨k, cs⟩ := t
    obtain ⟨hfind, _⟩ := realizedT_node (nodup_preF_of_cons hnd).1 hrt
    have hlast : lastKey (.cons (RT.node k cs) (.cons u ts)) = lastKey (.cons u ts) := rfl
    have hfuel2 : topLen (.cons u ts) ≤ fuel := by
      rw [topLen_cons] at hfuel
      omega
    rw [hlast, bwdChain_eq ts u s par (some (RT.node k cs).key) fuel hrts
      (nodup_preF_of_cons hnd).2.1 hfuel2]
    have hrest : fuel - topLen (.cons u ts) = (fuel - topLen (.cons (RT.node k cs) (.cons u ts))) + 1 := by
      simp only [topLen_cons] at hfuel ⊢
      omega
    have hprev : previous_siblingS s (RT.node k cs).key = prev := by
      simp [previous_siblingS, RT.key] at hfind ⊢
      simp [hfind]
    rw [hrest, axisList_some, hprev]
    simp [topKeys_cons, RT.key]

/-! ### The deepest last-child descendant -/

mutual
/-- The last element of the pre-order of a tree: the bottom of its
`last_child` spine. -/
def lastDescT : RT → Key
  | .node k cs => (lastDescF cs).getD k
/-- The last element of the pre-order of a forest, if nonempty. -/
def lastDescF : Forest → Option Key
  | .nil => none
  | .cons t .nil => some (lastDescT t)
  | .cons _ (.cons u ts) => lastDescF (.cons u ts)
end

theorem lastDescF_eq_lastTree :
    ∀ ts : Forest, lastDescF ts = (lastTree ts).map lastDescT
  | .nil => rfl
  | .cons _ .nil => rfl
  | .cons _ (.cons u ts) => by
    rw [show lastDescF (.cons _ (.cons u ts)) = lastDescF (.cons u ts) from rfl,
      show lastTree (.cons _ (.cons u ts)) = lastTree (.cons u ts) from rfl]
    exact lastDescF_eq_lastTree (.cons u ts)

theorem preF_of_lastTree :
    ∀ {ts : Forest} {u : RT}, lastTree ts = some u → ∃ pre, preF ts = pre ++ preT u
  | .nil, u, h => by simp [lastTree] at h
  | .cons t .nil, u, h => by
    simp only [lastTree, Option.some_inj] at h
    subst h
    exact ⟨[], by simp [preF]⟩
  | .cons t (.cons v ts), u, h => by
    rw [show lastTree (.cons t (.cons v ts)) = lastTree (.cons v ts) from rfl] at h
    obtain ⟨pre, hpre⟩ := preF_of_lastTree h
    refine ⟨preT t ++ pre, ?_⟩
    rw [show preF (.cons t (.cons v ts)) = preT t ++ preF (.cons v ts) from rfl, hpre,
      List.append_assoc]

/-- The last tree of a realized forest is realized with `next` context `none`. -/
theorem realizedF_lastTree :
    ∀ {ts : Forest} {s : Structure} {par prev : Option Key} {u : RT},
      RealizedF s par prev ts → (preF ts).Nodup → lastTree ts = some u →
      ∃ prev', RealizedT s par prev' none u
  | .nil, s, par, prev, u, _, _, h => by simp [lastTree] at h
  | .cons t .nil, s, par, prev, u, hreal, hnd, h => by
    simp only [lastTree, Option.some_inj] at h
    subst h
    obtain ⟨hrt, _⟩ := realizedF_cons hnd hreal
    exact ⟨prev, by simpa [headKey] using hrt⟩
  | .cons t (.cons v ts), s, par, prev, u, hreal, hnd, h => by
    rw [show lastTree (.cons t (.cons v ts)) = lastTree (.cons v ts) from rfl] at h
    obtain ⟨_, hrts⟩ := realizedF_cons hnd hreal
    exact realizedF_lastTree hrts (nodup_preF_of_cons hnd).2.1 h

theorem preT_length_pos (t : RT) : 1 ≤ (preT t).length := by
  obtain ⟨k, cs⟩ := t
  simp [preT]

/-- `lastDesc` (the `last_children` chain) computes `lastDescT` on a
realized subtree. -/
theorem lastDesc_eq :
    ∀ (t : RT) (s : Structure) (par prev next : Option Key) (fuel : Nat),
      RealizedT s par prev next t → (preT t).Nodup → (preT t).length ≤ fuel →
      lastDesc s fuel t.key = lastDescT t
  | .node k cs, s, par, prev, next, fuel, hreal, hnd, hfuel => by
    obtain ⟨hfind, hrcs⟩ := realizedT_node hnd hreal
    cases fuel with
    | zero =>
      have := preT_length_pos (.node k cs)
      omega
    | succ f =>
      have hlc : last_childS s (RT.node k cs).key = lastKey cs := by
        simp [last_childS, RT.key] at hfind ⊢
        simp [hfind]
      simp only [RT.key] at hlc
      simp only [RT.key] at hlc ⊢
      cases hlt : lastTree cs with
      | none =>
        have hknone : lastKey cs = none := by simp [lastKey, hlt]
        rw [show lastDesc s (f + 1) k = (match last_childS s k with
          | none => k
          | some c => lastDesc s f c) from rfl]
        rw [hlc, hknone]
        simp [lastDescT, lastDescF_eq_lastTree, hlt]
      | some u =>
        have hlk : lastKey cs = some u.key := by simp [lastKey, hlt]
        obtain ⟨prev', hru⟩ := realizedF_lastTree hrcs (nodup_preT k cs hnd).2 hlt
        obtain ⟨pre, hpre⟩ := preF_of_lastTree hlt
        have hndu : (preT u).Nodup := by
          have := (nodup_preT k cs hnd).2
          rw [hpre] at this
          exact this.of_append_right
        have hlen : (preT u).length ≤ f := by
          have h1 : (preF cs).length = pre.length + (preT u).length := by
            rw [hpre]; simp
          have h2 : (preT (RT.node k cs)).length = (preF cs).length + 1 := by
            simp [preT]
          omega
        rw [show lastDesc s (f + 1) k = (match last_childS s k with
          | none => k
          | some c => lastDesc s f c) from rfl]
        rw [hlc, hlk]
        have heq := lastDesc_eq u s (some k) prev' none f hru hndu hlen
        rw [show (match some u.key with
          | none => k
          | some c => lastDesc s f c) = lastDesc s f u.key from rfl, heq]
        simp [lastDescT, lastDescF_eq_lastTree, hlt]

mutual
theorem lastDescT_mem : ∀ t : RT, lastDescT t ∈ preT t
  | .node k cs => by
    cases hlt : lastDescF cs with
    | none => simp [lastDescT, hlt, preT]
    | some b =>
      have := lastDescF_mem cs b hlt
      simp [lastDescT, hlt, preT, this]
theorem lastDescF_mem : ∀ (ts : Forest) (b : Key), lastDescF ts = some b → b ∈ preF ts
  | .nil, b, h => by simp [lastDescF] at h
  | .cons t .nil, b, h => by
    rw [show lastDescF (.cons t .nil) = some (lastDescT t) from rfl] at h
    have := lastDescT_mem t
    simp only [Option.some_inj] at h
    subst h
    simp [preF, this]
  | .cons t (.cons u ts), b, h => by
    rw [show lastDescF (.cons t (.cons u ts)) = lastDescF (.cons u ts) from rfl] at h
    have := lastDescF_mem (.cons u ts) b h
    simp [preF] at this ⊢
    tauto
end

/-! ### The ancestor climb of the forward iterator -/

/-- `ancFindNext` from `x` yields `r` at every fuel of at least `n`. -/
def ClimbsTo (s : Structure) (x : Key) (r : Option Key) (n : Nat) : Prop :=
  ∀ fuel, n ≤ fuel → ancFindNext s fuel x = r

theorem climbsTo_mono {s : Structure} {x : Key} {r : Option Key} {n m : Nat}
    (h : ClimbsTo s x r n) (hnm : n ≤ m) : ClimbsTo s x r m :=
  fun fuel hf => h fuel (le_trans hnm hf)

theorem climbsTo_of_next {s : Structure} {x nk : Key}
    (h : next_siblingS s x = some nk) : ClimbsTo s x (some nk) 1 := by
  intro fuel hf
  obtain ⟨f, rfl⟩ := Nat.exists_eq_add_of_le hf
  rw [show ancFindNext s (1 + f) x = ancFindNext s (f + 1) x from by ring_nf]
  simp [ancFindNext, h]

theorem climbsTo_step {s : Structure} {x p : Key} {r : Option Key} {n : Nat}
    (hnext : next_siblingS s x = none) (hpar : parentS s x = some p)
    (h : ClimbsTo s p r n) : ClimbsTo s x r (n + 1) := by
  intro fuel hf
  obtain ⟨f, rfl⟩ := Nat.exists_eq_add_of_le hf
  rw [show n + 1 + f = (n + f) + 1 from by ring]
  rw [show ancFindNext s ((n + f) + 1) x = (match next_siblingS s x with
    | some nx => some nx
    | none => match parentS s x with
      | some q => ancFindNext s (n + f) q
      | none => none) from rfl]
  rw [hnext, hpar]
  exact h (n + f) (Nat.le_add_right n f)

/-- Climbing from the bottom of the `last_child` spine of a realized subtree
gives the same answer as climbing from the subtree's root. -/
theorem climbsTo_lastDesc :
    ∀ (t : RT) (s : Structure) (par prev next : Option Key),
      RealizedT s par prev next t → (preT t).Nodup →
      ∀ (cont : Option Key) (n : Nat), ClimbsTo s t.key cont n →
      ClimbsTo s (lastDescT t) cont (n + (preT t).length)
  | .node k cs, s, par, prev, next, hreal, hnd, cont, n, hclimb => by
    obtain ⟨hfind, hrcs⟩ := realizedT_node hnd hreal
    cases hlt : lastTree cs with
    | none =>
      have hnone : lastDescF cs = none := by
        rw [lastDescF_eq_lastTree, hlt]
        rfl
      rw [show lastDescT (RT.node k cs) = (lastDescF cs).getD k from rfl, hnone]
      exact climbsTo_mono (by simpa [RT.key] using hclimb) (Nat.le_add_right _ _)
    | some u =>
      obtain ⟨prev', hru⟩ := realizedF_lastTree hrcs (nodup_preT k cs hnd).2 hlt
      obtain ⟨pre, hpre⟩ := preF_of_lastTree hlt
      have hndu : (preT u).Nodup := by
        have := (nodup_preT k cs hnd).2
        rw [hpre] at this
        exact this.of_append_right
      obtain ⟨uk, ucs⟩ := u
      obtain ⟨hufind, _⟩ := realizedT_node hndu hru
      have hun : next_siblingS s uk = none := by
        simp [next_siblingS]
        simp [hufind]
      have hup : parentS s uk = some k := by
        simp [parentS]
        simp [hufind]
      have hck : ClimbsTo s (RT.node uk ucs).key cont (n + 1) :=
        climbsTo_step hun hup (by simpa [RT.key] using hclimb)
      have := climbsTo_lastDesc (RT.node uk ucs) s (some k) prev' none hru hndu cont (n + 1) hck
      have hgoal : lastDescT (RT.node k cs) = lastDescT (RT.node uk ucs) := by
        rw [show lastDescT (RT.node k cs) = (lastDescF cs).getD k from rfl,
          lastDescF_eq_lastTree, hlt]
        rfl
      rw [hgoal]
      refine climbsTo_mono this ?_
      have h1 : (preT (RT.node uk ucs)).length ≤ pre.length + (preT (RT.node uk ucs)).length := by
        omega
      have h2 : (preT (RT.node k cs)).length = (preF cs).length + 1 := by simp [preT]
      have h3 : (preF cs).length = pre.length + (preT (RT.node uk ucs)).length := by
        rw [hpre]
        simp
      omega
termination_by t s par prev next hreal hnd cont n hclimb => (preT t).length
decreasing_by
  have h2 : (preT (RT.node k cs)).length = (preF cs).length + 1 := by simp [preT]
  have h3 : (preF cs).length = pre.length + (preT (RT.node uk ucs)).length := by
    rw [hpre]
    simp
  omega

/-! ### Forward iteration of the descendant iterator -/

theorem descFwdList_none (s : Structure) (F m : Nat) (back : Option Key) :
    descFwdList s F m none back = [] := by cases m <;> rfl

theorem descFwdList_succ (s : Structure) (F m : Nat) (f : Key) (back : Option Key) :
    descFwdList s F (m + 1) (some f) back =
      if some f = back then [f] else f :: descFwdList s F m (stepF s F f) back := rfl

mutual
/-- Running the forward iterator from the root of a realized subtree, with a
stop marker outside the subtree, yields the subtree's pre-order and then
continues from the subtree's ancestor-climb continuation. -/
theorem runT : ∀ (t : RT) (s : Structure) (par prev next : Option Key),
    RealizedT s par prev next t → (preT t).Nodup →
    ∀ (b : Key), ¬ b ∈ preT t → ∀ (cont : Option Key) (n F : Nat),
    ClimbsTo s t.key cont n → n + (preT t).length ≤ F →
    ∀ (m : Nat), (preT t).length ≤ m →
    descFwdList s F m (some t.key) (some b) =
      preT t ++ descFwdList s F (m - (preT t).length) cont (some b)
  | .node k cs, s, par, prev, next, hreal, hnd, b, hb, cont, n, F, hclimb, hF, m, hm => by
    obtain ⟨hfind, hrcs⟩ := realizedT_node hnd hreal
    have hbk : ¬ (b = k) := by
      intro hbe
      exact hb (by simp [preT, hbe])
    have hbcs : ¬ b ∈ preF cs := fun hmem => hb (by simp [preT, hmem])
    have hfc : first_childS s k = headKey cs := by
      simp [first_childS, hfind]
    cases m with
    | zero =>
      have := preT_length_pos (.node k cs)
      omega
    | succ m' =>
      rw [show (RT.node k cs).key = k from rfl, descFwdList_succ]
      have hne : ¬ (some k = some b) := by
        simp
        intro hke
        exact hbk hke.symm
      rw [if_neg hne]
      cases cs with
      | nil =>
        have hcont : ancFindNext s F k = cont := by
          refine climbsTo_mono (by simpa [RT.key] using hclimb) ?_ F (le_refl F)
          have : (preT (RT.node k .nil)).length = 1 := by simp [preT, preF]
          omega
        have hstep : stepF s F k = cont := by
          rw [show stepF s F k = (match first_childS s k with
            | some c => some c
            | none => ancFindNext s F k) from rfl, hfc]
          rw [show headKey .nil = (none : Option Key) from rfl]
          exact hcont
        rw [hstep]
        rw [show preT (RT.node k .nil) = [k] from by simp [preT, preF]]
        simp
      | cons c cs' =>
        have hstep : stepF s F k = some c.key := by
          rw [show stepF s F k = (match first_childS s k with
            | some d => some d
            | none => ancFindNext s F k) from rfl, hfc]
          rfl
        rw [hstep]
        have hcons : Forest.cons c cs' ≠ Forest.nil := by intro hc; exact Forest.noConfusion hc
        have hndcs : (preF (.cons c cs')).Nodup := (nodup_preT k (.cons c cs') hnd).2
        have hclimbk : ClimbsTo s k cont n := by simpa [RT.key] using hclimb
        have hlen : (preT (RT.node k (.cons c cs'))).length =
            (preF (.cons c cs')).length + 1 := by simp [preT]
        have hrunf := runF (.cons c cs') s k none hcons hrcs hndcs b hbcs cont n F hclimbk
          (by omega) m' (by omega)
        rw [show (some c.key : Option Key) = headKey (.cons c cs') from rfl, hrunf]
        rw [show (preT (RT.node k (.cons c cs'))).length =
          (preF (.cons c cs')).length + 1 from hlen]
        rw [show preT (RT.node k (.cons c cs')) = k :: preF (.cons c cs') from rfl]
        simp only [List.cons_append, List.cons.injEq, true_and]
        have harith : m' - (preF (.cons c cs')).length =
            m' + 1 - ((preF (.cons c cs')).length + 1) := by omega
        rw [harith]
/-- Running the forward iterator from the head of a realized non-empty
forest, with a stop marker outside the forest, yields the forest's pre-order
and then continues from the parent's ancestor-climb continuation. -/
theorem runF : ∀ (ts : Forest) (s : Structure) (p : Key) (prev : Option Key),
    ts ≠ Forest.nil → RealizedF s (some p) prev ts → (preF ts).Nodup →
    ∀ (b : Key), ¬ b ∈ preF ts → ∀ (cont : Option Key) (n F : Nat),
    ClimbsTo s p cont n → n + 1 + (preF ts).length ≤ F →
    ∀ (m : Nat), (preF ts).length ≤ m →
    descFwdList s F m (headKey ts) (some b) =
      preF ts ++ descFwdList s F (m - (preF ts).length) cont (some b)
  | .nil, s, p, prev, hne, _, _, _, _, _, _, _, _, _, _, _ => (hne rfl).elim
  | .cons t .nil, s, p, prev, _, hreal, hnd, b, hb, cont, n, F, hclimb, hF, m, hm => by
    obtain ⟨hrt, _⟩ := realizedF_cons hnd hreal
    obtain ⟨tk, tcs⟩ := t
    obtain ⟨hfind, _⟩ := realizedT_node (nodup_preF_of_cons hnd).1 hrt
    have hnextn : next_siblingS s tk = none := by
      simp only [headKey] at hfind
      simp [next_siblingS, hfind]
    have hparp : parentS s tk = some p := by
      simp [parentS, hfind]
    have hct : ClimbsTo s (RT.node tk tcs).key cont (n + 1) :=
      climbsTo_step (by simpa [RT.key] using hnextn) (by simpa [RT.key] using hparp) hclimb
    have hlenf : (preF (.cons (RT.node tk tcs) .nil)).length =
        (preT (RT.node tk tcs)).length := by simp [preF]
    have hbt : ¬ b ∈ preT (RT.node tk tcs) := by
      intro hmem
      exact hb (by simp [preF, hmem])
    have := runT (RT.node tk tcs) s (some p) prev none hrt (nodup_preF_of_cons hnd).1
      b hbt cont (n + 1) F hct (by omega) m (by omega)
    rw [show headKey (.cons (RT.node tk tcs) .nil) = some (RT.node tk tcs).key from rfl,
      this]
    rw [show preF (.cons (RT.node tk tcs) .nil) = preT (RT.node tk tcs) ++ preF .nil from rfl]
    simp only [preF, List.append_nil]
  | .cons t (.cons u ts'), s, p, prev, _, hreal, hnd, b, hb, cont, n, F, hclimb, hF, m, hm => by
    obtain ⟨hrt, hrts⟩ := realizedF_cons hnd hreal
    obtain ⟨tk, tcs⟩ := t
    obtain ⟨hfind, _⟩ := realizedT_node (nodup_preF_of_cons hnd).1 hrt
    have hnextu : next_siblingS s tk = some u.key := by
      simp only [headKey] at hfind
      simp [next_siblingS, hfind]
    have hct : ClimbsTo s (RT.node tk tcs).key (some u.key) 1 :=
      climbsTo_of_next (by simpa [RT.key] using hnextu)
    have hbt : ¬ b ∈ preT (RT.node tk tcs) := by
      intro hmem
      exact hb (by simp [preF, hmem])
    have hbrest : ¬ b ∈ preF (.cons u ts') := by
      intro hmem
      exact hb (by simp [preF]; right; simp [preF] at hmem; tauto)
    have hlen : (preF (.cons (RT.node tk tcs) (.cons u ts'))).length =
        (preT (RT.node tk tcs)).length + (preF (.cons u ts')).length := by simp [preF]
    have h1 := runT (RT.node tk tcs) s (some p) prev (headKey (.cons u ts')) hrt
      (nodup_preF_of_cons hnd).1 b hbt (some u.key) 1 F hct (by omega) m (by omega)
    have hcons : Forest.cons u ts' ≠ Forest.nil := by intro hc; exact Forest.noConfusion hc
    have h2 := runF (.cons u ts') s p (some (RT.node tk tcs).key) hcons hrts
      (nodup_preF_of_cons hnd).2.1 b hbrest cont n F hclimb (by omega)
      (m - (preT (RT.node tk tcs)).length) (by omega)
    rw [show headKey (.cons (RT.node tk tcs) (.cons u ts')) = some (RT.node tk tcs).key from rfl,
      h1, show some u.key = headKey (.cons u ts') from rfl, h2]
    rw [show (preF (.cons (RT.node tk tcs) (.cons u ts'))).length =
      (preT (RT.node tk tcs)).length + (preF (.cons u ts')).length from hlen]
    rw [show preF (.cons (RT.node tk tcs) (.cons u ts')) =
      preT (RT.node tk tcs) ++ preF (.cons u ts') from rfl]
    rw [List.append_assoc]
    have harith : m - (preT (RT.node tk tcs)).length - (preF (.cons u ts')).length =
        m - ((preT (RT.node tk tcs)).length + (preF (.cons u ts')).length) := by omega
    rw [harith]
end

theorem lastDescF_cons_isSome :
    ∀ (t : RT) (ts : Forest), ∃ b, lastDescF (.cons t ts) = some b
  | t, .nil => ⟨lastDescT t, rfl⟩
  | t, .cons u ts => by
    obtain ⟨b, hb⟩ := lastDescF_cons_isSome u ts
    exact ⟨b, by rw [show lastDescF (.cons t (.cons u ts)) = lastDescF (.cons u ts) from rfl, hb]⟩

mutual
/-- Running the forward iterator from the root of a realized subtree with the
stop marker at the subtree's own last descendant yields exactly the
subtree's pre-order. -/
theorem finT : ∀ (t : RT) (s : Structure) (par prev next : Option Key),
    RealizedT s par prev next t → (preT t).Nodup →
    ∀ (F m : Nat), (preT t).length ≤ F → (preT t).length ≤ m →
    descFwdList s F m (some t.key) (some (lastDescT t)) = preT t
  | .node k cs, s, par, prev, next, hreal, hnd, F, m, hF, hm => by
    obtain ⟨hfind, hrcs⟩ := realizedT_node hnd hreal
    have hfc : first_childS s k = headKey cs := by
      simp [first_childS, hfind]
    cases m with
    | zero =>
      have := preT_length_pos (.node k cs)
      omega
    | succ m' =>
      cases cs with
      | nil =>
        rw [show (RT.node k .nil).key = k from rfl,
          show lastDescT (RT.node k .nil) = k from rfl, descFwdList_succ, if_pos rfl]
        simp [preT, preF]
      | cons c cs' =>
        obtain ⟨b, hb⟩ := lastDescF_cons_isSome c cs'
        have hlastT : lastDescT (RT.node k (.cons c cs')) = b := by
          rw [show lastDescT (RT.node k (.cons c cs')) =
            (lastDescF (.cons c cs')).getD k from rfl, hb]
          rfl
        have hbmem : b ∈ preF (.cons c cs') := lastDescF_mem _ b hb
        have hbk : ¬ (some k = some b) := by
          simp
          intro hke
          exact (nodup_preT k (.cons c cs') hnd).1 (hke ▸ hbmem)
        have hstep : stepF s F k = some c.key := by
          rw [show stepF s F k = (match first_childS s k with
            | some d => some d
            | none => ancFindNext s F k) from rfl, hfc]
          rfl
        rw [show (RT.node k (.cons c cs')).key = k from rfl, hlastT, descFwdList_succ,
          if_neg hbk, hstep]
        have hcons : Forest.cons c cs' ≠ Forest.nil := by intro hc; exact Forest.noConfusion hc
        have hlen : (preT (RT.node k (.cons c cs'))).length =
            (preF (.cons c cs')).length + 1 := by simp [preT]
        have hfin := finF (.cons c cs') s k none hcons hrcs
          (nodup_preT k (.cons c cs') hnd).2 F m' b hb (by omega) (by omega)
        rw [show (some c.key : Option Key) = headKey (.cons c cs') from rfl, hfin]
        rfl
/-- Running the forward iterator from the head of a realized non-empty
forest with the stop marker at the forest's last descendant yields exactly
the forest's pre-order. -/
theorem finF : ∀ (ts : Forest) (s : Structure) (p : Key) (prev : Option Key),
    ts ≠ Forest.nil → RealizedF s (some p) prev ts → (preF ts).Nodup →
    ∀ (F m : Nat) (b : Key), lastDescF ts = some b →
    (preF ts).length + 1 ≤ F → (preF ts).length ≤ m →
    descFwdList s F m (headKey ts) (some b) = preF ts
  | .nil, s, p, prev, hne, _, _, _, _, _, _, _, _ => (hne rfl).elim
  | .cons t .nil, s, p, prev, _, hreal, hnd, F, m, b, hb, hF, hm => by
    obtain ⟨hrt, _⟩ := realizedF_cons hnd hreal
    rw [show lastDescF (.cons t .nil) = some (lastDescT t) from rfl] at hb
    have hbe : b = lastDescT t := by
      simpa using hb.symm
    subst hbe
    have hlenf : (preF (.cons t .nil)).length = (preT t).length := by simp [preF]
    have := finT t s (some p) prev (headKey .nil) hrt (nodup_preF_of_cons hnd).1
      F m (by omega) (by omega)
    rw [show headKey (.cons t .nil) = some t.key from rfl, this]
    simp [preF]
  | .cons t (.cons u ts'), s, p, prev, _, hreal, hnd, F, m, b, hb, hF, hm => by
    obtain ⟨hrt, hrts⟩ := realizedF_cons hnd hreal
    obtain ⟨tk, tcs⟩ := t
    obtain ⟨hfind, _⟩ := realizedT_node (nodup_preF_of_cons hnd).1 hrt
    rw [show lastDescF (.cons (RT.node tk tcs) (.cons u ts')) =
      lastDescF (.cons u ts') from rfl] at hb
    have hbmem : b ∈ preF (.cons u ts') := lastDescF_mem _ b hb
    have hbt : ¬ b ∈ preT (RT.node tk tcs) := by
      intro hmem
      exact (nodup_preF_of_cons hnd).2.2 b hmem hbmem
    have hnextu : next_siblingS s tk = some u.key := by
      simp only [headKey] at hfind
      simp [next_siblingS, hfind]
    have hct : ClimbsTo s (RT.node tk tcs).key (some u.key) 1 :=
      climbsTo_of_next (by simpa [RT.key] using hnextu)
    have hlen : (preF (.cons (RT.node tk tcs) (.cons u ts'))).length =
        (preT (RT.node tk tcs)).length + (preF (.cons u ts')).length := by simp [preF]
    have h1 := runT (RT.node tk tcs) s (some p) prev (headKey (.cons u ts')) hrt
      (nodup_preF_of_cons hnd).1 b hbt (some u.key) 1 F hct (by omega) m (by omega)
    have hcons : Forest.cons u ts' ≠ Forest.nil := by intro hc; exact Forest.noConfusion hc
    have h2 := finF (.cons u ts') s p (some (RT.node tk tcs).key) hcons hrts
      (nodup_preF_of_cons hnd).2.1 F (m - (preT (RT.node tk tcs)).length) b hb
      (by omega) (by omega)
    rw [show headKey (.cons (RT.node tk tcs) (.cons u ts')) = some (RT.node tk tcs).key from rfl,
      h1, show some u.key = headKey (.cons u ts') from rfl, h2]
    rfl
end

/-! ### Backward iteration of the descendant iterator -/

theorem descBwdList_none (s : Structure) (F m : Nat) (front : Option Key) :
    descBwdList s F m front none = [] := by cases m <;> rfl

theorem descBwdList_succ (s : Structure) (F m : Nat) (front : Option Key) (b : Key) :
    descBwdList s F (m + 1) front (some b) =
      if front = some b then [b] else b :: descBwdList s F m front (stepB s F b) := rfl

mutual
/-- Running the backward iterator from the last descendant of a realized
subtree, with a front marker outside the subtree, yields the subtree's
reversed pre-order and then continues from the subtree root's backward
step. -/
theorem backT : ∀ (t : RT) (s : Structure) (par prev next : Option Key),
    RealizedT s par prev next t → (preT t).Nodup →
    ∀ (f : Key), ¬ f ∈ preT t → ∀ (cont : Option Key) (F : Nat),
    stepB s F t.key = cont → (preT t).length ≤ F →
    ∀ (m : Nat), (preT t).length ≤ m →
    descBwdList s F m (some f) (some (lastDescT t)) =
      (preT t).reverse ++ descBwdList s F (m - (preT t).length) (some f) cont
  | .node k .nil, s, par, prev, next, hreal, hnd, f, hf, cont, F, hstep, hF, m, hm => by
    obtain ⟨hfind, hrcs⟩ := realizedT_node hnd hreal
    have hfk : ¬ ((some f : Option Key) = some k) := by
      simp
      intro hfe
      exact hf (hfe ▸ key_mem_preT (.node k .nil))
    cases m with
    | zero =>
      have := preT_length_pos (.node k .nil)
      omega
    | succ m' =>
      rw [show lastDescT (RT.node k .nil) = k from rfl, descBwdList_succ, if_neg hfk]
      rw [show (RT.node k .nil).key = k from rfl] at hstep
      rw [hstep, show preT (RT.node k .nil) = [k] from by simp [preT, preF]]
      simp
  | .node k (.cons (.node ck ccs) cs'), s, par, prev, next, hreal, hnd, f, hf,
      cont, F, hstep, hF, m, hm => by
    obtain ⟨hfind, hrcs⟩ := realizedT_node hnd hreal
    have hfk : ¬ ((some f : Option Key) = some k) := by
      simp
      intro hfe
      exact hf (hfe ▸ key_mem_preT (.node k (.cons (.node ck ccs) cs')))
    cases m with
    | zero =>
      have := preT_length_pos (.node k (.cons (.node ck ccs) cs'))
      omega
    | succ m' =>
      obtain ⟨b, hb⟩ := lastDescF_cons_isSome (RT.node ck ccs) cs'
      have hlastT : lastDescT (RT.node k (.cons (RT.node ck ccs) cs')) = b := by
        rw [show lastDescT (RT.node k (.cons (RT.node ck ccs) cs')) =
          (lastDescF (.cons (RT.node ck ccs) cs')).getD k from rfl, hb]
        rfl
      obtain ⟨hcfind, _⟩ := realizedT_node (nodup_preF_of_cons (nodup_preT k _ hnd).2).1
        (realizedF_cons (nodup_preT k _ hnd).2 hrcs).1
      have hcprev : previous_siblingS s ck = none := by
        simp [previous_siblingS, hcfind]
      have hcpar : parentS s ck = some k := by
        simp [parentS, hcfind]
      have hstepc : stepB s F (RT.node ck ccs).key = some k := by
        rw [show stepB s F (RT.node ck ccs).key = (match previous_siblingS s ck with
          | some sib => some (lastDesc s F sib)
          | none => parentS s ck) from rfl, hcprev]
        exact hcpar
      have hfcs : ¬ f ∈ preF (.cons (RT.node ck ccs) cs') := by
        intro hmem
        exact hf (by simp [preT, hmem])
      have hlen : (preT (RT.node k (.cons (RT.node ck ccs) cs'))).length =
          (preF (.cons (RT.node ck ccs) cs')).length + 1 := by simp [preT]
      have hback := backF cs' (RT.node ck ccs) s k none hrcs
        (nodup_preT k _ hnd).2 f hfcs (some k) F hstepc (by omega) (m' + 1)
        (by omega) b hb
      rw [hlastT, hback]
      have hm2 : 1 ≤ m' + 1 - (preF (.cons (RT.node ck ccs) cs')).length := by omega
      obtain ⟨m2, hm2e⟩ := Nat.exists_eq_add_of_le hm2
      rw [hm2e, show 1 + m2 = m2 + 1 from by ring, descBwdList_succ, if_neg hfk]
      rw [show (RT.node k (.cons (RT.node ck ccs) cs')).key = k from rfl] at hstep
      rw [hstep]
      rw [show (preT (RT.node k (.cons (RT.node ck ccs) cs'))).length =
        (preF (.cons (RT.node ck ccs) cs')).length + 1 from hlen]
      rw [show preT (RT.node k (.cons (RT.node ck ccs) cs')) =
        k :: preF (.cons (RT.node ck ccs) cs') from rfl]
      rw [List.reverse_cons, List.append_assoc]
      simp only [List.cons_append, List.nil_append]
      have harith : m2 = m' + 1 - ((preF (.cons (RT.node ck ccs) cs')).length + 1) := by
        omega
      rw [harith]
termination_by t s par prev next hreal hnd f hf cont F hstep hF m hm => sizeOf t
/-- Running the backward iterator from the last descendant of a realized
non-empty forest, with a front marker outside the forest, yields the
forest's reversed pre-order and then continues from the backward step of
the forest's first root. -/
theorem backF : ∀ (ts : Forest) (t : RT) (s : Structure) (p : Key) (prev : Option Key),
    RealizedF s (some p) prev (.cons t ts) → (preF (.cons t ts)).Nodup →
    ∀ (f : Key), ¬ f ∈ preF (.cons t ts) → ∀ (cont : Option Key) (F : Nat),
    stepB s F t.key = cont → (preF (.cons t ts)).length ≤ F →
    ∀ (m : Nat), (preF (.cons t ts)).length ≤ m →
    ∀ (b : Key), lastDescF (.cons t ts) = some b →
    descBwdList s F m (some f) (some b) =
      (preF (.cons t ts)).reverse ++
        descBwdList s F (m - (preF (.cons t ts)).length) (some f) cont
  | .nil, t, s, p, prev, hreal, hnd, f, hf, cont, F, hstep, hF, m, hm, b, hb => by
    obtain ⟨hrt, _⟩ := realizedF_cons hnd hreal
    rw [show lastDescF (.cons t .nil) = some (lastDescT t) from rfl] at hb
    have hbe : b = lastDescT t := by simpa using hb.symm
    subst hbe
    have hlenf : (preF (.cons t .nil)).length = (preT t).length := by simp [preF]
    have hft : ¬ f ∈ preT t := by
      intro hmem
      exact hf (by simp [preF, hmem])
    have := backT t s (some p) prev (headKey .nil) hrt (nodup_preF_of_cons hnd).1
      f hft cont F hstep (by omega) m (by omega)
    rw [this]
    simp [preF]
  | .cons (.node uk ucs) ts', t, s, p, prev, hreal, hnd, f, hf, cont, F, hstep, hF, m, hm, b, hb => by
    obtain ⟨hrt, hrts⟩ := realizedF_cons hnd hreal
    obtain ⟨hru, _⟩ := realizedF_cons (nodup_preF_of_cons hnd).2.1 hrts
    obtain ⟨hufind, _⟩ := realizedT_node (nodup_preF_of_cons (nodup_preF_of_cons hnd).2.1).1 hru
    rw [show lastDescF (.cons t (.cons (RT.node uk ucs) ts')) =
      lastDescF (.cons (RT.node uk ucs) ts') from rfl] at hb
    have huprev : previous_siblingS s uk = some t.key := by
      simp [previous_siblingS, hufind]
    have hlent : (preF (.cons t (.cons (RT.node uk ucs) ts'))).length =
        (preT t).length + (preF (.cons (RT.node uk ucs) ts')).length := by simp [preF]
    have hldt : lastDesc s F t.key = lastDescT t := by
      exact lastDesc_eq t s (some p) prev (headKey (.cons (RT.node uk ucs) ts')) F hrt
        (nodup_preF_of_cons hnd).1 (by omega)
    have hstepu : stepB s F (RT.node uk ucs).key = some (lastDescT t) := by
      rw [show stepB s F (RT.node uk ucs).key = (match previous_siblingS s uk with
        | some sib => some (lastDesc s F sib)
        | none => parentS s uk) from rfl, huprev]
      rw [show (match (some t.key : Option Key) with
        | some sib => some (lastDesc s F sib)
        | none => parentS s uk) = some (lastDesc s F t.key) from rfl, hldt]
    have hfrest : ¬ f ∈ preF (.cons (RT.node uk ucs) ts') := by
      intro hmem
      exact hf (by simp [preF] at hmem ⊢; tauto)
    have hback := backF ts' (RT.node uk ucs) s p (some t.key) hrts
      (nodup_preF_of_cons hnd).2.1 f hfrest (some (lastDescT t)) F hstepu
      (by omega) m (by omega) b hb
    rw [hback]
    have hft : ¬ f ∈ preT t := by
      intro hmem
      exact hf (by simp [preF, hmem])
    have hbt := backT t s (some p) prev (headKey (.cons (RT.node uk ucs) ts')) hrt
      (nodup_preF_of_cons hnd).1 f hft cont F hstep (by omega)
      (m - (preF (.cons (RT.node uk ucs) ts')).length) (by omega)
    rw [hbt]
    rw [show (preF (.cons t (.cons (RT.node uk ucs) ts'))).length =
      (preT t).length + (preF (.cons (RT.node uk ucs) ts')).length from hlent]
    rw [show preF (.cons t (.cons (RT.node uk ucs) ts')) =
      preT t ++ preF (.cons (RT.node uk ucs) ts') from rfl]
    rw [List.reverse_append, List.append_assoc]
    have harith : m - (preF (.cons (RT.node uk ucs) ts')).length - (preT t).length =
        m - ((preT t).length + (preF (.cons (RT.node uk ucs) ts')).length) := by omega
    rw [harith]
termination_by ts t s p prev hreal hnd f hf cont F hstep hF m hm b hb =>
  sizeOf ts + sizeOf t + 1
end

/-- Running the backward iterator over a whole realized subtree, with the
front marker at the subtree root, yields exactly the reversed pre-order. -/
theorem finBackT : ∀ (t : RT) (s : Structure) (par prev next : Option Key),
    RealizedT s par prev next t → (preT t).Nodup →
    ∀ (F m : Nat), (preT t).length ≤ F → (preT t).length ≤ m →
    descBwdList s F m (some t.key) (some (lastDescT t)) = (preT t).reverse
  | .node k .nil, s, par, prev, next, hreal, hnd, F, m, hF, hm => by
    cases m with
    | zero =>
      have := preT_length_pos (.node k .nil)
      omega
    | succ m' =>
      rw [show lastDescT (RT.node k .nil) = k from rfl,
        show (RT.node k .nil).key = k from rfl, descBwdList_succ, if_pos rfl]
      simp [preT, preF]
  | .node k (.cons (.node ck ccs) cs'), s, par, prev, next, hreal, hnd, F, m, hF, hm => by
    obtain ⟨hfind, hrcs⟩ := realizedT_node hnd hreal
    obtain ⟨b, hb⟩ := lastDescF_cons_isSome (RT.node ck ccs) cs'
    have hlastT : lastDescT (RT.node k (.cons (RT.node ck ccs) cs')) = b := by
      rw [show lastDescT (RT.node k (.cons (RT.node ck ccs) cs')) =
        (lastDescF (.cons (RT.node ck ccs) cs')).getD k from rfl, hb]
      rfl
    obtain ⟨hcfind, _⟩ := realizedT_node (nodup_preF_of_cons (nodup_preT k _ hnd).2).1
      (realizedF_cons (nodup_preT k _ hnd).2 hrcs).1
    have hcprev : previous_siblingS s ck = none := by
      simp [previous_siblingS, hcfind]
    have hcpar : parentS s ck = some k := by
      simp [parentS, hcfind]
    have hstepc : stepB s F (RT.node ck ccs).key = some k := by
      rw [show stepB s F (RT.node ck ccs).key = (match previous_siblingS s ck with
        | some sib => some (lastDesc s F sib)
        | none => parentS s ck) from rfl, hcprev]
      exact hcpar
    have hkcs : ¬ k ∈ preF (.cons (RT.node ck ccs) cs') := (nodup_preT k _ hnd).1
    have hlen : (preT (RT.node k (.cons (RT.node ck ccs) cs'))).length =
        (preF (.cons (RT.node ck ccs) cs')).length + 1 := by simp [preT]
    have hback := backF cs' (RT.node ck ccs) s k none hrcs
      (nodup_preT k _ hnd).2 k hkcs (some k) F hstepc (by omega) m (by omega) b hb
    rw [show (RT.node k (.cons (RT.node ck ccs) cs')).key = k from rfl, hlastT, hback]
    have hm2 : 1 ≤ m - (preF (.cons (RT.node ck ccs) cs')).length := by omega
    obtain ⟨m2, hm2e⟩ := Nat.exists_eq_add_of_le hm2
    rw [hm2e, show 1 + m2 = m2 + 1 from by ring, descBwdList_succ, if_pos rfl]
    rw [show preT (RT.node k (.cons (RT.node ck ccs) cs')) =
      k :: preF (.cons (RT.node ck ccs) cs') from rfl]
    rw [List.reverse_cons]

/-- Running the backward iterator over a whole realized non-empty forest,
with the front marker at the forest's first root, yields exactly the
reversed pre-order. -/
theorem finBackF : ∀ (ts : Forest) (t : RT) (s : Structure) (p : Key) (prev : Option Key),
    RealizedF s (some p) prev (.cons t ts) → (preF (.cons t ts)).Nodup →
    ∀ (F m : Nat) (b : Key), lastDescF (.cons t ts) = some b →
    (preF (.cons t ts)).length ≤ F → (preF (.cons t ts)).length ≤ m →
    descBwdList s F m (some t.key) (some b) = (preF (.cons t ts)).reverse
  | .nil, t, s, p, prev, hreal, hnd, F, m, b, hb, hF, hm => by
    obtain ⟨hrt, _⟩ := realizedF_cons hnd hreal
    rw [show lastDescF (.cons t .nil) = some (lastDescT t) from rfl] at hb
    have hbe : b = lastDescT t := by simpa using hb.symm
    subst hbe
    have hlenf : (preF (.cons t .nil)).length = (preT t).length := by simp [preF]
    have := finBackT t s (some p) prev (headKey .nil) hrt (nodup_preF_of_cons hnd).1
      F m (by omega) (by omega)
    rw [this]
    simp [preF]
  | .cons (.node uk ucs) ts', t, s, p, prev, hreal, hnd, F, m, b, hb, hF, hm => by
    obtain ⟨hrt, hrts⟩ := realizedF_cons hnd hreal
    obtain ⟨hru, _⟩ := realizedF_cons (nodup_preF_of_cons hnd).2.1 hrts
    obtain ⟨hufind, _⟩ := realizedT_node (nodup_preF_of_cons (nodup_preF_of_cons hnd).2.1).1 hru
    rw [show lastDescF (.cons t (.cons (RT.node uk ucs) ts')) =
      lastDescF (.cons (RT.node uk ucs) ts') from rfl] at hb
    have huprev : previous_siblingS s uk = some t.key := by
      simp [previous_siblingS, hufind]
    have hlent : (preF (.cons t (.cons (RT.node uk ucs) ts'))).length =
        (preT t).length + (preF (.cons (RT.node uk ucs) ts')).length := by simp [preF]
    have hldt : lastDesc s F t.key = lastDescT t := by
      exact lastDesc_eq t s (some p) prev (headKey (.cons (RT.node uk ucs) ts')) F hrt
        (nodup_preF_of_cons hnd).1 (by omega)
    have hstepu : stepB s F (RT.node uk ucs).key = some (lastDescT t) := by
      rw [show stepB s F (RT.node uk ucs).key = (match previous_siblingS s uk with
        | some sib => some (lastDesc s F sib)
        | none => parentS s uk) from rfl, huprev]
      rw [show (match (some t.key : Option Key) with
        | some sib => some (lastDesc s F sib)
        | none => parentS s uk) = some (lastDesc s F t.key) from rfl, hldt]
    have hfrest : ¬ t.key ∈ preF (.cons (RT.node uk ucs) ts') := by
      intro hmem
      exact (nodup_preF_of_cons hnd).2.2 t.key (key_mem_preT t) hmem
    have hback := backF ts' (RT.node uk ucs) s p (some t.key) hrts
      (nodup_preF_of_cons hnd).2.1 t.key hfrest (some (lastDescT t)) F hstepu
      (by omega) m (by omega) b hb
    rw [hback]
    have hfin := finBackT t s (some p) prev (headKey (.cons (RT.node uk ucs) ts')) hrt
      (nodup_preF_of_cons hnd).1 F (m - (preF (.cons (RT.node uk ucs) ts')).length)
      (by omega) (by omega)
    rw [hfin]
    rw [show preF (.cons t (.cons (RT.node uk ucs) ts')) =
      preT t ++ preF (.cons (RT.node uk ucs) ts') from rfl]
    rw [List.reverse_append]

/-! ### Top-level keys of a forest -/

theorem mem_preF_of_mem_topKeys :
    ∀ {ts : Forest} {q : Key}, q ∈ topKeys ts → q ∈ preF ts
  | .nil, q, h => by simp [topKeys] at h
  | .cons t ts, q, h => by
    simp only [topKeys, List.mem_cons] at h
    cases h with
    | inl h => subst h; simp [preF, key_mem_preT]
    | inr h => simp [preF, mem_preF_of_mem_topKeys h]

theorem topKeys_nodup :
    ∀ {ts : Forest}, (preF ts).Nodup → (topKeys ts).Nodup
  | .nil, _ => by simp [topKeys]
  | .cons t ts, h => by
    obtain ⟨hndt, hndts, hdisj⟩ := nodup_preF_of_cons h
    simp only [topKeys, List.nodup_cons]
    refine ⟨fun hmem => ?_, topKeys_nodup hndts⟩
    exact hdisj t.key (key_mem_preT t) (mem_preF_of_mem_topKeys hmem)

theorem topLen_le_length :
    ∀ ts : Forest, topLen ts ≤ (preF ts).length
  | .nil => le_refl _
  | .cons t ts => by
    have h1 := topLen_le_length ts
    have h2 := preT_length_pos t
    simp only [topLen_cons, preF, List.length_append]
    omega

/-- The parent link of every top-level root of a realized forest is the
forest's parent context. -/
theorem topParent :
    ∀ {ts : Forest} {s : Structure} {par prev : Option Key},
      RealizedF s par prev ts → (preF ts).Nodup →
      ∀ q ∈ topKeys ts, parentS s q = par
  | .nil, s, par, prev, _, _, q, hq => by simp [topKeys] at hq
  | .cons t ts, s, par, prev, hreal, hnd, q, hq => by
    obtain ⟨hrt, hrts⟩ := realizedF_cons hnd hreal
    simp only [topKeys, List.mem_cons] at hq
    cases hq with
    | inl hq =>
      subst hq
      obtain ⟨k, cs⟩ := t
      obtain ⟨hfind, _⟩ := realizedT_node (nodup_preF_of_cons hnd).1 hrt
      simp [RT.key, parentS, hfind]
    | inr hq => exact topParent hrts (nodup_preF_of_cons hnd).2.1 q hq

mutual
/-- Every non-root key of a realized subtree has, somewhere in the subtree, a
realized parent node whose top-level children contain it, matched by its
`parent` link. -/
theorem memParentT :
    ∀ (t : RT) (s : Structure) (par prev next : Option Key),
      RealizedT s par prev next t → (preT t).Nodup →
      ∀ q, q ∈ preT t → q ≠ t.key →
      ∃ (p : Key) (pcs : Forest) (par2 prev2 next2 : Option Key),
        RealizedT s par2 prev2 next2 (.node p pcs) ∧ (preT (.node p pcs)).Nodup ∧
        parentS s q = some p ∧ q ∈ topKeys pcs
  | .node k cs, s, par, prev, next, hreal, hnd, q, hq, hne => by
    obtain ⟨hfind, hrcs⟩ := realizedT_node hnd hreal
    simp only [RT.key] at hne
    have hqcs : q ∈ preF cs := by
      simp only [preT, List.mem_cons] at hq
      tauto
    by_cases htop : q ∈ topKeys cs
    · exact ⟨k, cs, par, prev, next, hreal, hnd, topParent hrcs (nodup_preT k cs hnd).2 q htop,
        htop⟩
    · exact memParentF cs s (some k) none hrcs (nodup_preT k cs hnd).2 q hqcs htop
termination_by t => sizeOf t

/-- Companion of `memParentT` for keys of a forest below its top level. -/
theorem memParentF :
    ∀ (ts : Forest) (s : Structure) (par prev : Option Key),
      RealizedF s par prev ts → (preF ts).Nodup →
      ∀ q, q ∈ preF ts → ¬ q ∈ topKeys ts →
      ∃ (p : Key) (pcs : Forest) (par2 prev2 next2 : Option Key),
        RealizedT s par2 prev2 next2 (.node p pcs) ∧ (preT (.node p pcs)).Nodup ∧
        parentS s q = some p ∧ q ∈ topKeys pcs
  | .nil, s, par, prev, _, _, q, hq, _ => by simp [preF] at hq
  | .cons t ts, s, par, prev, hreal, hnd, q, hq, htop => by
    obtain ⟨hrt, hrts⟩ := realizedF_cons hnd hreal
    simp only [preF, List.mem_append] at hq
    simp only [topKeys, List.mem_cons] at htop
    push_neg at htop
    cases hq with
    | inl hq =>
      have hne : q ≠ t.key := htop.1
      exact memParentT t s par prev (headKey ts) hrt (nodup_preF_of_cons hnd).1 q hq hne
    | inr hq =>
      exact memParentF ts s par (some t.key) hrts (nodup_preF_of_cons hnd).2.1 q hq htop.2
termination_by ts => sizeOf ts
end

/-! ### The doubly-linked child chains of the claimed invariant -/

/-- The backward walk of a parent's children: from `last_child` via
`previous_sibling`. -/
def childrenListBack (s : Structure) (k : Key) : List Key :=
  bwdChain s (s.length + 1) (last_childS s k)

/-- The tree-consistency conclusion: every non-root layer present in the
structure has a parent link naming a parent whose forward child chain (from
`first_child` via `next_sibling`) contains it exactly once, whose backward
chain (from `last_child` via `previous_sibling`) contains it exactly once,
and the backward chain is the reverse of the forward chain. -/
def ChainConsistent (s : Structure) : Prop :=
  ∀ x, existsS s x = true → x ≠ ROOT →
    ∃ p, parentS s x = some p ∧
      (childrenList s p).count x = 1 ∧
      (childrenListBack s p).count x = 1 ∧
      childrenListBack s p = (childrenList s p).reverse

theorem chainConsistent_of_empty {s : Structure} (h : EmptyState s) : ChainConsistent s := by
  intro x hx _
  rw [show existsS s x = (sfind? s x).isSome from rfl, h x] at hx
  simp at hx

theorem chainConsistent_of_treeState {s : Structure} {t0 : RT} (h : TreeState s t0) :
    ChainConsistent s := by
  intro x hx hxr
  have hsize := treeState_size_le h
  have hmem : x ∈ preT t0 := by
    rw [show existsS s x = (sfind? s x).isSome from rfl, h.2.2 x] at hx
    exact (relT_isSome t0 none none none x).mp hx
  have hxk : x ≠ t0.key := by rw [h.1]; exact hxr
  obtain ⟨p, pcs, par2, prev2, next2, hrp, hndp, hpar, htop⟩ :=
    memParentT t0 s none none none (treeState_realized h) h.2.1 x hmem hxk
  obtain ⟨hfindp, hrpcs⟩ := realizedT_node hndp hrp
  have hplen : (preT (RT.node p pcs)).length ≤ s.length := by
    refine nodup_present_length_le hndp (fun q hq => ?_)
    rw [h.2.2 q]
    have hq0 : q ∈ preT t0 := by
      cases hrel : relT par2 prev2 next2 (RT.node p pcs) q with
      | none =>
        exfalso
        have := (relT_isSome (RT.node p pcs) par2 prev2 next2 q).mpr hq
        simp [hrel] at this
      | some r =>
        have h2 := hrp q hq
        rw [hrel] at h2
        have h3 : (sfind? s q).isSome = true := by simp [h2]
        rw [h.2.2 q] at h3
        exact (relT_isSome t0 none none none q).mp h3
    exact (relT_isSome t0 none none none q).mpr hq0
  have hfc : first_childS s p = headKey pcs := by
    simp [first_childS, hfindp]
  have hlc : last_childS s p = lastKey pcs := by
    simp [last_childS, hfindp]
  have hndtop : (topKeys pcs).Nodup := topKeys_nodup (nodup_preT p pcs hndp).2
  have hlenF : (preF pcs).length + 1 = (preT (RT.node p pcs)).length := by simp [preT]
  have hfwd : childrenList s p = topKeys pcs := by
    rw [show childrenList s p = fwdChain s (s.length + 1) (first_childS s p) from rfl, hfc]
    refine fwdChain_eq_topKeys pcs s (some p) none (s.length + 1) hrpcs
      (nodup_preT p pcs hndp).2 ?_
    have := topLen_le_length pcs
    omega
  have hbwd : childrenListBack s p = (topKeys pcs).reverse := by
    rw [show childrenListBack s p = bwdChain s (s.length + 1) (last_childS s p) from rfl, hlc]
    cases pcs with
    | nil =>
      simp [topKeys] at htop
    | cons c cs' =>
      have hle : topLen (.cons c cs') ≤ s.length + 1 := by
        have := topLen_le_length (Forest.cons c cs')
        omega
      rw [show bwdChain s (s.length + 1) (lastKey (.cons c cs')) =
        axisList s previous_siblingS (s.length + 1) (lastKey (.cons c cs')) from rfl]
      rw [bwdChain_eq cs' c s (some p) none (s.length + 1) hrpcs
        (nodup_preT p (.cons c cs') hndp).2 hle]
      rw [axisList_none]
      simp
  refine ⟨p, hpar, ?_, ?_, ?_⟩
  · rw [hfwd]
    exact List.count_eq_one_of_mem hndtop htop
  · rw [hbwd]
    rw [List.count_reverse]
    exact List.count_eq_one_of_mem hndtop htop
  · rw [hfwd, hbwd]

/-! ### Locating a subtree by key -/

mutual
/-- The subtree of a tree whose root key is `q`, by pre-order search. -/
def findT (q : Key) : RT → Option RT
  | .node k cs => if q = k then some (.node k cs) else findF q cs
/-- The subtree of a forest whose root key is `q`, by pre-order search. -/
def findF (q : Key) : Forest → Option RT
  | .nil => none
  | .cons t ts =>
    match findT q t with
    | some r => some r
    | none => findF q ts
end

mutual
theorem findT_isSome : ∀ (t : RT) (q : Key), (findT q t).isSome = true ↔ q ∈ preT t
  | .node k cs, q => by
    by_cases hq : q = k
    · subst hq
      simp [findT, preT]
    · simp only [findT, hq, if_false, preT, List.mem_cons, false_or]
      exact findF_isSome cs q
theorem findF_isSome : ∀ (ts : Forest) (q : Key), (findF q ts).isSome = true ↔ q ∈ preF ts
  | .nil, q => by simp [findF, preF]
  | .cons t ts, q => by
    simp only [findF, preF, List.mem_append]
    cases h : findT q t with
    | some r =>
      have hmem : q ∈ preT t := by
        have := (findT_isSome t q).mp
        simp [h] at this
        exact this
      simp [hmem]
    | none =>
      have hq : ¬ q ∈ preT t := by
        intro hmem
        have := (findT_isSome t q).mpr hmem
        simp [h] at this
      simp only [hq, false_or]
      exact findF_isSome ts q
end

mutual
theorem findT_realized : ∀ (t : RT) (s : Structure) (par prev next : Option Key),
    RealizedT s par prev next t → (preT t).Nodup → ∀ (q : Key) (sub : RT),
    findT q t = some sub →
    sub.key = q ∧ (∃ par2 prev2 next2, RealizedT s par2 prev2 next2 sub) ∧
      (preT sub).Nodup ∧ (preT sub).length ≤ (preT t).length
  | .node k cs, s, par, prev, next, hreal, hnd, q, sub, hfind => by
    by_cases hq : q = k
    · subst hq
      have hsub : RT.node q cs = sub := by
        simp [findT] at hfind
        exact hfind
      subst hsub
      exact ⟨rfl, ⟨par, prev, next, hreal⟩, hnd, le_refl _⟩
    · simp only [findT, hq, if_false] at hfind
      obtain ⟨hfc, hrcs⟩ := realizedT_node hnd hreal
      have := findF_realized cs s (some k) none hrcs (nodup_preT k cs hnd).2 q sub hfind
      refine ⟨this.1, this.2.1, this.2.2.1, ?_⟩
      have : (preT (RT.node k cs)).length = (preF cs).length + 1 := by simp [preT]
      omega
theorem findF_realized : ∀ (ts : Forest) (s : Structure) (par prev : Option Key),
    RealizedF s par prev ts → (preF ts).Nodup → ∀ (q : Key) (sub : RT),
    findF q ts = some sub →
    sub.key = q ∧ (∃ par2 prev2 next2, RealizedT s par2 prev2 next2 sub) ∧
      (preT sub).Nodup ∧ (preT sub).length ≤ (preF ts).length
  | .nil, s, par, prev, _, _, q, sub, hfind => by simp [findF] at hfind
  | .cons t ts, s, par, prev, hreal, hnd, q, sub, hfind => by
    obtain ⟨hrt, hrts⟩ := realizedF_cons hnd hreal
    have hlen : (preF (.cons t ts)).length = (preT t).length + (preF ts).length := by
      simp [preF]
    simp only [findF] at hfind
    cases h : findT q t with
    | some r =>
      rw [h] at hfind
      have hsub : r = sub := by simpa using hfind
      subst hsub
      have := findT_realized t s par prev (headKey ts) hrt (nodup_preF_of_cons hnd).1 q r h
      exact ⟨this.1, this.2.1, this.2.2.1, by omega⟩
    | none =>
      rw [h] at hfind
      have hfind2 : findF q ts = some sub := hfind
      have := findF_realized ts s par (some t.key) hrts (nodup_preF_of_cons hnd).2.1 q sub hfind2
      exact ⟨this.1, this.2.1, this.2.2.1, by omega⟩
end

theorem lastTree_cons_isSome :
    ∀ (t : RT) (ts : Forest), ∃ u, lastTree (.cons t ts) = some u
  | t, .nil => ⟨t, rfl⟩
  | t, .cons v ts => by
    obtain ⟨u, hu⟩ := lastTree_cons_isSome v ts
    exact ⟨u, by rw [show lastTree (.cons t (.cons v ts)) = lastTree (.cons v ts) from rfl, hu]⟩

mutual
theorem findT_sub_mem : ∀ (t : RT) (q : Key) (sub : RT), findT q t = some sub →
    ∀ x, x ∈ preT sub → x ∈ preT t
  | .node k cs, q, sub, hfind, x, hx => by
    by_cases hq : q = k
    · subst hq
      have hsub : RT.node q cs = sub := by
        simp [findT] at hfind
        exact hfind
      subst hsub
      exact hx
    · simp only [findT, hq, if_false] at hfind
      have := findF_sub_mem cs q sub hfind x hx
      simp [preT, this]
theorem findF_sub_mem : ∀ (ts : Forest) (q : Key) (sub : RT), findF q ts = some sub →
    ∀ x, x ∈ preT sub → x ∈ preF ts
  | .nil, q, sub, hfind, x, hx => by simp [findF] at hfind
  | .cons t ts, q, sub, hfind, x, hx => by
    simp only [findF] at hfind
    cases h : findT q t with
    | some r =>
      rw [h] at hfind
      have hsub : r = sub := by simpa using hfind
      subst hsub
      have := findT_sub_mem t q r h x hx
      simp [preF, this]
    | none =>
      rw [h] at hfind
      have hfind2 : findF q ts = some sub := hfind
      have := findF_sub_mem ts q sub hfind2 x hx
      simp [preF, this]
end

/-! ### Generic replacement of the child forest of one node -/

mutual
/-- Replace the child forest of the (unique) node with key `self` by `g`
applied to it. -/
def chT (self : Key) (g : Forest → Forest) : RT → RT
  | .node k cs => if k = self then .node k (g cs) else .node k (chF self g cs)
/-- Forest companion of `chT`. -/
def chF (self : Key) (g : Forest → Forest) : Forest → Forest
  | .nil => .nil
  | .cons t ts => .cons (chT self g t) (chF self g ts)
end

theorem chT_key (self : Key) (g : Forest → Forest) : ∀ t : RT, (chT self g t).key = t.key
  | .node k cs => by
    by_cases h : k = self <;> simp [chT, h, RT.key]

theorem chF_headKey (self : Key) (g : Forest → Forest) :
    ∀ ts : Forest, headKey (chF self g ts) = headKey ts
  | .nil => rfl
  | .cons t ts => by
    rw [show chF self g (.cons t ts) = .cons (chT self g t) (chF self g ts) from rfl]
    simp [headKey, chT_key]

theorem lastTree_chF (self : Key) (g : Forest → Forest) :
    ∀ ts : Forest, lastTree (chF self g ts) = (lastTree ts).map (chT self g)
  | .nil => rfl
  | .cons t .nil => rfl
  | .cons t (.cons u ts) => by
    rw [show chF self g (.cons t (.cons u ts)) =
      .cons (chT self g t) (chF self g (.cons u ts)) from rfl]
    rw [show chF self g (.cons u ts) = .cons (chT self g u) (chF self g ts) from rfl]
    rw [show lastTree (.cons (chT self g t) (.cons (chT self g u) (chF self g ts))) =
      lastTree (.cons (chT self g u) (chF self g ts)) from rfl]
    rw [show lastTree (.cons t (.cons u ts)) = lastTree (.cons u ts) from rfl]
    rw [← show chF self g (.cons u ts) = .cons (chT self g u) (chF self g ts) from rfl]
    exact lastTree_chF self g (.cons u ts)

theorem chF_lastKey (self : Key) (g : Forest → Forest) (ts : Forest) :
    lastKey (chF self g ts) = lastKey ts := by
  rw [show lastKey (chF self g ts) = (lastTree (chF self g ts)).map RT.key from rfl,
    lastTree_chF, show lastKey ts = (lastTree ts).map RT.key from rfl]
  cases lastTree ts with
  | none => rfl
  | some u => simp [chT_key]

mutual
theorem chT_noop : ∀ (t : RT) (self : Key) (g : Forest → Forest),
    ¬ self ∈ preT t → chT self g t = t
  | .node k cs, self, g, h => by
    have hk : ¬ (k = self) := by
      intro hke
      exact h (hke ▸ key_mem_preT (.node k cs))
    have hcs : ¬ self ∈ preF cs := fun hmem => h (by simp [preT, hmem])
    simp [chT, hk, chF_noop cs self g hcs]
theorem chF_noop : ∀ (ts : Forest) (self : Key) (g : Forest → Forest),
    ¬ self ∈ preF ts → chF self g ts = ts
  | .nil, self, g, _ => rfl
  | .cons t ts, self, g, h => by
    have ht : ¬ self ∈ preT t := fun hmem => h (by simp [preF, hmem])
    have hts : ¬ self ∈ preF ts := fun hmem => h (by simp [preF, hmem])
    rw [show chF self g (.cons t ts) = .cons (chT self g t) (chF self g ts) from rfl,
      chT_noop t self g ht, chF_noop ts self g hts]
end

/-- The combined record transform of a child-forest replacement: the record
of `self` takes the new `first_child`/`last_child`; all other records are
transformed by `TR`. -/
def chCT (self : Key) (H Lst : Option Key)
    (TR : Key → Option NodeRelations → Option NodeRelations)
    (q : Key) (v : Option NodeRelations) : Option NodeRelations :=
  if q = self then v.map (fun r => { r with first_child := H, last_child := Lst })
  else TR q v

mutual
/-- The record family of `chT self g t` is the `chCT`-transform of that of
`t`, given a local specification of `g` on the child forest of `self`. -/
theorem chRelT : ∀ (t : RT) (self : Key) (g : Forest → Forest) (scs : Forest)
    (TR : Key → Option NodeRelations → Option NodeRelations) (H Lst : Option Key),
    (∀ q, q ≠ self → relF (some self) none (g scs) q = TR q (relF (some self) none scs q)) →
    headKey (g scs) = H → lastKey (g scs) = Lst →
    (∀ q r, ¬ q ∈ preF scs → TR q (some r) = some r) →
    (preT t).Nodup → findT self t = some (.node self scs) →
    (∀ q, TR q none ≠ none → ¬ q ∈ preT t) →
    ∀ (par prev next : Option Key) (q : Key),
    relT par prev next (chT self g t) q = chCT self H Lst TR q (relT par prev next t q)
  | .node k cs, self, g, scs, TR, H, Lst, hg, hH, hL, hTRs, hnd, hfind, hnone,
      par, prev, next, q => by
    by_cases hk : k = self
    · subst hk
      have hscs : scs = cs := by
        simp [findT] at hfind
        have := hfind.symm
        exact (RT.node.injEq k scs k cs).mp (by rw [this]) |>.2
      subst hscs
      rw [show chT k g (RT.node k scs) = RT.node k (g scs) from by simp [chT]]
      by_cases hq : q = k
      · subst hq
        rw [show relT par prev next (RT.node q (g scs)) q =
          some ⟨par, prev, next, headKey (g scs), lastKey (g scs)⟩ from by simp [relT]]
        rw [show relT par prev next (RT.node q scs) q =
          some ⟨par, prev, next, headKey scs, lastKey scs⟩ from by simp [relT]]
        rw [hH, hL]
        simp [chCT]
      · rw [show relT par prev next (RT.node k (g scs)) q =
          relF (some k) none (g scs) q from by simp [relT, hq]]
        rw [show relT par prev next (RT.node k scs) q =
          relF (some k) none scs q from by simp [relT, hq]]
        rw [hg q hq]
        simp [chCT, hq]
    · have hq' : ¬ (self = k) := fun he => hk he.symm
      simp only [findT, hq', if_false] at hfind
      have hsubmem : ∀ x, x ∈ preF scs → x ∈ preF cs := by
        intro x hx
        exact findF_sub_mem cs self (.node self scs) hfind x (by simp [preT, hx])
      rw [show chT self g (RT.node k cs) = RT.node k (chF self g cs) from by simp [chT, hk]]
      by_cases hq : q = k
      · subst hq
        rw [show relT par prev next (RT.node q (chF self g cs)) q =
          some ⟨par, prev, next, headKey (chF self g cs), lastKey (chF self g cs)⟩ from
          by simp [relT]]
        rw [chF_headKey, chF_lastKey]
        rw [show relT par prev next (RT.node q cs) q =
          some ⟨par, prev, next, headKey cs, lastKey cs⟩ from by simp [relT]]
        have hknotscs : ¬ q ∈ preF scs := by
          intro hmem
          exact (nodup_preT q cs hnd).1 (hsubmem q hmem)
        rw [show chCT self H Lst TR q
          (some ⟨par, prev, next, headKey cs, lastKey cs⟩) =
          TR q (some ⟨par, prev, next, headKey cs, lastKey cs⟩) from by simp [chCT, hk]]
        rw [hTRs q _ hknotscs]
      · rw [show relT par prev next (RT.node k (chF self g cs)) q =
          relF (some k) none (chF self g cs) q from by simp [relT, hq]]
        rw [show relT par prev next (RT.node k cs) q =
          relF (some k) none cs q from by simp [relT, hq]]
        exact chRelF cs self g scs TR H Lst hg hH hL hTRs (nodup_preT k cs hnd).2 hfind
          (fun q2 hq2 => fun hmem => hnone q2 hq2 (by simp [preT, hmem])) (some k) none q
theorem chRelF : ∀ (ts : Forest) (self : Key) (g : Forest → Forest) (scs : Forest)
    (TR : Key → Option NodeRelations → Option NodeRelations) (H Lst : Option Key),
    (∀ q, q ≠ self → relF (some self) none (g scs) q = TR q (relF (some self) none scs q)) →
    headKey (g scs) = H → lastKey (g scs) = Lst →
    (∀ q r, ¬ q ∈ preF scs → TR q (some r) = some r) →
    (preF ts).Nodup → findF self ts = some (.node self scs) →
    (∀ q, TR q none ≠ none → ¬ q ∈ preF ts) →
    ∀ (par prev : Option Key) (q : Key),
    relF par prev (chF self g ts) q = chCT self H Lst TR q (relF par prev ts q)
  | .nil, self, g, scs, TR, H, Lst, hg, hH, hL, hTRs, hnd, hfind, hnone, par, prev, q => by
    simp [findF] at hfind
  | .cons t ts, self, g, scs, TR, H, Lst, hg, hH, hL, hTRs, hnd, hfind, hnone,
      par, prev, q => by
    simp only [findF] at hfind
    rw [show chF self g (.cons t ts) = .cons (chT self g t) (chF self g ts) from rfl]
    cases hft : findT self t with
    | some r =>
      rw [hft] at hfind
      have hr : r = RT.node self scs := by simpa using hfind
      subst hr
      have hselft : self ∈ preT t := by
        have := (findT_isSome t self).mp (by simp [hft])
        exact this
      have hselfts : ¬ self ∈ preF ts := (nodup_preF_of_cons hnd).2.2 self hselft
      rw [chF_noop ts self g hselfts]
      have hsubmem : ∀ x, x ∈ preF scs → x ∈ preT t := by
        intro x hx
        exact findT_sub_mem t self (.node self scs) hft x (by simp [preT, hx])
      have hIH := chRelT t self g scs TR H Lst hg hH hL hTRs (nodup_preF_of_cons hnd).1 hft
        (fun q2 hq2 => fun hmem => hnone q2 hq2 (by simp [preF, hmem]))
        par prev (headKey ts) q
      rw [show relF par prev (.cons (chT self g t) ts) q =
        (match relT par prev (headKey ts) (chT self g t) q with
         | some r2 => some r2
         | none => relF par (some (chT self g t).key) ts q) from by
        rw [show headKey ts = headKey ts from rfl]; rfl]
      rw [show relF par prev (.cons t ts) q =
        (match relT par prev (headKey ts) t q with
         | some r2 => some r2
         | none => relF par (some t.key) ts q) from rfl]
      rw [chT_key]
      cases hold : relT par prev (headKey ts) t q with
      | some r0 =>
        rw [hold] at hIH
        rw [show (match (some r0 : Option NodeRelations) with
          | some r2 => some r2
          | none => relF par (some t.key) ts q) = some r0 from rfl]
        cases hct : chCT self H Lst TR q (some r0) with
        | some r1 =>
          rw [hct] at hIH
          rw [hIH]
        | none =>
          rw [hct] at hIH
          rw [hIH]
          rw [show (match (none : Option NodeRelations) with
            | some r2 => some r2
            | none => relF par (some t.key) ts q) =
            relF par (some t.key) ts q from rfl]
          have hqscs : q ∈ preF scs := by
            by_contra hqn
            by_cases hqself : q = self
            · subst hqself
              simp [chCT] at hct
            · simp only [chCT, hqself, if_false] at hct
              rw [hTRs q r0 hqn] at hct
              exact Option.noConfusion hct
          have hqt : q ∈ preT t := hsubmem q hqscs
          have hqts : ¬ q ∈ preF ts := (nodup_preF_of_cons hnd).2.2 q hqt
          rw [relF_none_of_not_mem hqts]
      | none =>
        rw [hold] at hIH
        rw [show (match (none : Option NodeRelations) with
          | some r2 => some r2
          | none => relF par (some t.key) ts q) =
          relF par (some t.key) ts q from rfl]
        cases hct : chCT self H Lst TR q none with
        | none =>
          rw [hct] at hIH
          rw [hIH]
          rw [show (match (none : Option NodeRelations) with
            | some r2 => some r2
            | none => relF par (some t.key) ts q) =
            relF par (some t.key) ts q from rfl]
          by_cases hqself : q = self
          · subst hqself
            have hn : relF par (some t.key) ts q = none := relF_none_of_not_mem hselfts par _
            rw [hn]
            simp [chCT]
          · cases htail : relF par (some t.key) ts q with
            | none =>
              have h1 : TR q none = none := by
                simp only [chCT, hqself, if_false] at hct
                exact hct
              simp [chCT, hqself, h1]
            | some r2 =>
              have hqts : q ∈ preF ts := by
                have := (relF_isSome ts par (some t.key) q).mp (by simp [htail])
                exact this
              have hqscs : ¬ q ∈ preF scs := by
                intro hmem
                exact (nodup_preF_of_cons hnd).2.2 q (hsubmem q hmem) hqts
              simp only [chCT, hqself, if_false]
              exact (hTRs q r2 hqscs).symm
        | some r2 =>
          rw [hct] at hIH
          rw [hIH]
          rw [show (match (some r2 : Option NodeRelations) with
            | some r3 => some r3
            | none => relF par (some t.key) ts q) = some r2 from rfl]
          have hqself : ¬ (q = self) := by
            intro hqe
            subst hqe
            simp [chCT] at hct
          have htrn : TR q none ≠ none := by
            simp only [chCT, hqself, if_false] at hct
            simp [hct]
          have hqnmem : ¬ q ∈ preF (.cons t ts) := hnone q htrn
          have hqts : ¬ q ∈ preF ts := fun hmem => hqnmem (by simp [preF, hmem])
          rw [relF_none_of_not_mem hqts]
          exact hct.symm
    | none =>
      rw [hft] at hfind
      have hfind2 : findF self ts = some (.node self scs) := hfind
      have hselft : ¬ self ∈ preT t := by
        intro hmem
        have := (findT_isSome t self).mpr hmem
        simp [hft] at this
      rw [chT_noop t self g hselft]
      have hsubmem : ∀ x, x ∈ preF scs → x ∈ preF ts := by
        intro x hx
        exact findF_sub_mem ts self (.node self scs) hfind2 x (by simp [preT, hx])
      rw [show relF par prev (.cons t (chF self g ts)) q =
        (match relT par prev (headKey (chF self g ts)) t q with
         | some r2 => some r2
         | none => relF par (some t.key) (chF self g ts) q) from rfl]
      rw [chF_headKey]
      rw [show relF par prev (.cons t ts) q =
        (match relT par prev (headKey ts) t q with
         | some r2 => some r2
         | none => relF par (some t.key) ts q) from rfl]
      cases hold : relT par prev (headKey ts) t q with
      | some r0 =>
        rw [show (match (some r0 : Option NodeRelations) with
          | some r2 => some r2
          | none => relF par (some t.key) (chF self g ts) q) = some r0 from rfl]
        have hqt : q ∈ preT t := by
          have := (relT_isSome t par prev (headKey ts) q).mp (by simp [hold])
          exact this
        have hqself : ¬ (q = self) := fun hqe => hselft (hqe ▸ hqt)
        have hqscs : ¬ q ∈ preF scs := by
          intro hmem
          exact (nodup_preF_of_cons hnd).2.2 q hqt (hsubmem q hmem)
        simp only [chCT, hqself, if_false]
        exact (hTRs q r0 hqscs).symm
      | none =>
        rw [show (match (none : Option NodeRelations) with
          | some r2 => some r2
          | none => relF par (some t.key) (chF self g ts) q) =
          relF par (some t.key) (chF self g ts) q from rfl]
        rw [show (match (none : Option NodeRelations) with
          | some r2 => some r2
          | none => relF par (some t.key) ts q) =
          relF par (some t.key) ts q from rfl]
        exact chRelF ts self g scs TR H Lst hg hH hL hTRs (nodup_preF_of_cons hnd).2.1 hfind2
          (fun q2 hq2 => fun hmem => hnone q2 hq2 (by simp [preF, hmem])) par (some t.key) q
end

/-- On a consistent tree state, the descendant iterator of any layer yields
the pre-order of the layer's child forest forwards, and exactly its reverse
backwards. -/
theorem decendants_tree (s : Structure) (t0 : RT) (h : TreeState s t0) (L : Key) :
    (decendantsList s L = (match findT L t0 with
      | some sub => preF sub.children
      | none => [])) ∧
    decendantsListBack s L = (decendantsList s L).reverse := by
  have hsize := treeState_size_le h
  cases hfind : findT L t0 with
  | none =>
    have hnm : ¬ L ∈ preT t0 := by
      intro hmem
      have := (findT_isSome t0 L).mpr hmem
      simp [hfind] at this
    have hnone : sfind? s L = none := by
      rw [h.2.2 L]
      exact relT_none_of_not_mem hnm none none none
    have hfront : descFront s L = none := by
      simp [descFront, first_childS, hnone]
    have hback : descBack s (s.length + 1) L = none := by
      simp [descBack, last_childS, hnone]
    constructor
    · rw [show decendantsList s L = descFwdList s (s.length + 1) (s.length + 1)
        (descFront s L) (descBack s (s.length + 1) L) from rfl, hfront, descFwdList_none]
    · rw [show decendantsListBack s L = descBwdList s (s.length + 1) (s.length + 1)
        (descFront s L) (descBack s (s.length + 1) L) from rfl, hback, descBwdList_none]
      rw [show decendantsList s L = descFwdList s (s.length + 1) (s.length + 1)
        (descFront s L) (descBack s (s.length + 1) L) from rfl, hfront, descFwdList_none]
      rfl
  | some sub =>
    obtain ⟨hkey, ⟨p2, v2, n2, hrsub⟩, hndsub, hlensub⟩ :=
      findT_realized t0 s none none none (treeState_realized h) h.2.1 L sub hfind
    obtain ⟨sk, cs⟩ := sub
    simp only [RT.key] at hkey
    have hkey2 : L = sk := hkey.symm
    subst hkey2
    obtain ⟨hfind2, hrcs⟩ := realizedT_node hndsub hrsub
    have hfc : first_childS s L = headKey cs := by
      simp [first_childS, hfind2]
    have hlc : last_childS s L = lastKey cs := by
      simp [last_childS, hfind2]
    have hfront : descFront s L = headKey cs := by
      simp [descFront, hfc]
    cases cs with
    | nil =>
      have hbx : descBack s (s.length + 1) L = none := by
        simp [descBack, hlc, lastKey, lastTree]
      constructor
      · rw [show decendantsList s L = descFwdList s (s.length + 1) (s.length + 1)
          (descFront s L) (descBack s (s.length + 1) L) from rfl, hfront]
        rw [show headKey .nil = (none : Option Key) from rfl, descFwdList_none]
        rfl
      · rw [show decendantsListBack s L = descBwdList s (s.length + 1) (s.length + 1)
          (descFront s L) (descBack s (s.length + 1) L) from rfl, hbx, descBwdList_none]
        rw [show decendantsList s L = descFwdList s (s.length + 1) (s.length + 1)
          (descFront s L) (descBack s (s.length + 1) L) from rfl, hfront]
        rw [show headKey .nil = (none : Option Key) from rfl, descFwdList_none]
        rfl
    | cons c cs' =>
      obtain ⟨u, hu⟩ := lastTree_cons_isSome c cs'
      have hndcs : (preF (.cons c cs')).Nodup := (nodup_preT L _ hndsub).2
      obtain ⟨prev', hru⟩ := realizedF_lastTree hrcs hndcs hu
      obtain ⟨pre, hpre⟩ := preF_of_lastTree hu
      have hndu : (preT u).Nodup := by
        have := hndcs
        rw [hpre] at this
        exact this.of_append_right
      have hlenT : (preT (RT.node L (.cons c cs'))).length =
          (preF (.cons c cs')).length + 1 := by simp [preT]
      have hlenu : (preT u).length ≤ (preF (.cons c cs')).length := by
        have : (preF (.cons c cs')).length = pre.length + (preT u).length := by
          rw [hpre]; simp
        omega
      have hldu : lastDesc s (s.length + 1) u.key = lastDescT u :=
        lastDesc_eq u s (some L) prev' none (s.length + 1) hru hndu (by omega)
      have hlk : lastKey (.cons c cs') = some u.key := by simp [lastKey, hu]
      have hbx : descBack s (s.length + 1) L = some (lastDescT u) := by
        simp [descBack, hlc, hlk, hldu]
      have hldf : lastDescF (.cons c cs') = some (lastDescT u) := by
        rw [lastDescF_eq_lastTree, hu]
        rfl
      have hne : Forest.cons c cs' ≠ Forest.nil := by
        intro hc; exact Forest.noConfusion hc
      have hfwd : decendantsList s L = preF (.cons c cs') := by
        rw [show decendantsList s L = descFwdList s (s.length + 1) (s.length + 1)
          (descFront s L) (descBack s (s.length + 1) L) from rfl, hfront, hbx]
        exact finF (.cons c cs') s L none hne hrcs hndcs (s.length + 1) (s.length + 1)
          (lastDescT u) hldf (by omega) (by omega)
      constructor
      · rw [hfwd]
        rfl
      · rw [hfwd]
        rw [show decendantsListBack s L = descBwdList s (s.length + 1) (s.length + 1)
          (descFront s L) (descBack s (s.length + 1) L) from rfl, hfront, hbx]
        rw [show headKey (.cons c cs') = some c.key from rfl]
        exact finBackF cs' c s L none hrcs hndcs (s.length + 1) (s.length + 1)
          (lastDescT u) hldf (by omega) (by omega)

/-! ## Claim theorems -/

/-- C10: `new_unchecked` stores `node_id + 1`: the round trip recovers the
node id and the stored value is nonzero for every id strictly below
`u64::MAX`; `ROOT` is the encoding of id `0`; at `u64::MAX` the wrapping
addition stores `0`, defeating the `NonZeroU64` safety invariant. -/
theorem new_unchecked_props (n : Nat) (h : n < U64MOD - 1) :
    (to_node (new_unchecked n) = n ∧ new_unchecked n ≠ 0) ∧
    new_unchecked 0 = ROOT ∧ new_unchecked (U64MOD - 1) = 0 := by
  have hU : U64MOD = 18446744073709551616 := by norm_num [U64MOD]
  have h2 : n + 1 < U64MOD := by omega
  refine ⟨⟨?_, ?_⟩, ?_, ?_⟩
  · simp [to_node, new_unchecked, Nat.mod_eq_of_lt h2]
  · simp [new_unchecked, Nat.mod_eq_of_lt h2]
  · rfl
  · rw [hU]
    rfl

theorem new_unchecked_props_witness :
    5 < U64MOD - 1 ∧ ((to_node (new_unchecked 5) = 5 ∧ new_unchecked 5 ≠ 0) ∧
      new_unchecked 0 = ROOT ∧ new_unchecked (U64MOD - 1) = 0) :=
  ⟨by norm_num [U64MOD], new_unchecked_props 5 (by norm_num [U64MOD])⟩

/-- C4: the quad `[(0,0),(1,0),(1,1),(0,1)]` does not contain the point
`(6/5, 1/2)` under the crossing-number test with the interpolated
x-intersection `x_i + (x_j - x_i) * (p.y - y_i) / (y_j - y_i)` the claim
(and the pnpoly algorithm the source cites) describes, yet `Quad::contains`
answers `true`: the source's comparison value
`self.0[j].x - self.0[i].x * (p.y - self.0[i].y) / (self.0[j].y - self.0[i].y) + self.0[i].x`
associates the multiplication before the leading subtraction. -/
theorem quad_contains_bug :
    Quad.contains (Quad.from_box ⟨0, 0⟩ ⟨1, 1⟩) ⟨6/5, 1/2⟩ = true ∧
    containsSpec (Quad.from_box ⟨0, 0⟩ ⟨1, 1⟩) ⟨6/5, 1/2⟩ = false := by
  constructor
  · norm_num [Quad.contains, Quad.from_box, edgeToggles, List.foldl]
  · norm_num [containsSpec, Quad.from_box, edgeTogglesSpec, List.foldl]

/-- A metadata state whose layer `5` caches one point-shaped hit-test
target at `(2, 2)`. -/
def dmC8 : DocumentMetadata :=
  { defaultDocumentMetadata with click_targets := [(5, [pointClickTarget ⟨2, 2⟩])] }

/-- C8: `nonzero_bounding_box` keeps the minimum corner of the
identity-transform click-target bounds (defaulted to the zero box) and
moves only the maximum corner, widening each axis of extent below `1e-10`
to exactly `1`; on a layer whose single cached shape is a point at `(2,2)`
it answers `[(2,2),(3,3)]`. -/
theorem nonzero_bounding_box_props :
    (∀ (dm : DocumentMetadata) (layer : Key),
      (nonzero_bounding_box dm layer).1 =
        ((bounding_box_with_transform dm layer DAffine2.IDENTITY).getD
          (Vec2.zero, Vec2.zero)).1 ∧
      (nonzero_bounding_box dm layer).2.x =
        (if ((bounding_box_with_transform dm layer DAffine2.IDENTITY).getD
              (Vec2.zero, Vec2.zero)).2.x -
            ((bounding_box_with_transform dm layer DAffine2.IDENTITY).getD
              (Vec2.zero, Vec2.zero)).1.x < EPS then
          ((bounding_box_with_transform dm layer DAffine2.IDENTITY).getD
            (Vec2.zero, Vec2.zero)).1.x + 1
        else ((bounding_box_with_transform dm layer DAffine2.IDENTITY).getD
            (Vec2.zero, Vec2.zero)).2.x) ∧
      (nonzero_bounding_box dm layer).2.y =
        (if ((bounding_box_with_transform dm layer DAffine2.IDENTITY).getD
              (Vec2.zero, Vec2.zero)).2.y -
            ((bounding_box_with_transform dm layer DAffine2.IDENTITY).getD
              (Vec2.zero, Vec2.zero)).1.y < EPS then
          ((bounding_box_with_transform dm layer DAffine2.IDENTITY).getD
            (Vec2.zero, Vec2.zero)).1.y + 1
        else ((bounding_box_with_transform dm layer DAffine2.IDENTITY).getD
            (Vec2.zero, Vec2.zero)).2.y)) ∧
    nonzero_bounding_box dmC8 5 = (⟨2, 2⟩, ⟨3, 3⟩) := by
  constructor
  · intro dm layer
    exact ⟨rfl, rfl, rfl⟩
  · norm_num [nonzero_bounding_box, bounding_box_with_transform, dmC8,
      defaultDocumentMetadata, alistFind?, pointClickTarget,
      DAffine2.transform_point2, DAffine2.IDENTITY, reduceOption,
      List.filterMap_cons, List.filterMap_nil, EPS, Vec2.zero]

/-- The scenario state of the repository's `test_tree` after the nine
insertions (the test writes node ids through `new_unchecked` and reads
them back through `to_node`). -/
def scenarioMid : Option Structure :=
  ((((((((push_child defaultStructure ROOT (new_unchecked 3)).bind
    (fun s => push_child s ROOT (new_unchecked 6))).bind
    (fun s => add_after s (new_unchecked 3) (new_unchecked 4))).bind
    (fun s => add_before s (new_unchecked 3) (new_unchecked 2))).bind
    (fun s => add_before s (new_unchecked 6) (new_unchecked 5))).bind
    (fun s => add_after s (new_unchecked 6) (new_unchecked 9))).bind
    (fun s => push_child s (new_unchecked 6) (new_unchecked 8))).bind
    (fun s => push_front_child s (new_unchecked 6) (new_unchecked 7))).bind
    (fun s => push_front_child s ROOT (new_unchecked 1))

/-- The scenario state of `test_tree` after deleting nodes `6` and `1` and
pushing `10` under `9`. -/
def scenarioEnd : Option Structure :=
  (scenarioMid.map
    (fun s => delete (delete s (new_unchecked 6)) (new_unchecked 1))).bind
    (fun s => push_child s (new_unchecked 9) (new_unchecked 10))

/-- C5: the `test_tree` scenario: after pushing children 3 and 6 under ROOT,
adding 4 after 3, 2 before 3, 5 before 6, 9 after 6, push-child 8 under 6,
push-front-child 7 under 6 and push-front-child 1 on ROOT, the root's
children are `[1,2,3,4,5,6,9]`, its descendants `[1,…,9]` and the reversed
descendants `[9,…,1]`; deleting 6 then 1 and pushing 10 under 9 leaves
children `[2,3,4,5,9]`, descendants `[2,3,4,5,9,10]` and reversed
descendants `[10,9,5,4,3,2]`. -/
theorem test_tree_scenario :
    (scenarioMid.map (fun s => ((childrenList s ROOT).map to_node,
      (decendantsList s ROOT).map to_node,
      (decendantsListBack s ROOT).map to_node))) =
      some ([1, 2, 3, 4, 5, 6, 9], [1, 2, 3, 4, 5, 6, 7, 8, 9],
        [9, 8, 7, 6, 5, 4, 3, 2, 1]) ∧
    (scenarioEnd.map (fun s => ((childrenList s ROOT).map to_node,
      (decendantsList s ROOT).map to_node,
      (decendantsListBack s ROOT).map to_node))) =
      some ([2, 3, 4, 5, 9], [2, 3, 4, 5, 9, 10], [10, 9, 5, 4, 3, 2]) := by
  constructor
  · decide
  · decide

/-- C7: each of the four insertions aborts exactly when the new identifier
is already a key of `structure`; the seven link accessors are total and
answer `none` (`false` for `has_children`) on identifiers absent from
`structure`. -/
theorem ops_abort_accessors_total (s : Structure) (self new x : Key)
    (h : existsS s x = false) :
    (push_front_child s self new = none ↔ existsS s new = true) ∧
    (push_child s self new = none ↔ existsS s new = true) ∧
    (add_before s self new = none ↔ existsS s new = true) ∧
    (add_after s self new = none ↔ existsS s new = true) ∧
    parentS s x = none ∧ previous_siblingS s x = none ∧
    next_siblingS s x = none ∧ first_childS s x = none ∧
    last_childS s x = none ∧ has_childrenS s x = false := by
  have hfind : sfind? s x = none := by
    rw [show existsS s x = (sfind? s x).isSome from rfl] at h
    exact Option.not_isSome_iff_eq_none.mp (by simp [h])
  refine ⟨?_, ?_, ?_, ?_, ?_, ?_, ?_, ?_, ?_, ?_⟩
  · cases hn : existsS s new <;> simp [push_front_child, hn]
  · cases hn : existsS s new <;> simp [push_child, hn]
  · cases hn : existsS s new <;> simp [add_before, hn]
  · cases hn : existsS s new <;> simp [add_after, hn]
  · simp [parentS, hfind]
  · simp [previous_siblingS, hfind]
  · simp [next_siblingS, hfind]
  · simp [first_childS, hfind]
  · simp [last_childS, hfind]
  · simp [has_childrenS, first_childS, hfind]

theorem ops_abort_accessors_total_witness :
    existsS defaultStructure 99 = false ∧
    ((push_front_child defaultStructure 1 2 = none ↔
        existsS defaultStructure 2 = true) ∧
      (push_child defaultStructure 1 2 = none ↔ existsS defaultStructure 2 = true) ∧
      (add_before defaultStructure 1 2 = none ↔ existsS defaultStructure 2 = true) ∧
      (add_after defaultStructure 1 2 = none ↔ existsS defaultStructure 2 = true) ∧
      parentS defaultStructure 99 = none ∧
      previous_siblingS defaultStructure 99 = none ∧
      next_siblingS defaultStructure 99 = none ∧
      first_childS defaultStructure 99 = none ∧
      last_childS defaultStructure 99 = none ∧
      has_childrenS defaultStructure 99 = false) :=
  ⟨by decide, ops_abort_accessors_total defaultStructure 1 2 99 (by decide)⟩

/-- The truncation step of the `reduce` closure computes the longest common
prefix of the two paths. -/
theorem truncAtDivergence_eq_commonPrefix : ∀ a b : List Key,
    truncAtDivergence a b = commonPrefix a b
  | [], b => by
    simp [truncAtDivergence, commonPrefix]
  | a :: as_, [] => by
    simp [truncAtDivergence, commonPrefix]
  | a :: as_, b :: bs => by
    have IH := truncAtDivergence_eq_commonPrefix as_ bs
    unfold truncAtDivergence at IH ⊢
    rw [List.zip_cons_cons, List.findIdx?_cons]
    by_cases hab : a = b
    · subst hab
      rw [if_neg (by simp), List.findIdx?_succ]
      cases h : (as_.zip bs).findIdx? (fun e => !(e.1 = e.2)) with
      | none =>
        rw [h] at IH
        rw [show (Option.map (fun i => i + 1) (none : Option Nat)).getD
          ((a :: as_).length ⊓ (a :: bs).length) = (as_.length ⊓ bs.length) + 1 from by
            simp only [Option.map_none', Option.getD_none, List.length_cons]
            omega]
        rw [show ((none : Option Nat).getD (min as_.length bs.length)) =
          as_.length ⊓ bs.length from rfl] at IH
        rw [List.take_succ_cons, IH]
        simp [commonPrefix]
      | some i =>
        rw [h] at IH
        rw [show (Option.map (fun i => i + 1) (some i)).getD
          ((a :: as_).length ⊓ (a :: bs).length) = i + 1 from rfl]
        rw [show ((some i).getD (min as_.length bs.length)) = i from rfl] at IH
        rw [List.take_succ_cons, IH]
        simp [commonPrefix]
    · rw [if_pos (by simp [hab])]
      simp [commonPrefix, hab]

/-- C3 (amended): `deepest_common_ancestor` builds each layer's root-to-self
ancestor path, drops the path's last element exactly when `include_self` is
true or the layer is not a folder, folds the paths pairwise to their longest
common prefix, and answers the final path's last element (`none` if it is
empty). -/
theorem dca_eq_spec (dm : DocumentMetadata) (layers : List Key)
    (include_self : Bool) :
    deepest_common_ancestor dm layers include_self =
      deepest_common_ancestor_spec dm layers include_self := by
  have hfun : truncAtDivergence = commonPrefix :=
    funext (fun a => funext (fun b => truncAtDivergence_eq_commonPrefix a b))
  have hmap : (fun (layer : Key) =>
      let layer_path := (ancestorsList dm.struct (dm.struct.length + 1) layer).reverse
      if include_self || !(dm.folders.contains layer) then layer_path.dropLast
      else layer_path) =
    (fun (layer : Key) =>
      let layer_path := (ancestorsList dm.struct (dm.struct.length + 1) layer).reverse
      if include_self = true ∨ ¬ layer ∈ dm.folders then layer_path.dropLast
      else layer_path) := by
    funext layer
    cases hc : dm.folders.contains layer with
    | true =>
      have hm : layer ∈ dm.folders := by simpa using hc
      cases include_self <;> simp [hc, hm]
    | false =>
      have hm : ¬ layer ∈ dm.folders := by simpa using hc
      cases include_self <;> simp [hc, hm]
  unfold deepest_common_ancestor deepest_common_ancestor_spec
  rw [hmap, hfun]

/-- A metadata state whose structure holds one folder layer `2` under the
root. -/
def dmC3 : DocumentMetadata :=
  { defaultDocumentMetadata with
    struct := push_child_go defaultStructure ROOT 2
    folders := [2] }

/-- C3 counterexample: on the single folder layer `2` with `include_self =
false`, the claim's pop condition (drop the last element exactly when
`include_self` is false and the layer is a folder) would answer the root,
but the source pops when `include_self || !folders.contains(layer)` and so
keeps the layer, answering the layer itself. -/
theorem dca_pop_condition_cex :
    deepest_common_ancestor dmC3 [2] false = some 2 ∧
    deepest_common_ancestor_claimed dmC3 [2] false = some 1 := by
  constructor
  · decide
  · decide

/-- The structure `[(ROOT, default), (5, default)]`: layer `5` is present
but disconnected (no parent chain to `ROOT`). -/
def sC6 : Structure := sset defaultStructure 5 default

/-- C6 counterexample: on a disconnected layer, `child_of_root` does not hit
its fatal `expect` — it returns the layer itself, though `5` is not a child
of `ROOT` (it has no parent at all). -/
theorem child_of_root_disconnected_cex :
    child_of_root sC6 5 = some 5 ∧ existsS sC6 5 = true ∧ (5 : Key) ≠ ROOT ∧
    parentS sC6 5 = none := by
  refine ⟨by decide, by decide, by decide, by decide⟩

/-- C2: on every consistent tree state, the descendant iterator of any layer
yields forwards the pre-order of the layer's child forest (parent before
children, siblings in order), yields backwards exactly the reverse of the
forward order, and both directions enumerate the same set. -/
theorem decendants_iterator_symmetry (s : Structure) (t : RT)
    (h : TreeState s t) (L : Key) :
    decendantsList s L = (match findT L t with
      | some sub => preF sub.children
      | none => []) ∧
    decendantsListBack s L = (decendantsList s L).reverse ∧
    ∀ x, x ∈ decendantsListBack s L ↔ x ∈ decendantsList s L := by
  obtain ⟨h1, h2⟩ := decendants_tree s t h L
  exact ⟨h1, h2, fun x => by rw [h2]; exact List.mem_reverse⟩

theorem decendants_iterator_symmetry_witness :
    TreeState defaultStructure (.node ROOT .nil) ∧
    (decendantsList defaultStructure ROOT =
      (match findT ROOT (.node ROOT .nil) with
        | some sub => preF sub.children
        | none => []) ∧
    decendantsListBack defaultStructure ROOT =
      (decendantsList defaultStructure ROOT).reverse ∧
    ∀ x, x ∈ decendantsListBack defaultStructure ROOT ↔
      x ∈ decendantsList defaultStructure ROOT) :=
  have hts : TreeState defaultStructure (.node ROOT .nil) :=
    ⟨rfl, by decide, fun q => by
      by_cases hq : q = ROOT
      · subst hq
        rfl
      · simp [defaultStructure, sfind?, relT, relF, hq,
          show ¬ (q = ROOT) from hq]⟩
  ⟨hts, decendants_iterator_symmetry defaultStructure (.node ROOT .nil) hts ROOT⟩

/-- The metadata state of the C9 counterexample: node `42` is selected. -/
def dmC9 : DocumentMetadata :=
  { defaultDocumentMetadata with selected_nodes := [42] }

/-- The graph snapshot of the C9 counterexample: one designated output node
`7` and an empty node map. -/
def gC9 : NodeNetwork := ⟨[], [7]⟩

/-- C9 counterexample: on a graph whose output node is absent from the node
map, `load_structure` takes its early `return;` and leaves `selected_nodes`
unpruned — the stale selection `42` survives though it is not a node of the
graph. -/
theorem load_structure_prune_cex :
    (load_structure dmC9 gC9 5).map (fun d => d.selected_nodes) = some [42] ∧
    alistFind? gC9.nodes 42 = none := by
  constructor
  · rfl
  · rfl

/-- C9 (amended): when `load_structure` returns, either it took one of its
two early `return;` exits (output node absent, or no first upstream layer) —
then `structure` is reset but `selected_nodes`, `upstream_transforms` and
`click_targets` are left untouched — or it completed the walk, and then
`selected_nodes` keeps exactly the previously selected keys that are nodes
of the graph in their original order, `upstream_transforms` keeps exactly
the entries keyed by nodes of the graph, and `click_targets` keeps exactly
the entries keyed by keys of the rebuilt structure. -/
theorem load_structure_prunes (dm : DocumentMetadata) (g : NodeNetwork)
    (fuel : Nat) (dm2 : DocumentMetadata)
    (h : load_structure dm g fuel = some dm2) :
    (earlyReturn g fuel = true ∧ dm2.selected_nodes = dm.selected_nodes ∧
      dm2.upstream_transforms = dm.upstream_transforms ∧
      dm2.click_targets = dm.click_targets ∧ dm2.struct = defaultStructure) ∨
    (earlyReturn g fuel = false ∧
      dm2.selected_nodes =
        dm.selected_nodes.filter (fun n => (alistFind? g.nodes n).isSome) ∧
      dm2.upstream_transforms =
        dm.upstream_transforms.filter (fun e => (alistFind? g.nodes e.1).isSome) ∧
      dm2.click_targets =
        dm.click_targets.filter (fun e => existsS dm2.struct e.1)) := by
  unfold load_structure at h
  unfold earlyReturn
  cases ho : g.outputs.head? with
  | none =>
    simp only [ho] at h
    exact Option.noConfusion h
  | some id =>
    simp only [ho] at h
    cases hn : alistFind? g.nodes id with
    | none =>
      simp only [hn, Option.some.injEq] at h
      subst h
      refine Or.inl ⟨?_, rfl, rfl, rfl, rfl⟩
      show (match alistFind? g.nodes id with
        | none => true
        | some n => (first_child_layer g fuel n).isNone) = true
      rw [hn]
    | some output_node =>
      simp only [hn] at h
      cases hf : first_child_layer g fuel output_node with
      | none =>
        simp only [hf, Option.some.injEq] at h
        subst h
        refine Or.inl ⟨?_, rfl, rfl, rfl, rfl⟩
        show (match alistFind? g.nodes id with
          | none => true
          | some n => (first_child_layer g fuel n).isNone) = true
        rw [hn]
        rw [show (match some output_node with
          | none => true
          | some n => (first_child_layer g fuel n).isNone) =
          (first_child_layer g fuel output_node).isNone from rfl, hf]
        rfl
      | some ln =>
        obtain ⟨ln1, ln2⟩ := ln
        simp only [hf] at h
        obtain ⟨acc, hacc, hdm⟩ := Option.map_eq_some'.mp h
        subst hdm
        refine Or.inr ⟨?_, rfl, rfl, rfl⟩
        show (match alistFind? g.nodes id with
          | none => true
          | some n => (first_child_layer g fuel n).isNone) = false
        rw [hn]
        rw [show (match some output_node with
          | none => true
          | some n => (first_child_layer g fuel n).isNone) =
          (first_child_layer g fuel output_node).isNone from rfl, hf]
        rfl

theorem load_structure_prunes_witness :
    load_structure dmC9 gC9 5 = some dmC9 ∧
    ((earlyReturn gC9 5 = true ∧ dmC9.selected_nodes = dmC9.selected_nodes ∧
      dmC9.upstream_transforms = dmC9.upstream_transforms ∧
      dmC9.click_targets = dmC9.click_targets ∧ dmC9.struct = defaultStructure) ∨
    (earlyReturn gC9 5 = false ∧
      dmC9.selected_nodes =
        dmC9.selected_nodes.filter (fun n => (alistFind? gC9.nodes n).isSome) ∧
      dmC9.upstream_transforms =
        dmC9.upstream_transforms.filter
          (fun e => (alistFind? gC9.nodes e.1).isSome) ∧
      dmC9.click_targets =
        dmC9.click_targets.filter (fun e => existsS dmC9.struct e.1))) :=
  ⟨rfl, load_structure_prunes dmC9 gC9 5 dmC9 rfl⟩

/-! ### Ancestor paths in a consistent tree (for `child_of_root`) -/

mutual
/-- The root-to-`x` path of keys inside a tree, `none` when `x` is absent. -/
def ancPathT : RT → Key → Option (List Key)
  | .node k cs, x =>
    if x = k then some [k] else (ancPathF cs x).map (fun l => k :: l)
/-- Companion of `ancPathT` for forests. -/
def ancPathF : Forest → Key → Option (List Key)
  | .nil, _ => none
  | .cons t ts, x =>
    match ancPathT t x with
    | some l => some l
    | none => ancPathF ts x
end

mutual
theorem ancPathT_isSome : ∀ (t : RT) (x : Key),
    (ancPathT t x).isSome = true ↔ x ∈ preT t
  | .node k cs, x => by
    by_cases hx : x = k
    · subst hx
      simp [ancPathT, preT]
    · simp only [ancPathT, hx, if_false, preT, List.mem_cons, false_or]
      rw [show (Option.map (fun l => k :: l) (ancPathF cs x)).isSome =
        (ancPathF cs x).isSome from by cases ancPathF cs x <;> rfl]
      exact ancPathF_isSome cs x
theorem ancPathF_isSome : ∀ (ts : Forest) (x : Key),
    (ancPathF ts x).isSome = true ↔ x ∈ preF ts
  | .nil, x => by simp [ancPathF, preF]
  | .cons t ts, x => by
    simp only [ancPathF, preF, List.mem_append]
    cases h : ancPathT t x with
    | some l =>
      have hmem : x ∈ preT t := by
        have := (ancPathT_isSome t x).mp
        simp [h] at this
        exact this
      simp [hmem]
    | none =>
      have hx : ¬ x ∈ preT t := by
        intro hmem
        have := (ancPathT_isSome t x).mpr hmem
        simp [h] at this
      simp only [hx, false_or]
      exact ancPathF_isSome ts x
end

theorem getLast?_cons_ne {α : Type} (a : α) : ∀ (l : List α), l ≠ [] →
    (a :: l).getLast? = l.getLast?
  | [], h => absurd rfl h
  | b :: bs, _ => by
    rw [List.getLast?_cons_cons]

mutual
theorem ancPathT_spec : ∀ (t : RT) (x : Key) (l : List Key), ancPathT t x = some l →
    l.head? = some t.key ∧ l.getLast? = some x ∧ l.length ≤ (preT t).length ∧
    ∀ y ∈ l, y ∈ preT t
  | .node k cs, x, l, h => by
    by_cases hx : x = k
    · subst hx
      have hl : [x] = l := by simpa [ancPathT] using h
      subst hl
      exact ⟨rfl, rfl, preT_length_pos _, by
        intro y hy
        simp at hy
        subst hy
        exact key_mem_preT (.node y cs)⟩
    · simp only [ancPathT, hx, if_false] at h
      obtain ⟨l2, hl2, hmap⟩ := Option.map_eq_some'.mp h
      subst hmap
      obtain ⟨⟨hd, tl, hcons, _⟩, hlast, hlen, hmem⟩ := ancPathF_spec cs x l2 hl2
      refine ⟨rfl, ?_, ?_, ?_⟩
      · rw [getLast?_cons_ne k l2 (by rw [hcons]; exact List.cons_ne_nil hd tl)]
        exact hlast
      · simp only [preT, List.length_cons]
        omega
      · intro y hy
        simp only [List.mem_cons] at hy
        cases hy with
        | inl hy =>
          subst hy
          exact key_mem_preT (.node y cs)
        | inr hy =>
          simp only [preT, List.mem_cons]
          exact Or.inr (hmem y hy)
theorem ancPathF_spec : ∀ (ts : Forest) (x : Key) (l : List Key), ancPathF ts x = some l →
    (∃ hd tl, l = hd :: tl ∧ hd ∈ topKeys ts) ∧ l.getLast? = some x ∧
    l.length ≤ (preF ts).length ∧ ∀ y ∈ l, y ∈ preF ts
  | .nil, x, l, h => by simp [ancPathF] at h
  | .cons t ts, x, l, h => by
    simp only [ancPathF] at h
    cases ht : ancPathT t x with
    | some l1 =>
      rw [ht] at h
      have hl1 : l1 = l := by simpa using h
      subst hl1
      obtain ⟨hhead, hlast, hlen, hmem⟩ := ancPathT_spec t x l1 ht
      cases l1 with
      | nil => simp at hhead
      | cons a tl =>
        have ha : a = t.key := by simpa using hhead
        refine ⟨⟨a, tl, rfl, by rw [topKeys_cons, ha]; exact List.mem_cons_self _ _⟩,
          hlast, ?_, ?_⟩
        · have : (preF (.cons t ts)).length = (preT t).length + (preF ts).length := by
            simp [preF]
          omega
        · intro y hy
          simp only [preF, List.mem_append]
          exact Or.inl (hmem y hy)
    | none =>
      rw [ht] at h
      obtain ⟨⟨hd, tl, hcons, htop⟩, hlast, hlen, hmem⟩ := ancPathF_spec ts x l h
      refine ⟨⟨hd, tl, hcons, by rw [topKeys_cons]; exact List.mem_cons_of_mem _ htop⟩,
        hlast, ?_, ?_⟩
      · have : (preF (.cons t ts)).length = (preT t).length + (preF ts).length := by
          simp [preF]
        omega
      · intro y hy
        simp only [preF, List.mem_append]
        exact Or.inr (hmem y hy)
end

mutual
/-- Walking `parent` links from `x` inside a realized subtree produces the
reversed root-to-`x` path and then continues from the subtree's own parent
context. -/
theorem ancestors_of_path_T : ∀ (t : RT) (s : Structure) (par prev next : Option Key)
    (x : Key) (l : List Key), RealizedT s par prev next t → (preT t).Nodup →
    ancPathT t x = some l → ∀ fuel, l.length ≤ fuel →
    axisList s parentS fuel (some x) =
      l.reverse ++ axisList s parentS (fuel - l.length) par
  | .node k cs, s, par, prev, next, x, l, hreal, hnd, hpath, fuel, hfuel => by
    obtain ⟨hfind, hrcs⟩ := realizedT_node hnd hreal
    by_cases hx : x = k
    · subst hx
      have hl : [x] = l := by simpa [ancPathT] using hpath
      subst hl
      cases fuel with
      | zero => simp at hfuel
      | succ f =>
        rw [axisList_some]
        rw [show parentS s x = par from by simp [parentS, hfind]]
        rfl
    · simp only [ancPathT, hx, if_false] at hpath
      obtain ⟨l2, hl2, hmap⟩ := Option.map_eq_some'.mp hpath
      subst hmap
      have hlen2 : l2.length ≤ fuel := by
        simp only [List.length_cons] at hfuel
        omega
      rw [ancestors_of_path_F cs s (some k) none x l2 hrcs (nodup_preT k cs hnd).2
        hl2 fuel hlen2]
      have hm : fuel - l2.length = (fuel - (l2.length + 1)) + 1 := by
        simp only [List.length_cons] at hfuel
        omega
      rw [hm, axisList_some]
      rw [show parentS s k = par from by simp [parentS, hfind]]
      rw [show (k :: l2).reverse = l2.reverse ++ [k] from by simp]
      rw [show (k :: l2).length = l2.length + 1 from rfl]
      simp [List.append_assoc]
theorem ancestors_of_path_F : ∀ (ts : Forest) (s : Structure) (par prev : Option Key)
    (x : Key) (l : List Key), RealizedF s par prev ts → (preF ts).Nodup →
    ancPathF ts x = some l → ∀ fuel, l.length ≤ fuel →
    axisList s parentS fuel (some x) =
      l.reverse ++ axisList s parentS (fuel - l.length) par
  | .nil, s, par, prev, x, l, _, _, hpath, fuel, hfuel => by
    simp [ancPathF] at hpath
  | .cons t ts, s, par, prev, x, l, hreal, hnd, hpath, fuel, hfuel => by
    obtain ⟨hrt, hrts⟩ := realizedF_cons hnd hreal
    simp only [ancPathF] at hpath
    cases ht : ancPathT t x with
    | some l1 =>
      rw [ht] at hpath
      have hl1 : l1 = l := by simpa using hpath
      subst hl1
      exact ancestors_of_path_T t s par prev (headKey ts) x l1 hrt
        (nodup_preF_of_cons hnd).1 ht fuel hfuel
    | none =>
      rw [ht] at hpath
      exact ancestors_of_path_F ts s par (some t.key) x l hrts
        (nodup_preF_of_cons hnd).2.1 hpath fuel hfuel
end

/-- C6 (amended): on a consistent tree state, `child_of_root(ROOT)` hits its
fatal `expect` (the ancestors of `ROOT` are just `ROOT`, all filtered out),
and for every present non-root layer `x` it returns without aborting an
ancestor of `x` whose `parent` is `ROOT`; a disconnected argument, however,
returns without the claimed panic (see the counterexample). -/
theorem child_of_root_tree (s : Structure) (t : RT) (h : TreeState s t) (x : Key) :
    child_of_root s ROOT = none ∧
    (existsS s x = true → x ≠ ROOT →
      ∃ c, child_of_root s x = some c ∧ parentS s c = some ROOT ∧
        c ∈ ancestorsList s (s.length + 1) x) := by
  obtain ⟨k, cs⟩ := t
  have hk : k = ROOT := h.1
  subst hk
  have hsize := treeState_size_le h
  have hreal := treeState_realized h
  have hnd := h.2.1
  have hnocs : ¬ ROOT ∈ preF cs := by
    have := hnd
    rw [preT_def] at this
    exact (List.nodup_cons.mp this).1
  constructor
  · have hpath : ancPathT (.node ROOT cs) ROOT = some [ROOT] := by
      simp [ancPathT]
    have hrun := ancestors_of_path_T (.node ROOT cs) s none none none ROOT [ROOT]
      hreal hnd hpath (s.length + 1) (by simp)
    rw [axisList_none] at hrun
    rw [show child_of_root s ROOT = ((ancestorsList s (s.length + 1) ROOT).filter
      (fun a => !(a = ROOT))).getLast? from rfl]
    rw [show ancestorsList s (s.length + 1) ROOT =
      axisList s parentS (s.length + 1) (some ROOT) from rfl, hrun]
    simp
  · intro hx hxr
    have hmem : x ∈ preT (.node ROOT cs) := by
      rw [show existsS s x = (sfind? s x).isSome from rfl, h.2.2 x] at hx
      exact (relT_isSome _ none none none x).mp hx
    obtain ⟨l, hl⟩ := Option.isSome_iff_exists.mp ((ancPathT_isSome _ x).mpr hmem)
    obtain ⟨hhead, hlast, hlen, hmemy⟩ := ancPathT_spec _ x l hl
    have hpath2 := hl
    have hxk : ¬ (x = ROOT) := hxr
    simp only [ancPathT, hxk, if_false] at hpath2
    obtain ⟨l2, hl2, hmap⟩ := Option.map_eq_some'.mp hpath2
    obtain ⟨⟨hd, tl, hcons, htop⟩, hlast2, _, hmem2⟩ := ancPathF_spec cs x l2 hl2
    obtain ⟨hfind, hrcs⟩ := realizedT_node hnd hreal
    have hpar : parentS s hd = some ROOT :=
      topParent hrcs (nodup_preT ROOT cs hnd).2 hd htop
    have hrun := ancestors_of_path_T (.node ROOT cs) s none none none x l
      hreal hnd hl (s.length + 1) (by omega)
    rw [axisList_none] at hrun
    have hanc : ancestorsList s (s.length + 1) x = l.reverse := by
      rw [show ancestorsList s (s.length + 1) x =
        axisList s parentS (s.length + 1) (some x) from rfl, hrun]
      simp
    have hleq : l = ROOT :: hd :: tl := by
      rw [← hmap, hcons]
    refine ⟨hd, ?_, hpar, ?_⟩
    · rw [show child_of_root s x = ((ancestorsList s (s.length + 1) x).filter
        (fun a => !(a = ROOT))).getLast? from rfl, hanc, hleq]
      rw [show (ROOT :: hd :: tl).reverse = (hd :: tl).reverse ++ [ROOT] from by simp]
      rw [List.filter_append]
      rw [show List.filter (fun a => !(a = ROOT)) [ROOT] = [] from by simp]
      rw [List.filter_eq_self.mpr ?hall]
      case hall =>
        intro y hy
        rw [List.mem_reverse] at hy
        have hyf : y ∈ preF cs := by
          apply hmem2
          rw [hcons]
          exact hy
        have hyr : ¬ (y = ROOT) := by
          intro hye
          subst hye
          exact hnocs hyf
        simp [hyr]
      rw [List.append_nil, List.getLast?_reverse]
      rfl
    · rw [hanc, List.mem_reverse, hleq]
      exact List.mem_cons_of_mem _ (List.mem_cons_self hd tl)

theorem child_of_root_tree_witness :
    TreeState (push_child_go defaultStructure ROOT 2)
      (.node ROOT (.cons (.node 2 .nil) .nil)) ∧
    existsS (push_child_go defaultStructure ROOT 2) 2 = true ∧ (2 : Key) ≠ ROOT ∧
    (child_of_root (push_child_go defaultStructure ROOT 2) ROOT = none ∧
      ∃ c, child_of_root (push_child_go defaultStructure ROOT 2) 2 = some c ∧
        parentS (push_child_go defaultStructure ROOT 2) c = some ROOT ∧
        c ∈ ancestorsList (push_child_go defaultStructure ROOT 2)
          ((push_child_go defaultStructure ROOT 2).length + 1) 2) :=
  have hts : TreeState (push_child_go defaultStructure ROOT 2)
      (.node ROOT (.cons (.node 2 .nil) .nil)) := by
    refine ⟨rfl, by decide, fun q => ?_⟩
    by_cases h1 : q = 1
    · subst h1
      rfl
    by_cases h2 : q = 2
    · subst h2
      rfl
    · rw [show push_child_go defaultStructure ROOT 2 =
        [(1, ⟨none, none, none, some 2, some 2⟩),
         (2, ⟨some 1, none, none, none, none⟩)] from rfl]
      simp [sfind?, relT, relF, ROOT, h1, h2]
  have hmain := child_of_root_tree (push_child_go defaultStructure ROOT 2)
    (.node ROOT (.cons (.node 2 .nil) .nil)) hts 2
  ⟨hts, by decide, by decide, hmain.1, hmain.2 (by decide) (by decide)⟩

/-! ### Operation preservation: permutation bookkeeping -/

theorem perm_append_shift {α : Type} {A B X Y C : List α} (h : (A ++ Y).Perm (X ++ B)) :
    ((A ++ C) ++ Y).Perm (X ++ (B ++ C)) := by
  have h1 : ((A ++ C) ++ Y).Perm ((A ++ Y) ++ C) := by
    rw [List.append_assoc, List.append_assoc]
    exact List.Perm.append_left A List.perm_append_comm
  refine h1.trans ((h.append_right C).trans ?_)
  rw [List.append_assoc]

theorem perm_append_shift2 {α : Type} {A B X Y P : List α}
    (h : (A ++ Y).Perm (X ++ B)) : ((P ++ A) ++ Y).Perm (X ++ (P ++ B)) := by
  have h1 : ((P ++ A) ++ Y).Perm (P ++ (X ++ B)) := by
    rw [List.append_assoc]
    exact List.Perm.append_left P h
  refine h1.trans ?_
  have h2 : (P ++ (X ++ B)).Perm ((P ++ X) ++ B) := by
    rw [List.append_assoc]
  refine h2.trans ?_
  have h3 : ((P ++ X) ++ B).Perm ((X ++ P) ++ B) :=
    List.Perm.append_right B List.perm_append_comm
  refine h3.trans ?_
  rw [List.append_assoc]

mutual
/-- Replacing the child forest of `self` changes the pre-order of the tree by
exactly the change of the replaced forest's pre-order, up to permutation. -/
theorem chT_perm : ∀ (t : RT) (self : Key) (g : Forest → Forest) (scs : Forest)
    (X Y : List Key), (preT t).Nodup → findT self t = some (.node self scs) →
    (preF (g scs) ++ Y).Perm (X ++ preF scs) →
    (preT (chT self g t) ++ Y).Perm (X ++ preT t)
  | .node k cs, self, g, scs, X, Y, hnd, hfind, hperm => by
    by_cases hk : k = self
    · subst hk
      have hscs : scs = cs := by
        simp [findT] at hfind
        exact ((RT.node.injEq k scs k cs).mp (by rw [hfind])).2
      subst hscs
      rw [show chT k g (RT.node k scs) = RT.node k (g scs) from by simp [chT]]
      rw [preT_def, preT_def]
      have h1 : ((k :: preF (g scs)) ++ Y).Perm (k :: (preF (g scs) ++ Y)) := by
        simp
      refine h1.trans ((hperm.cons k).trans ?_)
      exact List.perm_middle.symm
    · have hk2 : ¬ (self = k) := fun he => hk he.symm
      simp only [findT, hk2, if_false] at hfind
      rw [show chT self g (RT.node k cs) = RT.node k (chF self g cs) from
        by simp [chT, hk]]
      rw [preT_def, preT_def]
      have hF := chF_perm cs self g scs X Y (nodup_preT k cs hnd).2 hfind hperm
      have h1 : ((k :: preF (chF self g cs)) ++ Y).Perm
          (k :: (preF (chF self g cs) ++ Y)) := by simp
      refine h1.trans ((hF.cons k).trans ?_)
      exact List.perm_middle.symm
theorem chF_perm : ∀ (ts : Forest) (self : Key) (g : Forest → Forest) (scs : Forest)
    (X Y : List Key), (preF ts).Nodup → findF self ts = some (.node self scs) →
    (preF (g scs) ++ Y).Perm (X ++ preF scs) →
    (preF (chF self g ts) ++ Y).Perm (X ++ preF ts)
  | .nil, self, g, scs, X, Y, _, hfind, _ => by simp [findF] at hfind
  | .cons t ts, self, g, scs, X, Y, hnd, hfind, hperm => by
    simp only [findF] at hfind
    rw [show chF self g (.cons t ts) = .cons (chT self g t) (chF self g ts) from rfl]
    rw [show preF (.cons (chT self g t) (chF self g ts)) =
      preT (chT self g t) ++ preF (chF self g ts) from rfl]
    rw [show preF (.cons t ts) = preT t ++ preF ts from rfl]
    cases ht : findT self t with
    | some r =>
      rw [ht] at hfind
      have hr : r = .node self scs := by simpa using hfind
      subst hr
      have hselft : self ∈ preT t := by
        have := (findT_isSome t self).mp (by simp [ht])
        exact this
      have hselfts : ¬ self ∈ preF ts := (nodup_preF_of_cons hnd).2.2 self hselft
      rw [chF_noop ts self g hselfts]
      exact perm_append_shift
        (chT_perm t self g scs X Y (nodup_preF_of_cons hnd).1 ht hperm)
    | none =>
      rw [ht] at hfind
      have hselft : ¬ self ∈ preT t := by
        intro hmem
        have := (findT_isSome t self).mpr hmem
        simp [ht] at this
      rw [chT_noop t self g hselft]
      exact perm_append_shift2
        (chF_perm ts self g scs X Y (nodup_preF_of_cons hnd).2.1 hfind hperm)
end

/-! ### Operation preservation: top-level positions in a forest -/

/-- The key of the top-level tree preceding the top-level tree with key `a`
(`pr` names the sibling preceding the whole forest). -/
def prevTop : Forest → Option Key → Key → Option Key
  | .nil, _, _ => none
  | .cons t ts, pr, a => if t.key = a then pr else prevTop ts (some t.key) a

/-- The key of the top-level tree following the top-level tree with key `a`. -/
def nextTop : Forest → Key → Option Key
  | .nil, _ => none
  | .cons t ts, a => if t.key = a then headKey ts else nextTop ts a

/-- The child forest of the top-level tree with key `a`. -/
def subAt : Forest → Key → Option Forest
  | .nil, _ => none
  | .cons t ts, a => if t.key = a then some t.children else subAt ts a

theorem subAt_isSome : ∀ (ts : Forest) (a : Key),
    (subAt ts a).isSome = true ↔ a ∈ topKeys ts
  | .nil, a => by simp [subAt, topKeys]
  | .cons t ts, a => by
    rw [topKeys_cons]
    by_cases ht : t.key = a
    · simp [subAt, ht]
    · have ht2 : ¬ (a = t.key) := fun he => ht he.symm
      simp only [subAt, ht, if_false, List.mem_cons, ht2, false_or]
      exact subAt_isSome ts a

theorem subAt_findF : ∀ (ts : Forest) (a : Key) (acs : Forest),
    (preF ts).Nodup → subAt ts a = some acs →
    findF a ts = some (.node a acs)
  | .nil, a, acs, _, h => by simp [subAt] at h
  | .cons t ts, a, acs, hnd, h => by
    obtain ⟨tk, tcs⟩ := t
    by_cases ht : tk = a
    · subst ht
      have hacs : tcs = acs := by
        simpa [subAt, RT.key, RT.children] using h
      subst hacs
      simp [findF, findT]
    · have ht2 : (RT.node tk tcs).key = tk := rfl
      rw [show subAt (.cons (.node tk tcs) ts) a =
        subAt ts a from by simp [subAt, ht2, ht]] at h
      have hrec := subAt_findF ts a acs (nodup_preF_of_cons hnd).2.1 h
      have hmem : a ∈ preF ts := by
        have h1 := (findF_isSome ts a).mp (by simp [hrec])
        exact h1
      have hnt : ¬ a ∈ preT (.node tk tcs) :=
        fun hmem2 => (nodup_preF_of_cons hnd).2.2 a hmem2 hmem
      have hft : findT a (.node tk tcs) = none := by
        cases hft : findT a (.node tk tcs) with
        | none => rfl
        | some r =>
          exact absurd ((findT_isSome _ a).mp (by simp [hft])) hnt
      simp [findF, hft, hrec]

theorem prevTop_cases : ∀ (ts : Forest) (pr : Option Key) (a p : Key),
    prevTop ts pr a = some p → pr = some p ∨ p ∈ topKeys ts
  | .nil, pr, a, p, h => by simp [prevTop] at h
  | .cons t ts, pr, a, p, h => by
    rw [topKeys_cons]
    by_cases ht : t.key = a
    · simp only [prevTop, ht, if_pos] at h
      exact Or.inl h
    · simp only [prevTop, ht, if_false] at h
      cases prevTop_cases ts (some t.key) a p h with
      | inl h1 =>
        have : t.key = p := by simpa using h1
        exact Or.inr (by simp [this])
      | inr h1 => exact Or.inr (by simp [h1])

theorem nextTop_mem : ∀ (ts : Forest) (a n : Key),
    nextTop ts a = some n → n ∈ topKeys ts
  | .nil, a, n, h => by simp [nextTop] at h
  | .cons t ts, a, n, h => by
    rw [topKeys_cons]
    by_cases ht : t.key = a
    · simp only [nextTop, ht, if_pos] at h
      cases ts with
      | nil => simp [headKey] at h
      | cons u ts2 =>
        have : u.key = n := by simpa [headKey] using h
        simp [topKeys_cons, this]
    · simp only [nextTop, ht, if_false] at h
      exact List.mem_cons_of_mem _ (nextTop_mem ts a n h)

theorem headKey_mem_topKeys : ∀ (ts : Forest) (k : Key),
    headKey ts = some k → k ∈ topKeys ts
  | .nil, k, h => by simp [headKey] at h
  | .cons t ts, k, h => by
    have : t.key = k := by simpa [headKey] using h
    rw [topKeys_cons, this]
    exact List.mem_cons_self _ _

theorem lastKey_mem_topKeys : ∀ (ts : Forest) (k : Key),
    lastKey ts = some k → k ∈ topKeys ts
  | .nil, k, h => by simp [lastKey, lastTree] at h
  | .cons t ts, k, h => by
    rw [topKeys_cons]
    cases ts with
    | nil =>
      have : t.key = k := by
        simpa [lastKey, lastTree] using h
      simp [this]
    | cons u ts2 =>
      rw [show lastKey (.cons t (.cons u ts2)) = lastKey (.cons u ts2) from by
        simp [lastKey, lastTree]] at h
      exact List.mem_cons_of_mem _ (lastKey_mem_topKeys (.cons u ts2) k h)

/-- The record family of a forest depends on the preceding-sibling context
only at the forest's head key. -/
theorem relF_prev_map : ∀ (ts : Forest) (par p1 p2 : Option Key) (q : Key),
    relF par p1 ts q = if some q = headKey ts
      then (relF par p2 ts q).map (fun r => { r with previous_sibling := p1 })
      else relF par p2 ts q
  | .nil, par, p1, p2, q => by
    simp [relF, headKey]
  | .cons (.node hk hcs) rest, par, p1, p2, q => by
    rw [show headKey (.cons (.node hk hcs) rest) = some hk from rfl]
    by_cases hq : q = hk
    · subst hq
      rw [if_pos rfl]
      rw [show relF par p1 (.cons (.node q hcs) rest) q =
        (match relT par p1 (headKey rest) (.node q hcs) q with
         | some r => some r
         | none => relF par (some q) rest q) from rfl]
      rw [show relF par p2 (.cons (.node q hcs) rest) q =
        (match relT par p2 (headKey rest) (.node q hcs) q with
         | some r => some r
         | none => relF par (some q) rest q) from rfl]
      rw [show relT par p1 (headKey rest) (.node q hcs) q =
        some ⟨par, p1, headKey rest, headKey hcs, lastKey hcs⟩ from by simp [relT]]
      rw [show relT par p2 (headKey rest) (.node q hcs) q =
        some ⟨par, p2, headKey rest, headKey hcs, lastKey hcs⟩ from by simp [relT]]
      rfl
    · rw [if_neg (by simp [hq])]
      rw [show relF par p1 (.cons (.node hk hcs) rest) q =
        (match relT par p1 (headKey rest) (.node hk hcs) q with
         | some r => some r
         | none => relF par (some hk) rest q) from rfl]
      rw [show relF par p2 (.cons (.node hk hcs) rest) q =
        (match relT par p2 (headKey rest) (.node hk hcs) q with
         | some r => some r
         | none => relF par (some hk) rest q) from rfl]
      rw [relT_congr (show q ≠ (RT.node hk hcs).key from hq) par p1 (headKey rest)
        par p2 (headKey rest)]

theorem lastKey_cons (t : RT) (ts : Forest) :
    lastKey (.cons t ts) = some ((lastKey ts).getD t.key) := by
  cases ts with
  | nil => rfl
  | cons u ts2 =>
    obtain ⟨v, hv⟩ := lastTree_cons_isSome u ts2
    rw [show lastKey (.cons t (.cons u ts2)) = lastKey (.cons u ts2) from by
      simp [lastKey, lastTree]]
    rw [show lastKey (.cons u ts2) = some v.key from by
      rw [show lastKey (.cons u ts2) = (lastTree (.cons u ts2)).map RT.key from rfl,
        hv]
      rfl]
    rfl

/-- Facts a consistent tree state yields about any present key: its subtree,
its stored record, and the subtree's realization. -/
theorem treeState_find (s : Structure) (t : RT) (h : TreeState s t) (x : Key)
    (hx : existsS s x = true) :
    ∃ (scs : Forest) (p v n : Option Key),
      findT x t = some (.node x scs) ∧
      sfind? s x = some ⟨p, v, n, headKey scs, lastKey scs⟩ ∧
      (preT (.node x scs)).Nodup ∧
      RealizedF s (some x) none scs ∧
      (preT (.node x scs)).length ≤ (preT t).length ∧
      ∀ y ∈ preT (.node x scs), y ∈ preT t := by
  have hmem : x ∈ preT t := by
    rw [show existsS s x = (sfind? s x).isSome from rfl, h.2.2 x] at hx
    exact (relT_isSome t none none none x).mp hx
  obtain ⟨sub, hfind⟩ := Option.isSome_iff_exists.mp ((findT_isSome t x).mpr hmem)
  obtain ⟨hkey, ⟨p2, v2, n2, hrsub⟩, hndsub, hlensub⟩ :=
    findT_realized t s none none none (treeState_realized h) h.2.1 x sub hfind
  obtain ⟨sk, scs⟩ := sub
  simp only [RT.key] at hkey
  rw [hkey] at hfind hrsub hndsub hlensub
  obtain ⟨hrec, hrF⟩ := realizedT_node hndsub hrsub
  exact ⟨scs, p2, v2, n2, hfind, hrec, hndsub, hrF, hlensub, findT_sub_mem t x _ hfind⟩

/-- An absent key is outside the tree of a consistent tree state. -/
theorem treeState_absent (s : Structure) (t : RT) (h : TreeState s t) (x : Key)
    (hx : existsS s x = false) : ¬ x ∈ preT t ∧ sfind? s x = none := by
  have hfind : sfind? s x = none := by
    rw [show existsS s x = (sfind? s x).isSome from rfl] at hx
    exact Option.not_isSome_iff_eq_none.mp (by simp [hx])
  refine ⟨fun hmem => ?_, hfind⟩
  have := (relT_isSome t none none none x).mpr hmem
  rw [← h.2.2 x, hfind] at this
  simp at this

theorem defaultRel : (default : NodeRelations) = ⟨none, none, none, none, none⟩ := rfl

/-! ### `push_front_child` preserves the invariant -/

/-- The record transform of `push_front_child`: the head of the old child
forest gains `new` as previous sibling; `new` (absent before) is created
with the parent and next-sibling links the operation writes. -/
def TRpf (self new : Key) (hd : Option Key) (q : Key)
    (v : Option NodeRelations) : Option NodeRelations :=
  if some q = hd then v.map (fun r => { r with previous_sibling := some new })
  else if q = new then
    (match v with
     | none => some ⟨some self, none, hd, none, none⟩
     | some r => some r)
  else v

theorem TRpf_rel (self new : Key) (scs : Forest) (hnew : ¬ new ∈ preF scs) :
    ∀ q, q ≠ self →
      relF (some self) none (.cons (.node new .nil) scs) q =
        TRpf self new (headKey scs) q (relF (some self) none scs q) := by
  intro q _
  have hh : ∀ q2, q2 ∈ preF scs → ¬ (some q2 = headKey scs) → True := fun _ _ _ => trivial
  by_cases hqn : q = new
  · subst hqn
    rw [show relF (some self) none (.cons (.node q .nil) scs) q =
      (match relT (some self) none (headKey scs) (.node q .nil) q with
       | some r => some r
       | none => relF (some self) (some q) scs q) from rfl]
    rw [show relT (some self) none (headKey scs) (.node q .nil) q =
      some ⟨some self, none, headKey scs, none, none⟩ from by
        simp [relT, headKey, lastKey, lastTree]]
    rw [show (match (some (⟨some self, none, headKey scs, none, none⟩ :
        NodeRelations)) with
       | some r => some r
       | none => relF (some self) (some q) scs q) =
      some ⟨some self, none, headKey scs, none, none⟩ from rfl]
    rw [relF_none_of_not_mem hnew]
    have hqh : ¬ (some q = headKey scs) := by
      intro he
      exact hnew (mem_preF_of_mem_topKeys (headKey_mem_topKeys scs q he.symm))
    simp [TRpf, hqh]
  · rw [show relF (some self) none (.cons (.node new .nil) scs) q =
      (match relT (some self) none (headKey scs) (.node new .nil) q with
       | some r => some r
       | none => relF (some self) (some new) scs q) from rfl]
    rw [show relT (some self) none (headKey scs) (.node new .nil) q = none from by
      simp [relT, relF, hqn]]
    rw [show (match (none : Option NodeRelations) with
       | some r => some r
       | none => relF (some self) (some new) scs q) =
      relF (some self) (some new) scs q from rfl]
    rw [relF_prev_map scs (some self) (some new) none q]
    by_cases hqh : some q = headKey scs
    · simp [TRpf, hqh]
    · simp [TRpf, hqh, hqn]

theorem TRpf_some (self new : Key) (scs : Forest) :
    ∀ q r, ¬ q ∈ preF scs → TRpf self new (headKey scs) q (some r) = some r := by
  intro q r hq
  have hqh : ¬ (some q = headKey scs) := by
    intro he
    exact hq (mem_preF_of_mem_topKeys (headKey_mem_topKeys scs q he.symm))
  by_cases hqn : q = new
  · subst hqn
    simp [TRpf, hqh]
  · simp [TRpf, hqh, hqn]

/-- Pointwise effect of the `push_front_child` body on the structure map. -/
theorem push_front_child_go_state (s : Structure) (self new : Key)
    (p v n : Option Key) (fc lc : Option Key)
    (hself : sfind? s self = some ⟨p, v, n, fc, lc⟩)
    (hnew : sfind? s new = none)
    (hfcp : ∀ c, fc = some c → c ≠ self ∧ c ≠ new ∧ (sfind? s c).isSome = true) :
    ∀ q, sfind? (push_front_child_go s self new) q =
      chCT self (some new) (some (lc.getD new)) (TRpf self new fc) q (sfind? s q) := by
  intro q
  have hsn : self ≠ new := by
    intro he
    rw [he, hnew] at hself
    exact Option.noConfusion hself
  have hns : ¬ (new = self) := fun he => hsn he.symm
  simp only [push_front_child_go, hself, Option.getD_some]
  cases hfc : fc with
  | none =>
    by_cases hq : q = self
    · subst hq
      simp [sfind?_supdate, sfind?_sset, hsn, chCT, hself]
    · by_cases hqn : q = new
      · subst hqn
        simp [sfind?_supdate, sfind?_sset, hns, hnew, chCT, TRpf, hsn, defaultRel]
      · simp [sfind?_supdate, sfind?_sset, hq, hqn, chCT, TRpf]
  | some ofc =>
    obtain ⟨hocs, hocn, hocp⟩ := hfcp ofc hfc
    obtain ⟨rofc, hrofc⟩ := Option.isSome_iff_exists.mp hocp
    have hso : ¬ (self = ofc) := fun he => hocs he.symm
    have hno : ¬ (new = ofc) := fun he => hocn he.symm
    by_cases hq : q = self
    · subst hq
      simp [sfind?_supdate, sfind?_sset, hsn, hso, chCT, hself]
    · by_cases hqn : q = new
      · subst hqn
        simp [sfind?_supdate, sfind?_sset, hns, hno, hnew, chCT, TRpf, hsn,
          defaultRel]
      · by_cases hqo : q = ofc
        · subst hqo
          simp [sfind?_supdate, sfind?_sset, hqn, hq, chCT, TRpf, hrofc]
        · simp [sfind?_supdate, sfind?_sset, hq, hqn, hqo, chCT, TRpf]

/-- `push_front_child` (precondition: `self` present, `new` absent) maps a
consistent tree state to the consistent tree state whose child forest of
`self` has the leaf `new` prepended. -/
theorem push_front_child_preserves (s : Structure) (t : RT) (h : TreeState s t)
    (self new : Key) (hselfp : existsS s self = true)
    (hnewp : existsS s new = false) :
    TreeState (push_front_child_go s self new)
      (chT self (fun cs => .cons (.node new .nil) cs) t) := by
  obtain ⟨scs, p2, v2, n2, hfind, hrec, hndsub, hrF, hlen, hsub⟩ :=
    treeState_find s t h self hselfp
  obtain ⟨hnmem, hnfind⟩ := treeState_absent s t h new hnewp
  have hnscs : ¬ new ∈ preF scs := fun hm => hnmem (hsub new (by simp [preT, hm]))
  have hselfscs : ¬ self ∈ preF scs := (nodup_preT self scs hndsub).1
  have hfcp : ∀ c, headKey scs = some c →
      c ≠ self ∧ c ≠ new ∧ (sfind? s c).isSome = true := by
    intro c hc
    have hcm : c ∈ preF scs := mem_preF_of_mem_topKeys (headKey_mem_topKeys scs c hc)
    refine ⟨fun he => hselfscs (he ▸ hcm), fun he => hnscs (he ▸ hcm), ?_⟩
    rw [h.2.2 c]
    exact (relT_isSome t none none none c).mpr (hsub c (by simp [preT, hcm]))
  have hnone : ∀ q2, TRpf self new (headKey scs) q2 none ≠ none → ¬ q2 ∈ preT t := by
    intro q2 hne
    by_cases h1 : some q2 = headKey scs
    · simp [TRpf, h1] at hne
    · by_cases h2 : q2 = new
      · subst h2
        exact hnmem
      · simp [TRpf, h1, h2] at hne
  refine ⟨?_, ?_, ?_⟩
  · rw [chT_key]
    exact h.1
  · have hperm := chT_perm t self (fun cs => .cons (.node new .nil) cs) scs
      [new] [] h.2.1 hfind (by
        rw [List.append_nil]
        rw [show preF (.cons (.node new .nil) scs) = [new] ++ preF scs from rfl])
    rw [List.append_nil] at hperm
    exact hperm.nodup_iff.mpr (List.nodup_cons.mpr ⟨hnmem, h.2.1⟩)
  · intro q
    rw [push_front_child_go_state s self new p2 v2 n2 (headKey scs) (lastKey scs)
      hrec hnfind hfcp q]
    rw [h.2.2 q]
    exact (chRelT t self (fun cs => .cons (.node new .nil) cs) scs
      (TRpf self new (headKey scs)) (some new) (some ((lastKey scs).getD new))
      (TRpf_rel self new scs hnscs) rfl
      (by rw [lastKey_cons]; rfl) (TRpf_some self new scs) h.2.1 hfind hnone
      none none none q).symm

/-! ### `push_child` preserves the invariant -/

/-- Append a tree at the end of a forest. -/
def appendF : Forest → RT → Forest
  | .nil, u => .cons u .nil
  | .cons t ts, u => .cons t (appendF ts u)

theorem appendF_headKey : ∀ (ts : Forest) (u : RT),
    headKey (appendF ts u) = some ((headKey ts).getD u.key)
  | .nil, u => rfl
  | .cons t ts, u => rfl

theorem appendF_lastKey : ∀ (ts : Forest) (u : RT),
    lastKey (appendF ts u) = some u.key
  | .nil, u => rfl
  | .cons t ts, u => by
    cases ts with
    | nil => rfl
    | cons t2 ts2 =>
      rw [show appendF (.cons t (.cons t2 ts2)) u =
        .cons t (.cons t2 (appendF ts2 u)) from rfl]
      rw [show lastKey (.cons t (.cons t2 (appendF ts2 u))) =
        lastKey (.cons t2 (appendF ts2 u)) from by simp [lastKey, lastTree]]
      rw [show Forest.cons t2 (appendF ts2 u) = appendF (.cons t2 ts2) u from rfl]
      exact appendF_lastKey (.cons t2 ts2) u

theorem appendF_preF : ∀ (ts : Forest) (u : RT),
    preF (appendF ts u) = preF ts ++ preT u
  | .nil, u => by simp [appendF, preF]
  | .cons t ts, u => by
    rw [show appendF (.cons t ts) u = .cons t (appendF ts u) from rfl]
    rw [show preF (.cons t (appendF ts u)) = preT t ++ preF (appendF ts u) from rfl]
    rw [appendF_preF ts u]
    rw [show preF (.cons t ts) = preT t ++ preF ts from rfl]
    rw [List.append_assoc]

/-- The record transform of `push_child`: the last top-level child of `self`
gains `new` as next sibling; `new` is created with the parent and
previous-sibling links the operation writes. -/
def TRpc (self new : Key) (lst : Option Key) (q : Key)
    (v : Option NodeRelations) : Option NodeRelations :=
  if some q = lst then v.map (fun r => { r with next_sibling := some new })
  else if q = new then
    (match v with
     | none => some ⟨some self, lst, none, none, none⟩
     | some r => some r)
  else v

theorem TRpc_relAux (self new : Key) : ∀ (ts : Forest) (pr : Option Key),
    (preF ts).Nodup → ¬ new ∈ preF ts →
    ∀ q, q ≠ new →
      relF (some self) pr (appendF ts (.node new .nil)) q =
        (if some q = lastKey ts then
          (relF (some self) pr ts q).map (fun r => { r with next_sibling := some new })
         else relF (some self) pr ts q)
  | .nil, pr, _, _, q, hq => by
    rw [show appendF .nil (.node new .nil) = .cons (.node new .nil) .nil from rfl]
    rw [show relF (some self) pr (.cons (.node new .nil) .nil) q =
      (match relT (some self) pr (headKey .nil) (.node new .nil) q with
       | some r => some r
       | none => relF (some self) (some new) .nil q) from rfl]
    rw [show relT (some self) pr (headKey .nil) (.node new .nil) q = none from by
      simp [relT, relF, hq]]
    simp [relF, lastKey, lastTree]
  | .cons t rest, pr, hnd, hnew, q, hq => by
    rw [show appendF (.cons t rest) (.node new .nil) =
      .cons t (appendF rest (.node new .nil)) from rfl]
    cases rest with
    | nil =>
      obtain ⟨tk, tcs⟩ := t
      rw [show lastKey (.cons (.node tk tcs) .nil) = some tk from rfl]
      by_cases hqt : q = tk
      · subst hqt
        rw [if_pos rfl]
        rw [show relF (some self) pr
          (.cons (.node q tcs) (appendF .nil (.node new .nil))) q =
          (match relT (some self) pr (headKey (appendF .nil (.node new .nil)))
              (.node q tcs) q with
           | some r => some r
           | none => relF (some self) (some q) (appendF .nil (.node new .nil)) q)
          from rfl]
        rw [show relT (some self) pr (headKey (appendF .nil (.node new .nil)))
            (.node q tcs) q =
          some ⟨some self, pr, some new, headKey tcs, lastKey tcs⟩ from by
            simp [relT, appendF, headKey, RT.key]]
        rw [show relF (some self) pr (.cons (.node q tcs) .nil) q =
          (match relT (some self) pr (headKey .nil) (.node q tcs) q with
           | some r => some r
           | none => relF (some self) (some q) .nil q) from rfl]
        rw [show relT (some self) pr (headKey .nil) (.node q tcs) q =
          some ⟨some self, pr, none, headKey tcs, lastKey tcs⟩ from by
            simp [relT, headKey]]
        rfl
      · rw [if_neg (by simp [hqt])]
        rw [show relF (some self) pr
          (.cons (.node tk tcs) (appendF .nil (.node new .nil))) q =
          (match relT (some self) pr (headKey (appendF .nil (.node new .nil)))
              (.node tk tcs) q with
           | some r => some r
           | none => relF (some self) (some tk) (appendF .nil (.node new .nil)) q)
          from rfl]
        rw [show relF (some self) pr (.cons (.node tk tcs) .nil) q =
          (match relT (some self) pr (headKey .nil) (.node tk tcs) q with
           | some r => some r
           | none => relF (some self) (some tk) .nil q) from rfl]
        rw [relT_congr (show q ≠ (RT.node tk tcs).key from hqt) (some self) pr
          (headKey (appendF .nil (.node new .nil))) (some self) pr (headKey .nil)]
        cases hrt : relT (some self) pr (headKey .nil) (.node tk tcs) q with
        | some r => rfl
        | none =>
          rw [show appendF .nil (.node new .nil) = .cons (.node new .nil) .nil from rfl]
          rw [show relF (some self) (some tk) (.cons (.node new .nil) .nil) q =
            (match relT (some self) (some tk) (headKey .nil) (.node new .nil) q with
             | some r => some r
             | none => relF (some self) (some new) .nil q) from rfl]
          rw [show relT (some self) (some tk) (headKey .nil) (.node new .nil) q =
            none from by simp [relT, relF, hq]]
          rfl
    | cons u rest2 =>
      have hndr : (preF (.cons u rest2)).Nodup := (nodup_preF_of_cons hnd).2.1
      have hnewr : ¬ new ∈ preF (.cons u rest2) := by
        intro hm
        apply hnew
        simp only [preF, List.mem_append] at hm ⊢
        tauto
      have hhk : headKey (appendF (.cons u rest2) (.node new .nil)) = some u.key := rfl
      rw [show lastKey (.cons t (.cons u rest2)) = lastKey (.cons u rest2) from by
        simp [lastKey, lastTree]]
      rw [show relF (some self) pr
        (.cons t (appendF (.cons u rest2) (.node new .nil))) q =
        (match relT (some self) pr
            (headKey (appendF (.cons u rest2) (.node new .nil))) t q with
         | some r => some r
         | none => relF (some self) (some t.key)
            (appendF (.cons u rest2) (.node new .nil)) q) from rfl]
      rw [hhk]
      rw [show relF (some self) pr (.cons t (.cons u rest2)) q =
        (match relT (some self) pr (headKey (.cons u rest2)) t q with
         | some r => some r
         | none => relF (some self) (some t.key) (.cons u rest2) q) from rfl]
      rw [show headKey (.cons u rest2) = some u.key from rfl]
      cases hrt : relT (some self) pr (some u.key) t q with
      | some r =>
        have hqt : q ∈ preT t := (relT_isSome t (some self) pr (some u.key) q).mp
          (by simp [hrt])
        have hql : ¬ (some q = lastKey (.cons u rest2)) := by
          intro he
          have hmem := mem_preF_of_mem_topKeys
            (lastKey_mem_topKeys (.cons u rest2) q he.symm)
          exact (nodup_preF_of_cons hnd).2.2 q hqt hmem
        rw [if_neg hql]
      | none =>
        rw [TRpc_relAux self new (.cons u rest2) (some t.key) hndr hnewr q hq]

/-- The continuation-aware last key: the last top key of `ts`, or `pr` when
`ts` is empty. -/
def lastOr (pr : Option Key) (ts : Forest) : Option Key :=
  match lastKey ts with
  | some l => some l
  | none => pr

theorem lastOr_none : ∀ ts : Forest, lastOr none ts = lastKey ts := by
  intro ts
  unfold lastOr
  cases lastKey ts <;> rfl

theorem lastOr_cons (pr : Option Key) (t : RT) (ts : Forest) :
    lastOr pr (.cons t ts) = lastOr (some t.key) ts := by
  unfold lastOr
  cases ts with
  | nil => rfl
  | cons u ts2 =>
    obtain ⟨v, hv⟩ := lastTree_cons_isSome u ts2
    rw [show lastKey (.cons t (.cons u ts2)) = lastKey (.cons u ts2) from by
      simp [lastKey, lastTree]]
    rw [show lastKey (.cons u ts2) = some v.key from by
      rw [show lastKey (.cons u ts2) = (lastTree (.cons u ts2)).map RT.key from rfl,
        hv]
      rfl]

theorem relF_appendF_new (self new : Key) : ∀ (ts : Forest) (pr : Option Key),
    ¬ new ∈ preF ts →
    relF (some self) pr (appendF ts (.node new .nil)) new =
      some ⟨some self, lastOr pr ts, none, none, none⟩
  | .nil, pr, _ => by
    rw [show appendF .nil (.node new .nil) = .cons (.node new .nil) .nil from rfl]
    rw [show relF (some self) pr (.cons (.node new .nil) .nil) new =
      (match relT (some self) pr (headKey .nil) (.node new .nil) new with
       | some r => some r
       | none => relF (some self) (some new) .nil new) from rfl]
    rw [show relT (some self) pr (headKey .nil) (.node new .nil) new =
      some ⟨some self, pr, none, none, none⟩ from by
        simp [relT, headKey, lastKey, lastTree]]
    rfl
  | .cons t ts, pr, hnew => by
    have hnt : ¬ new ∈ preT t := fun hm => hnew (by simp [preF, hm])
    have hnts : ¬ new ∈ preF ts := fun hm => hnew (by simp [preF, hm])
    rw [show appendF (.cons t ts) (.node new .nil) =
      .cons t (appendF ts (.node new .nil)) from rfl]
    rw [show relF (some self) pr (.cons t (appendF ts (.node new .nil))) new =
      (match relT (some self) pr (headKey (appendF ts (.node new .nil))) t new with
       | some r => some r
       | none => relF (some self) (some t.key) (appendF ts (.node new .nil)) new)
      from rfl]
    rw [relT_none_of_not_mem hnt (some self) pr
      (headKey (appendF ts (.node new .nil)))]
    rw [show (match (none : Option NodeRelations) with
       | some r => some r
       | none => relF (some self) (some t.key) (appendF ts (.node new .nil)) new) =
      relF (some self) (some t.key) (appendF ts (.node new .nil)) new from rfl]
    rw [relF_appendF_new self new ts (some t.key) hnts]
    rw [lastOr_cons]

theorem TRpc_rel (self new : Key) (scs : Forest) (hnd : (preF scs).Nodup)
    (hnew : ¬ new ∈ preF scs) :
    ∀ q, q ≠ self →
      relF (some self) none (appendF scs (.node new .nil)) q =
        TRpc self new (lastKey scs) q (relF (some self) none scs q) := by
  intro q _
  by_cases hqn : q = new
  · subst hqn
    rw [relF_appendF_new self q scs none hnew, lastOr_none]
    rw [relF_none_of_not_mem hnew]
    have hql : ¬ (some q = lastKey scs) := by
      intro he
      exact hnew (mem_preF_of_mem_topKeys (lastKey_mem_topKeys scs q he.symm))
    simp [TRpc, hql]
  · rw [TRpc_relAux self new scs none hnd hnew q hqn]
    by_cases hql : some q = lastKey scs
    · simp [TRpc, hql]
    · simp [TRpc, hql, hqn]

theorem TRpc_some (self new : Key) (scs : Forest) :
    ∀ q r, ¬ q ∈ preF scs → TRpc self new (lastKey scs) q (some r) = some r := by
  intro q r hq
  have hql : ¬ (some q = lastKey scs) := by
    intro he
    exact hq (mem_preF_of_mem_topKeys (lastKey_mem_topKeys scs q he.symm))
  by_cases hqn : q = new
  · subst hqn
    simp [TRpc, hql]
  · simp [TRpc, hql, hqn]

/-- Pointwise effect of the `push_child` body on the structure map. -/
theorem push_child_go_state (s : Structure) (self new : Key)
    (p v n : Option Key) (fc lc : Option Key)
    (hself : sfind? s self = some ⟨p, v, n, fc, lc⟩)
    (hnew : sfind? s new = none)
    (hlcp : ∀ c, lc = some c → c ≠ self ∧ c ≠ new ∧ (sfind? s c).isSome = true) :
    ∀ q, sfind? (push_child_go s self new) q =
      chCT self (some (fc.getD new)) (some new) (TRpc self new lc) q
        (sfind? s q) := by
  intro q
  have hsn : self ≠ new := by
    intro he
    rw [he, hnew] at hself
    exact Option.noConfusion hself
  have hns : ¬ (new = self) := fun he => hsn he.symm
  simp only [push_child_go, hself, Option.getD_some]
  cases hlc : lc with
  | none =>
    by_cases hq : q = self
    · subst hq
      simp [sfind?_supdate, sfind?_sset, hsn, chCT, hself]
    · by_cases hqn : q = new
      · subst hqn
        simp [sfind?_supdate, sfind?_sset, hns, hnew, chCT, TRpc, hsn, defaultRel]
      · simp [sfind?_supdate, sfind?_sset, hq, hqn, chCT, TRpc]
  | some olc =>
    obtain ⟨hocs, hocn, hocp⟩ := hlcp olc hlc
    obtain ⟨rolc, hrolc⟩ := Option.isSome_iff_exists.mp hocp
    have hso : ¬ (self = olc) := fun he => hocs he.symm
    have hno : ¬ (new = olc) := fun he => hocn he.symm
    by_cases hq : q = self
    · subst hq
      simp [sfind?_supdate, sfind?_sset, hsn, hso, chCT, hself]
    · by_cases hqn : q = new
      · subst hqn
        simp [sfind?_supdate, sfind?_sset, hns, hno, hnew, chCT, TRpc, hsn,
          defaultRel]
      · by_cases hqo : q = olc
        · subst hqo
          simp [sfind?_supdate, sfind?_sset, hqn, hq, chCT, TRpc, hrolc]
        · simp [sfind?_supdate, sfind?_sset, hq, hqn, hqo, chCT, TRpc]

/-- `push_child` (precondition: `self` present, `new` absent) maps a
consistent tree state to the consistent tree state whose child forest of
`self` has the leaf `new` appended. -/
theorem push_child_preserves (s : Structure) (t : RT) (h : TreeState s t)
    (self new : Key) (hselfp : existsS s self = true)
    (hnewp : existsS s new = false) :
    TreeState (push_child_go s self new)
      (chT self (fun cs => appendF cs (.node new .nil)) t) := by
  obtain ⟨scs, p2, v2, n2, hfind, hrec, hndsub, hrF, hlen, hsub⟩ :=
    treeState_find s t h self hselfp
  obtain ⟨hnmem, hnfind⟩ := treeState_absent s t h new hnewp
  have hnscs : ¬ new ∈ preF scs := fun hm => hnmem (hsub new (by simp [preT, hm]))
  have hselfscs : ¬ self ∈ preF scs := (nodup_preT self scs hndsub).1
  have hlcp : ∀ c, lastKey scs = some c →
      c ≠ self ∧ c ≠ new ∧ (sfind? s c).isSome = true := by
    intro c hc
    have hcm : c ∈ preF scs := mem_preF_of_mem_topKeys (lastKey_mem_topKeys scs c hc)
    refine ⟨fun he => hselfscs (he ▸ hcm), fun he => hnscs (he ▸ hcm), ?_⟩
    rw [h.2.2 c]
    exact (relT_isSome t none none none c).mpr (hsub c (by simp [preT, hcm]))
  have hnone : ∀ q2, TRpc self new (lastKey scs) q2 none ≠ none → ¬ q2 ∈ preT t := by
    intro q2 hne
    by_cases h1 : some q2 = lastKey scs
    · simp [TRpc, h1] at hne
    · by_cases h2 : q2 = new
      · subst h2
        exact hnmem
      · simp [TRpc, h1, h2] at hne
  refine ⟨?_, ?_, ?_⟩
  · rw [chT_key]
    exact h.1
  · have hperm := chT_perm t self (fun cs => appendF cs (.node new .nil)) scs
      [new] [] h.2.1 hfind (by
        rw [List.append_nil, appendF_preF]
        rw [show preT (.node new .nil) = [new] from rfl]
        exact List.perm_append_comm)
    rw [List.append_nil] at hperm
    exact hperm.nodup_iff.mpr (List.nodup_cons.mpr ⟨hnmem, h.2.1⟩)
  · intro q
    rw [push_child_go_state s self new p2 v2 n2 (headKey scs) (lastKey scs)
      hrec hnfind hlcp q]
    rw [h.2.2 q]
    exact (chRelT t self (fun cs => appendF cs (.node new .nil)) scs
      (TRpc self new (lastKey scs)) (some ((headKey scs).getD new)) (some new)
      (TRpc_rel self new scs (nodup_preT self scs hndsub).2 hnscs)
      (by rw [appendF_headKey]; rfl) (appendF_lastKey scs (.node new .nil))
      (TRpc_some self new scs) h.2.1 hfind hnone
      none none none q).symm

/-! ### Anchored operations: locating the parent subtree -/

mutual
/-- Every non-root key has a parent subtree locatable by `findT`. -/
theorem findParentT : ∀ (t : RT) (a : Key), (preT t).Nodup →
    a ∈ preT t → a ≠ t.key →
    ∃ (pA : Key) (pcs : Forest), findT pA t = some (.node pA pcs) ∧ a ∈ topKeys pcs
  | .node k cs, a, hnd, hmem, hne => by
    simp only [RT.key] at hne
    have hacs : a ∈ preF cs := by
      simp only [preT, List.mem_cons] at hmem
      tauto
    by_cases htop : a ∈ topKeys cs
    · exact ⟨k, cs, by simp [findT], htop⟩
    · obtain ⟨pA, pcs, hfind, htop2⟩ :=
        findParentF cs a (nodup_preT k cs hnd).2 hacs htop
      have hpacs : pA ∈ preF cs := by
        have := (findF_isSome cs pA).mp (by simp [hfind])
        exact this
      have hpk : ¬ (pA = k) := by
        intro he
        exact (nodup_preT k cs hnd).1 (he ▸ hpacs)
      exact ⟨pA, pcs, by simp [findT, hpk, hfind], htop2⟩
termination_by t => sizeOf t

theorem findParentF : ∀ (ts : Forest) (a : Key), (preF ts).Nodup →
    a ∈ preF ts → ¬ a ∈ topKeys ts →
    ∃ (pA : Key) (pcs : Forest), findF pA ts = some (.node pA pcs) ∧ a ∈ topKeys pcs
  | .nil, a, _, hmem, _ => by simp [preF] at hmem
  | .cons t ts, a, hnd, hmem, htop => by
    simp only [preF, List.mem_append] at hmem
    simp only [topKeys_cons, List.mem_cons] at htop
    push_neg at htop
    cases hmem with
    | inl hmem =>
      obtain ⟨pA, pcs, hfind, htop2⟩ :=
        findParentT t a (nodup_preF_of_cons hnd).1 hmem htop.1
      refine ⟨pA, pcs, ?_, htop2⟩
      simp [findF, hfind]
    | inr hmem =>
      obtain ⟨pA, pcs, hfind, htop2⟩ :=
        findParentF ts a (nodup_preF_of_cons hnd).2.1 hmem htop.2
      have hpts : pA ∈ preF ts := by
        have := (findF_isSome ts pA).mp (by simp [hfind])
        exact this
      have hpt : ¬ pA ∈ preT t := fun hm => (nodup_preF_of_cons hnd).2.2 pA hm hpts
      have hft : findT pA t = none := by
        cases hft : findT pA t with
        | none => rfl
        | some r => exact absurd ((findT_isSome t pA).mp (by simp [hft])) hpt
      refine ⟨pA, pcs, ?_, htop2⟩
      rw [show findF pA (.cons t ts) =
        (match findT pA t with
         | some r => some r
         | none => findF pA ts) from rfl]
      rw [hft]
      exact hfind
termination_by ts => sizeOf ts
end

/-- The record of a top-level key of a forest, in terms of its position. -/
theorem relF_topRec : ∀ (ts : Forest) (par pr : Option Key) (a : Key) (acs : Forest),
    (preF ts).Nodup → subAt ts a = some acs →
    relF par pr ts a =
      some ⟨par, prevTop ts pr a, nextTop ts a, headKey acs, lastKey acs⟩
  | .nil, par, pr, a, acs, _, hsub => by simp [subAt] at hsub
  | .cons t rest, par, pr, a, acs, hnd, hsub => by
    obtain ⟨tk, tcs⟩ := t
    by_cases ht : tk = a
    · subst ht
      have hacs : acs = tcs := by
        have := hsub
        simp only [subAt, RT.key, RT.children, if_pos rfl] at this
        exact (Option.some.injEq _ _).mp this.symm
      subst hacs
      rw [show relF par pr (.cons (.node tk acs) rest) tk =
        (match relT par pr (headKey rest) (.node tk acs) tk with
         | some r => some r
         | none => relF par (some tk) rest tk) from rfl]
      rw [show relT par pr (headKey rest) (.node tk acs) tk =
        some ⟨par, pr, headKey rest, headKey acs, lastKey acs⟩ from by simp [relT]]
      rw [show prevTop (.cons (.node tk acs) rest) pr tk = pr from by
        simp [prevTop, RT.key]]
      rw [show nextTop (.cons (.node tk acs) rest) tk = headKey rest from by
        simp [nextTop, RT.key]]
    · have hsub2 : subAt rest a = some acs := by
        simpa [subAt, RT.key, ht] using hsub
      have hmem : a ∈ preF rest :=
        mem_preF_of_mem_topKeys ((subAt_isSome rest a).mp (by simp [hsub2]))
      have hnt : ¬ a ∈ preT (.node tk tcs) :=
        fun hm => (nodup_preF_of_cons hnd).2.2 a hm hmem
      rw [show relF par pr (.cons (.node tk tcs) rest) a =
        (match relT par pr (headKey rest) (.node tk tcs) a with
         | some r => some r
         | none => relF par (some tk) rest a) from rfl]
      rw [relT_none_of_not_mem hnt par pr (headKey rest)]
      rw [show (match (none : Option NodeRelations) with
         | some r => some r
         | none => relF par (some tk) rest a) = relF par (some tk) rest a from rfl]
      rw [relF_topRec rest par (some tk) a acs (nodup_preF_of_cons hnd).2.1 hsub2]
      rw [show prevTop (.cons (.node tk tcs) rest) pr a =
        prevTop rest (some tk) a from by simp [prevTop, RT.key, ht]]
      rw [show nextTop (.cons (.node tk tcs) rest) a = nextTop rest a from by
        simp [nextTop, RT.key, ht]]

theorem prevTop_head : ∀ (ts : Forest) (pr : Option Key) (a : Key),
    headKey ts = some a → prevTop ts pr a = pr
  | .nil, pr, a, h => by simp [headKey] at h
  | .cons t ts, pr, a, h => by
    have : t.key = a := by simpa [headKey] using h
    simp [prevTop, this]

theorem prevTop_isSome_of_some : ∀ (ts : Forest) (x : Key) (a : Key),
    a ∈ topKeys ts → (prevTop ts (some x) a).isSome = true
  | .nil, x, a, h => by simp [topKeys] at h
  | .cons t ts, x, a, h => by
    by_cases ht : t.key = a
    · simp [prevTop, ht]
    · have ht2 : ¬ (a = t.key) := fun he => ht he.symm
      rw [topKeys_cons] at h
      simp only [List.mem_cons, ht2, false_or] at h
      simp only [prevTop, ht, if_false]
      exact prevTop_isSome_of_some ts t.key a h

theorem prevTop_none_head : ∀ (ts : Forest) (a : Key),
    a ∈ topKeys ts → prevTop ts none a = none → headKey ts = some a
  | .nil, a, h, _ => by simp [topKeys] at h
  | .cons t ts, a, h, hp => by
    by_cases ht : t.key = a
    · simp [headKey, ht]
    · have ht2 : ¬ (a = t.key) := fun he => ht he.symm
      rw [topKeys_cons] at h
      simp only [List.mem_cons, ht2, false_or] at h
      simp only [prevTop, ht, if_false] at hp
      have := prevTop_isSome_of_some ts t.key a h
      rw [hp] at this
      simp at this

theorem prevTop_mem_of_not_head : ∀ (ts : Forest) (pr : Option Key) (a : Key),
    a ∈ topKeys ts → ¬ headKey ts = some a →
    ∀ p, prevTop ts pr a = some p → p ∈ topKeys ts
  | .nil, pr, a, h, _, p, _ => by simp [topKeys] at h
  | .cons t ts, pr, a, hmem, hhd, p, hp => by
    have ht : ¬ (t.key = a) := by
      intro he
      exact hhd (by simp [headKey, he])
    have ht2 : ¬ (a = t.key) := fun he => ht he.symm
    rw [topKeys_cons] at hmem ⊢
    simp only [List.mem_cons, ht2, false_or] at hmem
    simp only [prevTop, ht, if_false] at hp
    by_cases hhd2 : headKey ts = some a
    · rw [prevTop_head ts (some t.key) a hhd2] at hp
      have : t.key = p := by simpa using hp
      simp [this]
    · exact List.mem_cons_of_mem _
        (prevTop_mem_of_not_head ts (some t.key) a hmem hhd2 p hp)

/-! ### The sibling-insertion forests -/

/-- Insert the leaf `new` directly before the top-level tree with key `a`. -/
def ibF (a new : Key) : Forest → Forest
  | .nil => .nil
  | .cons t ts =>
    if t.key = a then .cons (.node new .nil) (.cons t ts)
    else .cons t (ibF a new ts)

/-- Insert the leaf `new` directly after the top-level tree with key `a`. -/
def iaF (a new : Key) : Forest → Forest
  | .nil => .nil
  | .cons t ts =>
    if t.key = a then .cons t (.cons (.node new .nil) ts)
    else .cons t (iaF a new ts)

theorem ibF_headKey (a new : Key) : ∀ ts : Forest, a ∈ topKeys ts →
    headKey (ibF a new ts) =
      (if headKey ts = some a then some new else headKey ts)
  | .nil, h => by simp [topKeys] at h
  | .cons (.node tk tcs) ts, h => by
    by_cases ht : tk = a
    · rw [show ibF a new (.cons (.node tk tcs) ts) =
        .cons (.node new .nil) (.cons (.node tk tcs) ts) from by
          simp [ibF, RT.key, ht]]
      rw [show headKey (.cons (.node new .nil) (.cons (.node tk tcs) ts)) =
        some new from rfl]
      rw [show headKey (.cons (.node tk tcs) ts) = some tk from rfl]
      simp [ht]
    · rw [show ibF a new (.cons (.node tk tcs) ts) =
        .cons (.node tk tcs) (ibF a new ts) from by simp [ibF, RT.key, ht]]
      rw [show headKey (.cons (.node tk tcs) (ibF a new ts)) = some tk from rfl]
      rw [show headKey (.cons (.node tk tcs) ts) = some tk from rfl]
      simp [ht]

theorem ibF_perm (a new : Key) : ∀ ts : Forest, a ∈ topKeys ts →
    (preF (ibF a new ts)).Perm (new :: preF ts)
  | .nil, h => by simp [topKeys] at h
  | .cons t ts, h => by
    by_cases ht : t.key = a
    · rw [show ibF a new (.cons t ts) = .cons (.node new .nil) (.cons t ts) from by
        simp [ibF, ht]]
      rw [show preF (.cons (.node new .nil) (.cons t ts)) =
        preT (.node new .nil) ++ preF (.cons t ts) from rfl]
      rw [show preT (.node new .nil) = [new] from rfl]
      exact List.Perm.refl _
    · have ht2 : ¬ (a = t.key) := fun he => ht he.symm
      rw [topKeys_cons] at h
      simp only [List.mem_cons, ht2, false_or] at h
      rw [show ibF a new (.cons t ts) = .cons t (ibF a new ts) from by
        simp [ibF, ht]]
      rw [show preF (.cons t (ibF a new ts)) = preT t ++ preF (ibF a new ts) from rfl]
      rw [show preF (.cons t ts) = preT t ++ preF ts from rfl]
      refine (List.Perm.append_left (preT t) (ibF_perm a new ts h)).trans ?_
      exact List.perm_middle

theorem iaF_headKey (a new : Key) : ∀ ts : Forest,
    headKey (iaF a new ts) = headKey ts
  | .nil => rfl
  | .cons t ts => by
    by_cases ht : t.key = a
    · simp [iaF, ht, headKey]
    · simp [iaF, ht, headKey]

theorem iaF_perm (a new : Key) : ∀ ts : Forest, a ∈ topKeys ts →
    (preF (iaF a new ts)).Perm (new :: preF ts)
  | .nil, h => by simp [topKeys] at h
  | .cons t ts, h => by
    by_cases ht : t.key = a
    · rw [show iaF a new (.cons t ts) = .cons t (.cons (.node new .nil) ts) from by
        simp [iaF, ht]]
      rw [show preF (.cons t (.cons (.node new .nil) ts)) =
        preT t ++ ([new] ++ preF ts) from rfl]
      rw [show preF (.cons t ts) = preT t ++ preF ts from rfl]
      rw [show ([new] ++ preF ts) = new :: preF ts from rfl]
      exact List.perm_middle
    · have ht2 : ¬ (a = t.key) := fun he => ht he.symm
      rw [topKeys_cons] at h
      simp only [List.mem_cons, ht2, false_or] at h
      rw [show iaF a new (.cons t ts) = .cons t (iaF a new ts) from by
        simp [iaF, ht]]
      rw [show preF (.cons t (iaF a new ts)) = preT t ++ preF (iaF a new ts) from rfl]
      rw [show preF (.cons t ts) = preT t ++ preF ts from rfl]
      refine (List.Perm.append_left (preT t) (iaF_perm a new ts h)).trans ?_
      exact List.perm_middle

theorem ibF_lastKey (a new : Key) : ∀ ts : Forest, a ∈ topKeys ts →
    lastKey (ibF a new ts) = lastKey ts
  | .nil, h => by simp [topKeys] at h
  | .cons t ts, h => by
    by_cases ht : t.key = a
    · rw [show ibF a new (.cons t ts) = .cons (.node new .nil) (.cons t ts) from by
        simp [ibF, ht]]
      simp [lastKey, lastTree]
    · have ht2 : ¬ (a = t.key) := fun he => ht he.symm
      rw [topKeys_cons] at h
      simp only [List.mem_cons, ht2, false_or] at h
      rw [show ibF a new (.cons t ts) = .cons t (ibF a new ts) from by
        simp [ibF, ht]]
      cases ts with
      | nil => simp [topKeys] at h
      | cons u ts2 =>
        have hcons : ∃ v vs, ibF a new (.cons u ts2) = .cons v vs := by
          by_cases hu : u.key = a
          · exact ⟨.node new .nil, .cons u ts2, by simp [ibF, hu]⟩
          · exact ⟨u, ibF a new ts2, by simp [ibF, hu]⟩
        obtain ⟨v, vs, hv⟩ := hcons
        rw [hv]
        rw [show lastKey (.cons t (.cons v vs)) = lastKey (.cons v vs) from by
          simp [lastKey, lastTree]]
        rw [← hv]
        rw [show lastKey (.cons t (.cons u ts2)) = lastKey (.cons u ts2) from by
          simp [lastKey, lastTree]]
        exact ibF_lastKey a new (.cons u ts2) h

theorem prevTop_ne : ∀ (ts : Forest) (pr : Option Key) (a x : Key),
    (topKeys ts).Nodup → a ∈ topKeys ts →
    (∀ y, pr = some y → ¬ y ∈ topKeys ts) →
    prevTop ts pr a = some x → x ≠ a
  | .nil, pr, a, x, _, h, _, _ => by simp [topKeys] at h
  | .cons t ts, pr, a, x, hnd, hmem, hpr, hp => by
    by_cases ht : t.key = a
    · simp only [prevTop, ht, if_pos] at hp
      intro he
      subst he
      exact hpr x hp hmem
    · have ht2 : ¬ (a = t.key) := fun he => ht he.symm
      rw [topKeys_cons] at hmem hnd
      simp only [List.mem_cons, ht2, false_or] at hmem
      simp only [prevTop, ht, if_false] at hp
      refine prevTop_ne ts (some t.key) a x (List.nodup_cons.mp hnd).2 hmem ?_ hp
      intro y hy
      have : t.key = y := by simpa using hy
      subst this
      exact (List.nodup_cons.mp hnd).1

/-- The record transform of `add_before`: the anchor `a` gains `new` as
previous sibling, the anchor's old previous sibling gains `new` as next
sibling, and `new` is created with the links the operation writes. -/
def TRab (pA a new : Key) (pv : Option Key) (q : Key)
    (v : Option NodeRelations) : Option NodeRelations :=
  if q = a then v.map (fun r => { r with previous_sibling := some new })
  else if some q = pv then v.map (fun r => { r with next_sibling := some new })
  else if q = new then
    (match v with
     | none => some ⟨some pA, pv, some a, none, none⟩
     | some r => some r)
  else v

theorem relF_ibF_new (pA a new : Key) : ∀ (ts : Forest) (pr : Option Key),
    ¬ new ∈ preF ts → a ∈ topKeys ts →
    relF (some pA) pr (ibF a new ts) new =
      some ⟨some pA, prevTop ts pr a, some a, none, none⟩
  | .nil, pr, _, h => by simp [topKeys] at h
  | .cons (.node tk tcs) rest, pr, hnew, h => by
    by_cases ht : tk = a
    · rw [show ibF a new (.cons (.node tk tcs) rest) =
        .cons (.node new .nil) (.cons (.node tk tcs) rest) from by
          simp [ibF, RT.key, ht]]
      rw [show relF (some pA) pr
        (.cons (.node new .nil) (.cons (.node tk tcs) rest)) new =
        (match relT (some pA) pr (headKey (.cons (.node tk tcs) rest))
            (.node new .nil) new with
         | some r => some r
         | none => relF (some pA) (some new) (.cons (.node tk tcs) rest) new)
        from rfl]
      rw [show relT (some pA) pr (headKey (.cons (.node tk tcs) rest))
          (.node new .nil) new =
        some ⟨some pA, pr, some tk, none, none⟩ from by
          simp [relT, headKey, RT.key, lastKey, lastTree]]
      rw [show prevTop (.cons (.node tk tcs) rest) pr a = pr from by
        simp [prevTop, RT.key, ht]]
      rw [ht]
    · have ht2 : ¬ (a = tk) := fun he => ht he.symm
      rw [topKeys_cons] at h
      simp only [List.mem_cons, RT.key, ht2, false_or] at h
      have hnt : ¬ new ∈ preT (.node tk tcs) := fun hm => hnew (by simp [preF, hm])
      have hnr : ¬ new ∈ preF rest := fun hm => hnew (by simp [preF, hm])
      rw [show ibF a new (.cons (.node tk tcs) rest) =
        .cons (.node tk tcs) (ibF a new rest) from by simp [ibF, RT.key, ht]]
      rw [show relF (some pA) pr (.cons (.node tk tcs) (ibF a new rest)) new =
        (match relT (some pA) pr (headKey (ibF a new rest)) (.node tk tcs) new with
         | some r => some r
         | none => relF (some pA) (some tk) (ibF a new rest) new) from rfl]
      rw [relT_none_of_not_mem hnt (some pA) pr (headKey (ibF a new rest))]
      rw [show (match (none : Option NodeRelations) with
         | some r => some r
         | none => relF (some pA) (some tk) (ibF a new rest) new) =
        relF (some pA) (some tk) (ibF a new rest) new from rfl]
      rw [relF_ibF_new pA a new rest (some tk) hnr h]
      rw [show prevTop (.cons (.node tk tcs) rest) pr a =
        prevTop rest (some tk) a from by simp [prevTop, RT.key, ht]]

theorem TRab_relAux (pA a new : Key) : ∀ (ts : Forest) (pr : Option Key),
    (preF ts).Nodup → ¬ new ∈ preF ts → a ∈ topKeys ts →
    (∀ x, pr = some x → ¬ x ∈ preF ts) →
    ∀ q, q ≠ new →
      relF (some pA) pr (ibF a new ts) q =
        TRab pA a new (prevTop ts pr a) q (relF (some pA) pr ts q)
  | .nil, pr, _, _, h, _, q, _ => by simp [topKeys] at h
  | .cons (.node tk tcs) rest, pr, hnd, hnew, hmem, hpr, q, hq => by
    by_cases ht : tk = a
    · subst ht
      rw [show ibF tk new (.cons (.node tk tcs) rest) =
        .cons (.node new .nil) (.cons (.node tk tcs) rest) from by
          simp [ibF, RT.key]]
      rw [show prevTop (.cons (.node tk tcs) rest) pr tk = pr from by
        simp [prevTop, RT.key]]
      rw [show relF (some pA) pr
        (.cons (.node new .nil) (.cons (.node tk tcs) rest)) q =
        (match relT (some pA) pr (headKey (.cons (.node tk tcs) rest))
            (.node new .nil) q with
         | some r => some r
         | none => relF (some pA) (some new) (.cons (.node tk tcs) rest) q)
        from rfl]
      rw [show relT (some pA) pr (headKey (.cons (.node tk tcs) rest))
          (.node new .nil) q = none from by simp [relT, relF, hq]]
      rw [show (match (none : Option NodeRelations) with
         | some r => some r
         | none => relF (some pA) (some new) (.cons (.node tk tcs) rest) q) =
        relF (some pA) (some new) (.cons (.node tk tcs) rest) q from rfl]
      rw [show relF (some pA) (some new) (.cons (.node tk tcs) rest) q =
        (match relT (some pA) (some new) (headKey rest) (.node tk tcs) q with
         | some r => some r
         | none => relF (some pA) (some tk) rest q) from rfl]
      rw [show relF (some pA) pr (.cons (.node tk tcs) rest) q =
        (match relT (some pA) pr (headKey rest) (.node tk tcs) q with
         | some r => some r
         | none => relF (some pA) (some tk) rest q) from rfl]
      by_cases hqa : q = tk
      · subst hqa
        rw [show relT (some pA) (some new) (headKey rest) (.node q tcs) q =
          some ⟨some pA, some new, headKey rest, headKey tcs, lastKey tcs⟩ from by
            simp [relT]]
        rw [show relT (some pA) pr (headKey rest) (.node q tcs) q =
          some ⟨some pA, pr, headKey rest, headKey tcs, lastKey tcs⟩ from by
            simp [relT]]
        simp [TRab]
      · rw [relT_congr (show q ≠ (RT.node tk tcs).key from hqa) (some pA) (some new)
          (headKey rest) (some pA) pr (headKey rest)]
        cases hrt : relT (some pA) pr (headKey rest) (.node tk tcs) q with
        | some r =>
          have hqm : q ∈ preT (.node tk tcs) :=
            (relT_isSome _ (some pA) pr (headKey rest) q).mp (by simp [hrt])
          have hqpr : ¬ (some q = pr) := by
            intro he
            exact hpr q he.symm (by simp [preF, hqm])
          simp [TRab, hqa, hqpr, hq]
        | none =>
          by_cases hqpr : some q = pr
          · have hqnm : ¬ q ∈ preF rest := by
              intro hm
              exact hpr q hqpr.symm (by simp [preF, hm])
            rw [relF_none_of_not_mem hqnm (some pA) (some tk)]
            simp [TRab, hqa, hqpr]
          · simp [TRab, hqa, hqpr, hq]
    · have ht2 : ¬ (a = tk) := fun he => ht he.symm
      rw [topKeys_cons] at hmem
      simp only [List.mem_cons, RT.key, ht2, false_or] at hmem
      have hnr : ¬ new ∈ preF rest := fun hm => hnew (by simp [preF, hm])
      have hndr : (preF rest).Nodup := (nodup_preF_of_cons hnd).2.1
      have htkr : ¬ tk ∈ preF rest := by
        intro hm
        exact (nodup_preF_of_cons hnd).2.2 tk (key_mem_preT (.node tk tcs)) hm
      rw [show ibF a new (.cons (.node tk tcs) rest) =
        .cons (.node tk tcs) (ibF a new rest) from by simp [ibF, RT.key, ht]]
      rw [show prevTop (.cons (.node tk tcs) rest) pr a =
        prevTop rest (some tk) a from by simp [prevTop, RT.key, ht]]
      rw [show relF (some pA) pr (.cons (.node tk tcs) (ibF a new rest)) q =
        (match relT (some pA) pr (headKey (ibF a new rest)) (.node tk tcs) q with
         | some r => some r
         | none => relF (some pA) (some tk) (ibF a new rest) q) from rfl]
      rw [show relF (some pA) pr (.cons (.node tk tcs) rest) q =
        (match relT (some pA) pr (headKey rest) (.node tk tcs) q with
         | some r => some r
         | none => relF (some pA) (some tk) rest q) from rfl]
      by_cases hqt : q = tk
      · subst hqt
        rw [show relT (some pA) pr (headKey (ibF a new rest)) (.node q tcs) q =
          some ⟨some pA, pr, headKey (ibF a new rest), headKey tcs, lastKey tcs⟩
          from by simp [relT]]
        rw [show relT (some pA) pr (headKey rest) (.node q tcs) q =
          some ⟨some pA, pr, headKey rest, headKey tcs, lastKey tcs⟩ from by
            simp [relT]]
        rw [ibF_headKey a new rest hmem]
        have hqa : ¬ (q = a) := fun he => ht he
        by_cases hhd : headKey rest = some a
        · rw [if_pos hhd]
          rw [prevTop_head rest (some q) a hhd]
          simp [TRab, hqa]
        · rw [if_neg hhd]
          have hqpv : ¬ (some q = prevTop rest (some q) a) := by
            intro he
            have := prevTop_mem_of_not_head rest (some q) a hmem hhd q he.symm
            exact htkr (mem_preF_of_mem_topKeys this)
          simp [TRab, hqa, hqpv, hq]
      · rw [relT_congr (show q ≠ (RT.node tk tcs).key from hqt) (some pA) pr
          (headKey (ibF a new rest)) (some pA) pr (headKey rest)]
        cases hrt : relT (some pA) pr (headKey rest) (.node tk tcs) q with
        | some r =>
          have hqm : q ∈ preT (.node tk tcs) :=
            (relT_isSome _ (some pA) pr (headKey rest) q).mp (by simp [hrt])
          have hqa : ¬ (q = a) := by
            intro he
            subst he
            exact (nodup_preF_of_cons hnd).2.2 q hqm (mem_preF_of_mem_topKeys hmem)
          have hqpv : ¬ (some q = prevTop rest (some tk) a) := by
            intro he
            cases prevTop_cases rest (some tk) a q he.symm with
            | inl h1 =>
              have : tk = q := by simpa using h1
              exact hqt this.symm
            | inr h1 =>
              exact (nodup_preF_of_cons hnd).2.2 q hqm (mem_preF_of_mem_topKeys h1)
          simp [TRab, hqa, hqpv, hq]
        | none =>
          exact TRab_relAux pA a new rest (some tk) hndr hnr hmem
            (by
              intro x hx
              have : tk = x := by simpa using hx
              subst this
              exact htkr) q hq

theorem TRab_rel (pA a new : Key) (pcs : Forest) (hnd : (preF pcs).Nodup)
    (hnew : ¬ new ∈ preF pcs) (ha : a ∈ topKeys pcs) :
    ∀ q, q ≠ pA →
      relF (some pA) none (ibF a new pcs) q =
        TRab pA a new (prevTop pcs none a) q (relF (some pA) none pcs q) := by
  intro q _
  by_cases hqn : q = new
  · subst hqn
    rw [relF_ibF_new pA a q pcs none hnew ha]
    rw [relF_none_of_not_mem hnew]
    have hqa : ¬ (q = a) := by
      intro he
      exact hnew (he ▸ mem_preF_of_mem_topKeys ha)
    have hqpv : ¬ (some q = prevTop pcs none a) := by
      intro he
      cases prevTop_cases pcs none a q he.symm with
      | inl h1 => exact Option.noConfusion h1
      | inr h1 => exact hnew (mem_preF_of_mem_topKeys h1)
    simp [TRab, hqa, hqpv]
  · exact TRab_relAux pA a new pcs none hnd hnew ha
      (fun x hx => Option.noConfusion hx) q hqn

theorem TRab_some (pA a new : Key) (pcs : Forest) (ha : a ∈ topKeys pcs) :
    ∀ q r, ¬ q ∈ preF pcs →
      TRab pA a new (prevTop pcs none a) q (some r) = some r := by
  intro q r hq
  have hqa : ¬ (q = a) := by
    intro he
    exact hq (he ▸ mem_preF_of_mem_topKeys ha)
  have hqpv : ¬ (some q = prevTop pcs none a) := by
    intro he
    cases prevTop_cases pcs none a q he.symm with
    | inl h1 => exact Option.noConfusion h1
    | inr h1 => exact hq (mem_preF_of_mem_topKeys h1)
  by_cases hqn : q = new
  · subst hqn
    simp [TRab, hqa, hqpv]
  · simp [TRab, hqa, hqpv, hqn]

/-- Pointwise effect of the `add_before` body on the structure map. -/
theorem add_before_go_state (s : Structure) (a new pA : Key)
    (pv nx hA lA : Option Key) (rp : NodeRelations)
    (hreca : sfind? s a = some ⟨some pA, pv, nx, hA, lA⟩)
    (hrecp : sfind? s pA = some rp)
    (hnew : sfind? s new = none)
    (haP : a ≠ pA)
    (hpv : ∀ x, pv = some x → x ≠ a ∧ x ≠ new ∧ x ≠ pA ∧ (sfind? s x).isSome = true)
    (hfc : pv = none → rp.first_child = some a) :
    ∀ q, sfind? (add_before_go s a new) q =
      chCT pA (if pv.isSome then rp.first_child else some new) rp.last_child
        (TRab pA a new pv) q (sfind? s q) := by
  intro q
  have han : a ≠ new := by
    intro he
    rw [he, hnew] at hreca
    exact Option.noConfusion hreca
  have hpn : pA ≠ new := by
    intro he
    rw [he, hnew] at hrecp
    exact Option.noConfusion hrecp
  have hna : ¬ (new = a) := fun he => han he.symm
  have hnp : ¬ (new = pA) := fun he => hpn he.symm
  have hpa : ¬ (pA = a) := fun he => haP he.symm
  cases hpvc : pv with
  | none =>
    rw [hpvc] at hreca
    simp only [add_before_go]
    simp only [show parentS (supdate s new
        (fun r => { r with next_sibling := some a })) a = some pA from by
      simp [parentS, sfind?_supdate, han, hreca]]
    simp only [show previous_siblingS
        (supdate (supdate s new (fun r => { r with next_sibling := some a })) new
          (fun r => { r with parent := some pA })) a = (none : Option Key) from by
      simp [previous_siblingS, sfind?_supdate, han, hreca]]
    simp only [show parentS (supdate (supdate (supdate s new
        (fun r => { r with next_sibling := some a })) new
        (fun r => { r with parent := some pA })) a
        (fun r => { r with previous_sibling := some new })) a = some pA from by
      simp [parentS, sfind?_supdate, han, hreca]]
    rw [if_pos (show first_childS (sensure (supdate (supdate (supdate s new
        (fun r => { r with next_sibling := some a })) new
        (fun r => { r with parent := some pA })) a
        (fun r => { r with previous_sibling := some new })) pA) pA =
      some a from by
        simp [first_childS, sfind?_sensure, sfind?_supdate, hpa, hpn, hrecp,
          hfc hpvc])]
    by_cases hq : q = pA
    · subst hq
      simp [sfind?_supdate, sfind?_sensure, hpa, hpn, hrecp, chCT, hpvc]
    · by_cases hqa : q = a
      · subst hqa
        simp [sfind?_supdate, sfind?_sensure, haP, han, hreca, chCT, TRab, hpvc,
          fun he => haP he]
      · by_cases hqn : q = new
        · subst hqn
          simp [sfind?_supdate, sfind?_sensure, hnp, hna, hnew, chCT, TRab, hpvc,
            defaultRel]
        · simp [sfind?_supdate, sfind?_sensure, hq, hqa, hqn, chCT, TRab, hpvc]
  | some ops =>
    obtain ⟨hopa, hopn, hopp, hoppres⟩ := hpv ops hpvc
    obtain ⟨rops, hrops⟩ := Option.isSome_iff_exists.mp hoppres
    have hoa : ¬ (a = ops) := fun he => hopa he.symm
    have hon : ¬ (new = ops) := fun he => hopn he.symm
    have hopA : ¬ (pA = ops) := fun he => hopp he.symm
    rw [hpvc] at hreca
    simp only [add_before_go]
    simp only [show parentS (supdate s new
        (fun r => { r with next_sibling := some a })) a = some pA from by
      simp [parentS, sfind?_supdate, han, hreca]]
    simp only [show previous_siblingS
        (supdate (supdate s new (fun r => { r with next_sibling := some a })) new
          (fun r => { r with parent := some pA })) a = some ops from by
      simp [previous_siblingS, sfind?_supdate, han, hreca]]
    by_cases hq : q = pA
    · subst hq
      simp only [sfind?_supdate, if_neg hpn, if_neg hopA, if_neg hpa, if_neg hpn,
        hrecp, chCT, if_pos rfl, hpvc]
      rfl
    · by_cases hqa : q = a
      · subst hqa
        simp [sfind?_supdate, han, hoa, hreca, chCT, TRab, hpvc, haP]
      · by_cases hqn : q = new
        · subst hqn
          simp [sfind?_supdate, hna, hon, hnew, chCT, TRab, hpvc, hnp, defaultRel]
        · by_cases hqo : q = ops
          · rw [hqo]
            simp [sfind?_supdate, hopn, hopa, hopp, hrops, chCT, TRab]
          · simp [sfind?_supdate, hq, hqa, hqn, hqo, chCT, TRab]

/-- `add_before` (precondition: the anchor present and non-root, `new`
absent) maps a consistent tree state to the consistent tree state with the
leaf `new` inserted before the anchor in its parent's child forest. -/
theorem add_before_preserves (s : Structure) (t : RT) (h : TreeState s t)
    (a new : Key) (hap : existsS s a = true) (har : a ≠ ROOT)
    (hnewp : existsS s new = false) :
    ∃ t2, TreeState (add_before_go s a new) t2 := by
  obtain ⟨hnmem, hnfind⟩ := treeState_absent s t h new hnewp
  have hamem : a ∈ preT t := by
    rw [show existsS s a = (sfind? s a).isSome from rfl, h.2.2 a] at hap
    exact (relT_isSome t none none none a).mp hap
  have hanr : a ≠ t.key := by rw [h.1]; exact har
  obtain ⟨pA, pcs, hfindP, htopA⟩ := findParentT t a h.2.1 hamem hanr
  obtain ⟨hkeyP, ⟨p2, v2, n2, hrsub⟩, hndP, hlenP⟩ :=
    findT_realized t s none none none (treeState_realized h) h.2.1 pA _ hfindP
  obtain ⟨hrecp, hrF⟩ := realizedT_node hndP hrsub
  have hsubP := findT_sub_mem t pA _ hfindP
  obtain ⟨acs, hsubA⟩ := Option.isSome_iff_exists.mp ((subAt_isSome pcs a).mpr htopA)
  have hndpcs : (preF pcs).Nodup := (nodup_preT pA pcs hndP).2
  have hreca : sfind? s a =
      some ⟨some pA, prevTop pcs none a, nextTop pcs a, headKey acs, lastKey acs⟩ := by
    rw [hrF a (mem_preF_of_mem_topKeys htopA)]
    exact relF_topRec pcs (some pA) none a acs hndpcs hsubA
  have hnpcs : ¬ new ∈ preF pcs := by
    intro hm
    exact hnmem (hsubP new (by simp [preT, hm]))
  have hpApcs : ¬ pA ∈ preF pcs := (nodup_preT pA pcs hndP).1
  have haP : a ≠ pA := by
    intro he
    exact hpApcs (he ▸ mem_preF_of_mem_topKeys htopA)
  have hpv : ∀ x, prevTop pcs none a = some x →
      x ≠ a ∧ x ≠ new ∧ x ≠ pA ∧ (sfind? s x).isSome = true := by
    intro x hx
    have hxtop : x ∈ topKeys pcs := by
      cases prevTop_cases pcs none a x hx with
      | inl h1 => exact absurd h1 (by simp)
      | inr h1 => exact h1
    have hxm : x ∈ preF pcs := mem_preF_of_mem_topKeys hxtop
    refine ⟨prevTop_ne pcs none a x (topKeys_nodup hndpcs) htopA
      (fun y hy => Option.noConfusion hy) hx,
      fun he => hnpcs (he ▸ hxm), fun he => hpApcs (he ▸ hxm), ?_⟩
    rw [h.2.2 x]
    exact (relT_isSome t none none none x).mpr (hsubP x (by simp [preT, hxm]))
  have hfc : prevTop pcs none a = none →
      (⟨p2, v2, n2, headKey pcs, lastKey pcs⟩ : NodeRelations).first_child = some a := by
    intro hp
    have := prevTop_none_head pcs a htopA hp
    simpa using this
  have hnone : ∀ q2, TRab pA a new (prevTop pcs none a) q2 none ≠ none →
      ¬ q2 ∈ preT t := by
    intro q2 hne
    by_cases h1 : q2 = a
    · simp [TRab, h1] at hne
    · by_cases h2 : some q2 = prevTop pcs none a
      · simp [TRab, h1, h2] at hne
      · by_cases h3 : q2 = new
        · subst h3
          exact hnmem
        · simp [TRab, h1, h2, h3] at hne
  refine ⟨chT pA (ibF a new) t, ?_, ?_, ?_⟩
  · rw [chT_key]
    exact h.1
  · have hperm := chT_perm t pA (ibF a new) pcs [new] [] h.2.1 hfindP (by
      rw [List.append_nil]
      exact ibF_perm a new pcs htopA)
    rw [List.append_nil] at hperm
    exact hperm.nodup_iff.mpr (List.nodup_cons.mpr ⟨hnmem, h.2.1⟩)
  · intro q
    rw [add_before_go_state s a new pA (prevTop pcs none a) (nextTop pcs a)
      (headKey acs) (lastKey acs) ⟨p2, v2, n2, headKey pcs, lastKey pcs⟩
      hreca hrecp hnfind haP hpv hfc q]
    rw [h.2.2 q]
    have hH : headKey (ibF a new pcs) =
        (if (prevTop pcs none a).isSome then
          (⟨p2, v2, n2, headKey pcs, lastKey pcs⟩ : NodeRelations).first_child
         else some new) := by
      rw [ibF_headKey a new pcs htopA]
      cases hpvc : prevTop pcs none a with
      | none =>
        have := prevTop_none_head pcs a htopA hpvc
        simp [this]
      | some x =>
        have hhd : ¬ (headKey pcs = some a) := by
          intro hhd
          rw [prevTop_head pcs none a hhd] at hpvc
          exact Option.noConfusion hpvc
        simp [hhd]
    exact (chRelT t pA (ibF a new) pcs (TRab pA a new (prevTop pcs none a))
      _ _ (TRab_rel pA a new pcs hndpcs hnpcs htopA) hH
      (by rw [ibF_lastKey a new pcs htopA]) (TRab_some pA a new pcs htopA)
      h.2.1 hfindP hnone none none none q).symm

theorem nextTop_none_last : ∀ (ts : Forest) (a : Key),
    a ∈ topKeys ts → nextTop ts a = none → lastKey ts = some a
  | .nil, a, h, _ => by simp [topKeys] at h
  | .cons t rest, a, h, hn => by
    by_cases ht : t.key = a
    · simp only [nextTop, ht, if_pos] at hn
      cases rest with
      | nil => simp [lastKey, lastTree, ht]
      | cons u rest2 => simp [headKey] at hn
    · have ht2 : ¬ (a = t.key) := fun he => ht he.symm
      rw [topKeys_cons] at h
      simp only [List.mem_cons, ht2, false_or] at h
      simp only [nextTop, ht, if_false] at hn
      cases rest with
      | nil => simp [topKeys] at h
      | cons u rest2 =>
        rw [show lastKey (.cons t (.cons u rest2)) = lastKey (.cons u rest2) from by
          simp [lastKey, lastTree]]
        exact nextTop_none_last (.cons u rest2) a h hn

theorem nextTop_last_none : ∀ (ts : Forest) (a : Key), (topKeys ts).Nodup →
    lastKey ts = some a → nextTop ts a = none
  | .nil, a, _, h => by simp [lastKey, lastTree] at h
  | .cons t rest, a, hnd, h => by
    cases rest with
    | nil =>
      have hta : t.key = a := by simpa [lastKey, lastTree] using h
      simp [nextTop, hta, headKey]
    | cons u rest2 =>
      rw [show lastKey (.cons t (.cons u rest2)) = lastKey (.cons u rest2) from by
        simp [lastKey, lastTree]] at h
      have hmem : a ∈ topKeys (.cons u rest2) := lastKey_mem_topKeys _ a h
      rw [topKeys_cons] at hnd
      have hta : ¬ (t.key = a) := by
        intro he
        exact (List.nodup_cons.mp hnd).1 (he ▸ hmem)
      simp only [nextTop, hta, if_false]
      exact nextTop_last_none (.cons u rest2) a (List.nodup_cons.mp hnd).2 h

theorem nextTop_ne : ∀ (ts : Forest) (a x : Key), (topKeys ts).Nodup →
    nextTop ts a = some x → x ≠ a
  | .nil, a, x, _, h => by simp [nextTop] at h
  | .cons t rest, a, x, hnd, h => by
    rw [topKeys_cons] at hnd
    by_cases ht : t.key = a
    · simp only [nextTop, ht, if_pos] at h
      have hx : x ∈ topKeys rest := headKey_mem_topKeys rest x h
      intro he
      subst he
      exact (List.nodup_cons.mp hnd).1 (ht ▸ hx)
    · simp only [nextTop, ht, if_false] at h
      exact nextTop_ne rest a x (List.nodup_cons.mp hnd).2 h

theorem iaF_lastKey (a new : Key) : ∀ ts : Forest, (topKeys ts).Nodup →
    a ∈ topKeys ts →
    lastKey (iaF a new ts) = (if lastKey ts = some a then some new else lastKey ts)
  | .nil, _, h => by simp [topKeys] at h
  | .cons t rest, hnd, h => by
    rw [topKeys_cons] at hnd
    by_cases ht : t.key = a
    · rw [show iaF a new (.cons t rest) = .cons t (.cons (.node new .nil) rest)
        from by simp [iaF, ht]]
      cases rest with
      | nil =>
        rw [show lastKey (.cons t (.cons (.node new .nil) .nil)) = some new from by
          simp [lastKey, lastTree, RT.key]]
        rw [show lastKey (.cons t .nil) = some t.key from rfl]
        simp [ht]
      | cons u rest2 =>
        rw [show lastKey (.cons t (.cons (.node new .nil) (.cons u rest2))) =
          lastKey (.cons u rest2) from by simp [lastKey, lastTree]]
        rw [show lastKey (.cons t (.cons u rest2)) = lastKey (.cons u rest2) from by
          simp [lastKey, lastTree]]
        have hna : ¬ (lastKey (.cons u rest2) = some a) := by
          intro he
          have := lastKey_mem_topKeys _ a he
          exact (List.nodup_cons.mp hnd).1 (ht ▸ this)
        simp [hna]
    · have ht2 : ¬ (a = t.key) := fun he => ht he.symm
      have hmem : a ∈ topKeys rest := by
        rw [topKeys_cons] at h
        simpa [ht2] using h
      rw [show iaF a new (.cons t rest) = .cons t (iaF a new rest) from by
        simp [iaF, ht]]
      cases rest with
      | nil => simp [topKeys] at hmem
      | cons u rest2 =>
        have hcons : ∃ v vs, iaF a new (.cons u rest2) = .cons v vs := by
          by_cases hu : u.key = a
          · exact ⟨u, .cons (.node new .nil) rest2, by simp [iaF, hu]⟩
          · exact ⟨u, iaF a new rest2, by simp [iaF, hu]⟩
        obtain ⟨v, vs, hv⟩ := hcons
        rw [hv]
        rw [show lastKey (.cons t (.cons v vs)) = lastKey (.cons v vs) from by
          simp [lastKey, lastTree]]
        rw [← hv]
        rw [show lastKey (.cons t (.cons u rest2)) = lastKey (.cons u rest2) from by
          simp [lastKey, lastTree]]
        exact iaF_lastKey a new (.cons u rest2) (List.nodup_cons.mp hnd).2 hmem

/-- The record transform of `add_after`: the anchor `a` gains `new` as next
sibling, the anchor's old next sibling gains `new` as previous sibling, and
`new` is created with the links the operation writes. -/
def TRaa (pA a new : Key) (nx : Option Key) (q : Key)
    (v : Option NodeRelations) : Option NodeRelations :=
  if q = a then v.map (fun r => { r with next_sibling := some new })
  else if some q = nx then v.map (fun r => { r with previous_sibling := some new })
  else if q = new then
    (match v with
     | none => some ⟨some pA, some a, nx, none, none⟩
     | some r => some r)
  else v

theorem relF_iaF_new (pA a new : Key) : ∀ (ts : Forest) (pr : Option Key),
    ¬ new ∈ preF ts → a ∈ topKeys ts →
    relF (some pA) pr (iaF a new ts) new =
      some ⟨some pA, some a, nextTop ts a, none, none⟩
  | .nil, pr, _, h => by simp [topKeys] at h
  | .cons (.node tk tcs) rest, pr, hnew, h => by
    have hnt : ¬ new ∈ preT (.node tk tcs) := fun hm => hnew (by simp [preF, hm])
    by_cases ht : tk = a
    · rw [show iaF a new (.cons (.node tk tcs) rest) =
        .cons (.node tk tcs) (.cons (.node new .nil) rest) from by
          simp [iaF, RT.key, ht]]
      rw [show relF (some pA) pr
        (.cons (.node tk tcs) (.cons (.node new .nil) rest)) new =
        (match relT (some pA) pr (headKey (.cons (.node new .nil) rest))
            (.node tk tcs) new with
         | some r => some r
         | none => relF (some pA) (some tk) (.cons (.node new .nil) rest) new)
        from rfl]
      rw [relT_none_of_not_mem hnt (some pA) pr
        (headKey (.cons (.node new .nil) rest))]
      rw [show (match (none : Option NodeRelations) with
         | some r => some r
         | none => relF (some pA) (some tk) (.cons (.node new .nil) rest) new) =
        relF (some pA) (some tk) (.cons (.node new .nil) rest) new from rfl]
      rw [show relF (some pA) (some tk) (.cons (.node new .nil) rest) new =
        (match relT (some pA) (some tk) (headKey rest) (.node new .nil) new with
         | some r => some r
         | none => relF (some pA) (some new) rest new) from rfl]
      rw [show relT (some pA) (some tk) (headKey rest) (.node new .nil) new =
        some ⟨some pA, some tk, headKey rest, none, none⟩ from by
          simp [relT, headKey, lastKey, lastTree]]
      rw [show nextTop (.cons (.node tk tcs) rest) a = headKey rest from by
        simp [nextTop, RT.key, ht]]
      rw [ht]
    · have ht2 : ¬ (a = tk) := fun he => ht he.symm
      rw [topKeys_cons] at h
      simp only [List.mem_cons, RT.key, ht2, false_or] at h
      have hnr : ¬ new ∈ preF rest := fun hm => hnew (by simp [preF, hm])
      rw [show iaF a new (.cons (.node tk tcs) rest) =
        .cons (.node tk tcs) (iaF a new rest) from by simp [iaF, RT.key, ht]]
      rw [show relF (some pA) pr (.cons (.node tk tcs) (iaF a new rest)) new =
        (match relT (some pA) pr (headKey (iaF a new rest)) (.node tk tcs) new with
         | some r => some r
         | none => relF (some pA) (some tk) (iaF a new rest) new) from rfl]
      rw [relT_none_of_not_mem hnt (some pA) pr (headKey (iaF a new rest))]
      rw [show (match (none : Option NodeRelations) with
         | some r => some r
         | none => relF (some pA) (some tk) (iaF a new rest) new) =
        relF (some pA) (some tk) (iaF a new rest) new from rfl]
      rw [relF_iaF_new pA a new rest (some tk) hnr h]
      rw [show nextTop (.cons (.node tk tcs) rest) a = nextTop rest a from by
        simp [nextTop, RT.key, ht]]

theorem TRaa_relAux (pA a new : Key) : ∀ (ts : Forest) (pr : Option Key),
    (preF ts).Nodup → ¬ new ∈ preF ts → a ∈ topKeys ts →
    (∀ x, pr = some x → ¬ x ∈ preF ts) →
    ∀ q, q ≠ new →
      relF (some pA) pr (iaF a new ts) q =
        TRaa pA a new (nextTop ts a) q (relF (some pA) pr ts q)
  | .nil, pr, _, _, h, _, q, _ => by simp [topKeys] at h
  | .cons (.node tk tcs) rest, pr, hnd, hnew, hmem, hpr, q, hq => by
    have hndr : (preF rest).Nodup := (nodup_preF_of_cons hnd).2.1
    have hnr : ¬ new ∈ preF rest := fun hm => hnew (by simp [preF, hm])
    have htkr : ¬ tk ∈ preF rest := by
      intro hm
      exact (nodup_preF_of_cons hnd).2.2 tk (key_mem_preT (.node tk tcs)) hm
    by_cases ht : tk = a
    · subst ht
      rw [show iaF tk new (.cons (.node tk tcs) rest) =
        .cons (.node tk tcs) (.cons (.node new .nil) rest) from by
          simp [iaF, RT.key]]
      rw [show nextTop (.cons (.node tk tcs) rest) tk = headKey rest from by
        simp [nextTop, RT.key]]
      rw [show relF (some pA) pr
        (.cons (.node tk tcs) (.cons (.node new .nil) rest)) q =
        (match relT (some pA) pr (headKey (.cons (.node new .nil) rest))
            (.node tk tcs) q with
         | some r => some r
         | none => relF (some pA) (some tk) (.cons (.node new .nil) rest) q)
        from rfl]
      rw [show relF (some pA) pr (.cons (.node tk tcs) rest) q =
        (match relT (some pA) pr (headKey rest) (.node tk tcs) q with
         | some r => some r
         | none => relF (some pA) (some tk) rest q) from rfl]
      rw [show headKey (.cons (.node new .nil) rest) = some new from rfl]
      by_cases hqa : q = tk
      · subst hqa
        rw [show relT (some pA) pr (some new) (.node q tcs) q =
          some ⟨some pA, pr, some new, headKey tcs, lastKey tcs⟩ from by
            simp [relT]]
        rw [show relT (some pA) pr (headKey rest) (.node q tcs) q =
          some ⟨some pA, pr, headKey rest, headKey tcs, lastKey tcs⟩ from by
            simp [relT]]
        simp [TRaa]
      · rw [relT_congr (show q ≠ (RT.node tk tcs).key from hqa) (some pA) pr
          (some new) (some pA) pr (headKey rest)]
        cases hrt : relT (some pA) pr (headKey rest) (.node tk tcs) q with
        | some r =>
          have hqm : q ∈ preT (.node tk tcs) :=
            (relT_isSome _ (some pA) pr (headKey rest) q).mp (by simp [hrt])
          have hqnx : ¬ (some q = headKey rest) := by
            intro he
            exact (nodup_preF_of_cons hnd).2.2 q hqm
              (mem_preF_of_mem_topKeys (headKey_mem_topKeys rest q he.symm))
          simp [TRaa, hqa, hqnx, hq]
        | none =>
          rw [show relF (some pA) (some tk) (.cons (.node new .nil) rest) q =
            (match relT (some pA) (some tk) (headKey rest) (.node new .nil) q with
             | some r => some r
             | none => relF (some pA) (some new) rest q) from rfl]
          rw [show relT (some pA) (some tk) (headKey rest) (.node new .nil) q =
            none from by simp [relT, relF, hq]]
          rw [show (match (none : Option NodeRelations) with
             | some r => some r
             | none => relF (some pA) (some new) rest q) =
            relF (some pA) (some new) rest q from rfl]
          rw [relF_prev_map rest (some pA) (some new) (some tk) q]
          by_cases hqh : some q = headKey rest
          · simp [TRaa, hqa, hqh]
          · simp [TRaa, hqa, hqh, hq]
    · have ht2 : ¬ (a = tk) := fun he => ht he.symm
      rw [topKeys_cons] at hmem
      simp only [List.mem_cons, RT.key, ht2, false_or] at hmem
      rw [show iaF a new (.cons (.node tk tcs) rest) =
        .cons (.node tk tcs) (iaF a new rest) from by simp [iaF, RT.key, ht]]
      rw [show nextTop (.cons (.node tk tcs) rest) a = nextTop rest a from by
        simp [nextTop, RT.key, ht]]
      rw [show relF (some pA) pr (.cons (.node tk tcs) (iaF a new rest)) q =
        (match relT (some pA) pr (headKey (iaF a new rest)) (.node tk tcs) q with
         | some r => some r
         | none => relF (some pA) (some tk) (iaF a new rest) q) from rfl]
      rw [iaF_headKey a new rest]
      rw [show relF (some pA) pr (.cons (.node tk tcs) rest) q =
        (match relT (some pA) pr (headKey rest) (.node tk tcs) q with
         | some r => some r
         | none => relF (some pA) (some tk) rest q) from rfl]
      cases hrt : relT (some pA) pr (headKey rest) (.node tk tcs) q with
      | some r =>
        have hqm : q ∈ preT (.node tk tcs) :=
          (relT_isSome _ (some pA) pr (headKey rest) q).mp (by simp [hrt])
        have hqa : ¬ (q = a) := by
          intro he
          subst he
          exact (nodup_preF_of_cons hnd).2.2 q hqm (mem_preF_of_mem_topKeys hmem)
        have hqnx : ¬ (some q = nextTop rest a) := by
          intro he
          exact (nodup_preF_of_cons hnd).2.2 q hqm
            (mem_preF_of_mem_topKeys (nextTop_mem rest a q he.symm))
        simp [TRaa, hqa, hqnx, hq]
      | none =>
        exact TRaa_relAux pA a new rest (some tk) hndr hnr hmem
          (by
            intro x hx
            have : tk = x := by simpa using hx
            subst this
            exact htkr) q hq

theorem TRaa_rel (pA a new : Key) (pcs : Forest) (hnd : (preF pcs).Nodup)
    (hnew : ¬ new ∈ preF pcs) (ha : a ∈ topKeys pcs) :
    ∀ q, q ≠ pA →
      relF (some pA) none (iaF a new pcs) q =
        TRaa pA a new (nextTop pcs a) q (relF (some pA) none pcs q) := by
  intro q _
  by_cases hqn : q = new
  · subst hqn
    rw [relF_iaF_new pA a q pcs none hnew ha]
    rw [relF_none_of_not_mem hnew]
    have hqa : ¬ (q = a) := by
      intro he
      exact hnew (he ▸ mem_preF_of_mem_topKeys ha)
    have hqnx : ¬ (some q = nextTop pcs a) := by
      intro he
      exact hnew (mem_preF_of_mem_topKeys (nextTop_mem pcs a q he.symm))
    simp [TRaa, hqa, hqnx]
  · exact TRaa_relAux pA a new pcs none hnd hnew ha
      (fun x hx => Option.noConfusion hx) q hqn

theorem TRaa_some (pA a new : Key) (pcs : Forest) (ha : a ∈ topKeys pcs) :
    ∀ q r, ¬ q ∈ preF pcs →
      TRaa pA a new (nextTop pcs a) q (some r) = some r := by
  intro q r hq
  have hqa : ¬ (q = a) := by
    intro he
    exact hq (he ▸ mem_preF_of_mem_topKeys ha)
  have hqnx : ¬ (some q = nextTop pcs a) := by
    intro he
    exact hq (mem_preF_of_mem_topKeys (nextTop_mem pcs a q he.symm))
  by_cases hqn : q = new
  · subst hqn
    simp [TRaa, hqa, hqnx]
  · simp [TRaa, hqa, hqnx, hqn]

/-- Pointwise effect of the `add_after` body on the structure map. -/
theorem add_after_go_state (s : Structure) (a new pA : Key)
    (pv nx hA lA : Option Key) (rp : NodeRelations)
    (hreca : sfind? s a = some ⟨some pA, pv, nx, hA, lA⟩)
    (hrecp : sfind? s pA = some rp)
    (hnew : sfind? s new = none)
    (haP : a ≠ pA)
    (hnx : ∀ x, nx = some x → x ≠ a ∧ x ≠ new ∧ x ≠ pA ∧ (sfind? s x).isSome = true)
    (hlc : nx = none → rp.last_child = some a) :
    ∀ q, sfind? (add_after_go s a new) q =
      chCT pA rp.first_child (if nx.isSome then rp.last_child else some new)
        (TRaa pA a new nx) q (sfind? s q) := by
  intro q
  have han : a ≠ new := by
    intro he
    rw [he, hnew] at hreca
    exact Option.noConfusion hreca
  have hpn : pA ≠ new := by
    intro he
    rw [he, hnew] at hrecp
    exact Option.noConfusion hrecp
  have hna : ¬ (new = a) := fun he => han he.symm
  have hnp : ¬ (new = pA) := fun he => hpn he.symm
  have hpa : ¬ (pA = a) := fun he => haP he.symm
  cases hnxc : nx with
  | none =>
    rw [hnxc] at hreca
    simp only [add_after_go]
    simp only [show parentS (supdate s new
        (fun r => { r with previous_sibling := some a })) a = some pA from by
      simp [parentS, sfind?_supdate, han, hreca]]
    simp only [show next_siblingS
        (supdate (supdate s new (fun r => { r with previous_sibling := some a })) new
          (fun r => { r with parent := some pA })) a = (none : Option Key) from by
      simp [next_siblingS, sfind?_supdate, han, hreca]]
    simp only [show parentS (supdate (supdate (supdate s new
        (fun r => { r with previous_sibling := some a })) new
        (fun r => { r with parent := some pA })) a
        (fun r => { r with next_sibling := some new })) a = some pA from by
      simp [parentS, sfind?_supdate, han, hreca]]
    rw [if_pos (show last_childS (sensure (supdate (supdate (supdate s new
        (fun r => { r with previous_sibling := some a })) new
        (fun r => { r with parent := some pA })) a
        (fun r => { r with next_sibling := some new })) pA) pA =
      some a from by
        simp [last_childS, sfind?_sensure, sfind?_supdate, hpa, hpn, hrecp,
          hlc hnxc])]
    by_cases hq : q = pA
    · subst hq
      simp [sfind?_supdate, sfind?_sensure, hpa, hpn, hrecp, chCT]
    · by_cases hqa : q = a
      · subst hqa
        simp [sfind?_supdate, sfind?_sensure, haP, han, hreca, chCT, TRaa,
          fun he => haP he]
      · by_cases hqn : q = new
        · subst hqn
          simp [sfind?_supdate, sfind?_sensure, hnp, hna, hnew, chCT, TRaa,
            defaultRel]
        · simp [sfind?_supdate, sfind?_sensure, hq, hqa, hqn, chCT, TRaa]
  | some ons =>
    obtain ⟨hopa, hopn, hopp, hoppres⟩ := hnx ons hnxc
    obtain ⟨rons, hrons⟩ := Option.isSome_iff_exists.mp hoppres
    have hoa : ¬ (a = ons) := fun he => hopa he.symm
    have hon : ¬ (new = ons) := fun he => hopn he.symm
    have hopA : ¬ (pA = ons) := fun he => hopp he.symm
    rw [hnxc] at hreca
    simp only [add_after_go]
    simp only [show parentS (supdate s new
        (fun r => { r with previous_sibling := some a })) a = some pA from by
      simp [parentS, sfind?_supdate, han, hreca]]
    simp only [show next_siblingS
        (supdate (supdate s new (fun r => { r with previous_sibling := some a })) new
          (fun r => { r with parent := some pA })) a = some ons from by
      simp [next_siblingS, sfind?_supdate, han, hreca]]
    by_cases hq : q = pA
    · subst hq
      simp only [sfind?_supdate, if_neg hpn, if_neg hopA, if_neg hpa, if_neg hpn,
        hrecp, chCT, if_pos rfl]
      rfl
    · by_cases hqa : q = a
      · subst hqa
        simp [sfind?_supdate, han, hoa, hreca, chCT, TRaa, haP]
      · by_cases hqn : q = new
        · subst hqn
          simp [sfind?_supdate, hna, hon, hnew, chCT, TRaa, hnp, defaultRel]
        · by_cases hqo : q = ons
          · rw [hqo]
            simp [sfind?_supdate, hopn, hopa, hopp, hrons, chCT, TRaa]
          · simp [sfind?_supdate, hq, hqa, hqn, hqo, chCT, TRaa]

/-- `add_after` (precondition: the anchor present and non-root, `new`
absent) maps a consistent tree state to the consistent tree state with the
leaf `new` inserted after the anchor in its parent's child forest. -/
theorem add_after_preserves (s : Structure) (t : RT) (h : TreeState s t)
    (a new : Key) (hap : existsS s a = true) (har : a ≠ ROOT)
    (hnewp : existsS s new = false) :
    ∃ t2, TreeState (add_after_go s a new) t2 := by
  obtain ⟨hnmem, hnfind⟩ := treeState_absent s t h new hnewp
  have hamem : a ∈ preT t := by
    rw [show existsS s a = (sfind? s a).isSome from rfl, h.2.2 a] at hap
    exact (relT_isSome t none none none a).mp hap
  have hanr : a ≠ t.key := by rw [h.1]; exact har
  obtain ⟨pA, pcs, hfindP, htopA⟩ := findParentT t a h.2.1 hamem hanr
  obtain ⟨hkeyP, ⟨p2, v2, n2, hrsub⟩, hndP, hlenP⟩ :=
    findT_realized t s none none none (treeState_realized h) h.2.1 pA _ hfindP
  obtain ⟨hrecp, hrF⟩ := realizedT_node hndP hrsub
  have hsubP := findT_sub_mem t pA _ hfindP
  obtain ⟨acs, hsubA⟩ := Option.isSome_iff_exists.mp ((subAt_isSome pcs a).mpr htopA)
  have hndpcs : (preF pcs).Nodup := (nodup_preT pA pcs hndP).2
  have hreca : sfind? s a =
      some ⟨some pA, prevTop pcs none a, nextTop pcs a, headKey acs, lastKey acs⟩ := by
    rw [hrF a (mem_preF_of_mem_topKeys htopA)]
    exact relF_topRec pcs (some pA) none a acs hndpcs hsubA
  have hnpcs : ¬ new ∈ preF pcs := by
    intro hm
    exact hnmem (hsubP new (by simp [preT, hm]))
  have hpApcs : ¬ pA ∈ preF pcs := (nodup_preT pA pcs hndP).1
  have haP : a ≠ pA := by
    intro he
    exact hpApcs (he ▸ mem_preF_of_mem_topKeys htopA)
  have hnx : ∀ x, nextTop pcs a = some x →
      x ≠ a ∧ x ≠ new ∧ x ≠ pA ∧ (sfind? s x).isSome = true := by
    intro x hx
    have hxtop : x ∈ topKeys pcs := nextTop_mem pcs a x hx
    have hxm : x ∈ preF pcs := mem_preF_of_mem_topKeys hxtop
    refine ⟨nextTop_ne pcs a x (topKeys_nodup hndpcs) hx,
      fun he => hnpcs (he ▸ hxm), fun he => hpApcs (he ▸ hxm), ?_⟩
    rw [h.2.2 x]
    exact (relT_isSome t none none none x).mpr (hsubP x (by simp [preT, hxm]))
  have hlc : nextTop pcs a = none →
      (⟨p2, v2, n2, headKey pcs, lastKey pcs⟩ : NodeRelations).last_child = some a := by
    intro hp
    have := nextTop_none_last pcs a htopA hp
    simpa using this
  have hnone : ∀ q2, TRaa pA a new (nextTop pcs a) q2 none ≠ none →
      ¬ q2 ∈ preT t := by
    intro q2 hne
    by_cases h1 : q2 = a
    · simp [TRaa, h1] at hne
    · by_cases h2 : some q2 = nextTop pcs a
      · simp [TRaa, h1, h2] at hne
      · by_cases h3 : q2 = new
        · subst h3
          exact hnmem
        · simp [TRaa, h1, h2, h3] at hne
  refine ⟨chT pA (iaF a new) t, ?_, ?_, ?_⟩
  · rw [chT_key]
    exact h.1
  · have hperm := chT_perm t pA (iaF a new) pcs [new] [] h.2.1 hfindP (by
      rw [List.append_nil]
      exact iaF_perm a new pcs htopA)
    rw [List.append_nil] at hperm
    exact hperm.nodup_iff.mpr (List.nodup_cons.mpr ⟨hnmem, h.2.1⟩)
  · intro q
    rw [add_after_go_state s a new pA (prevTop pcs none a) (nextTop pcs a)
      (headKey acs) (lastKey acs) ⟨p2, v2, n2, headKey pcs, lastKey pcs⟩
      hreca hrecp hnfind haP hnx hlc q]
    rw [h.2.2 q]
    have hL : lastKey (iaF a new pcs) =
        (if (nextTop pcs a).isSome then
          (⟨p2, v2, n2, headKey pcs, lastKey pcs⟩ : NodeRelations).last_child
         else some new) := by
      rw [iaF_lastKey a new pcs (topKeys_nodup hndpcs) htopA]
      cases hnxc : nextTop pcs a with
      | none =>
        have := nextTop_none_last pcs a htopA hnxc
        simp [this]
      | some x =>
        have hlst : ¬ (lastKey pcs = some a) := by
          intro hlst
          rw [nextTop_last_none pcs a (topKeys_nodup hndpcs) hlst] at hnxc
          exact Option.noConfusion hnxc
        simp [hlst]
    exact (chRelT t pA (iaF a new) pcs (TRaa pA a new (nextTop pcs a))
      _ _ (TRaa_rel pA a new pcs hndpcs hnpcs htopA)
      (by rw [iaF_headKey a new pcs]) hL (TRaa_some pA a new pcs htopA)
      h.2.1 hfindP hnone none none none q).symm

/-! ### `delete` preserves the invariant -/

/-- Remove the top-level tree with key `a` from a forest. -/
def rmF (a : Key) : Forest → Forest
  | .nil => .nil
  | .cons t ts => if t.key = a then ts else .cons t (rmF a ts)

theorem rmF_headKey (a : Key) : ∀ ts : Forest, a ∈ topKeys ts →
    headKey (rmF a ts) =
      (if headKey ts = some a then nextTop ts a else headKey ts)
  | .nil, h => by simp [topKeys] at h
  | .cons t rest, h => by
    by_cases ht : t.key = a
    · rw [show rmF a (.cons t rest) = rest from by simp [rmF, ht]]
      rw [show headKey (.cons t rest) = some t.key from rfl]
      rw [show nextTop (.cons t rest) a = headKey rest from by simp [nextTop, ht]]
      simp [ht]
    · rw [show rmF a (.cons t rest) = .cons t (rmF a rest) from by simp [rmF, ht]]
      rw [show headKey (.cons t (rmF a rest)) = some t.key from rfl]
      rw [show headKey (.cons t rest) = some t.key from rfl]
      have : ¬ (some t.key = some a) := by simp [ht]
      simp [this]

theorem rmF_lastKey_ne (a : Key) : ∀ ts : Forest, a ∈ topKeys ts →
    ¬ lastKey ts = some a → lastKey (rmF a ts) = lastKey ts
  | .nil, h, _ => by simp [topKeys] at h
  | .cons t rest, h, hne => by
    by_cases ht : t.key = a
    · rw [show rmF a (.cons t rest) = rest from by simp [rmF, ht]]
      cases rest with
      | nil =>
        exact absurd (by simp [lastKey, lastTree, ht]) hne
      | cons u rest2 =>
        rw [show lastKey (.cons t (.cons u rest2)) = lastKey (.cons u rest2) from by
          simp [lastKey, lastTree]]
    · have ht2 : ¬ (a = t.key) := fun he => ht he.symm
      rw [topKeys_cons] at h
      simp only [List.mem_cons, ht2, false_or] at h
      rw [show rmF a (.cons t rest) = .cons t (rmF a rest) from by simp [rmF, ht]]
      cases rest with
      | nil => simp [topKeys] at h
      | cons u rest2 =>
        rw [show lastKey (.cons t (.cons u rest2)) = lastKey (.cons u rest2) from by
          simp [lastKey, lastTree]] at hne ⊢
        cases hrm : rmF a (.cons u rest2) with
        | nil =>
          exfalso
          by_cases hu : u.key = a
          · have hr2 : rest2 = .nil := by
              rw [show rmF a (.cons u rest2) = rest2 from by simp [rmF, hu]] at hrm
              exact hrm
            subst hr2
            exact hne (by simp [lastKey, lastTree, hu])
          · rw [show rmF a (.cons u rest2) = .cons u (rmF a rest2) from by
              simp [rmF, hu]] at hrm
            exact Forest.noConfusion hrm
        | cons v vs =>
          rw [show lastKey (.cons t (.cons v vs)) = lastKey (.cons v vs) from by
            simp [lastKey, lastTree]]
          rw [← hrm]
          exact rmF_lastKey_ne a (.cons u rest2) h hne

theorem rmF_lastKey_eq (a : Key) : ∀ (ts : Forest) (pr : Option Key),
    (topKeys ts).Nodup → a ∈ topKeys ts → lastKey ts = some a →
    (∀ x, pr = some x → ¬ headKey ts = some a) →
    lastKey (rmF a ts) = prevTop ts pr a
  | .nil, pr, _, h, _, _ => by simp [topKeys] at h
  | .cons t rest, pr, hnd, h, hlast, hpr => by
    rw [topKeys_cons] at hnd
    by_cases ht : t.key = a
    · rw [show rmF a (.cons t rest) = rest from by simp [rmF, ht]]
      rw [show prevTop (.cons t rest) pr a = pr from by simp [prevTop, ht]]
      cases rest with
      | nil =>
        cases hprc : pr with
        | none => rfl
        | some x =>
          exact absurd (by simp [headKey, ht]) (hpr x hprc)
      | cons u rest2 =>
        exfalso
        rw [show lastKey (.cons t (.cons u rest2)) = lastKey (.cons u rest2) from by
          simp [lastKey, lastTree]] at hlast
        have := lastKey_mem_topKeys _ a hlast
        exact (List.nodup_cons.mp hnd).1 (ht ▸ this)
    · have ht2 : ¬ (a = t.key) := fun he => ht he.symm
      rw [topKeys_cons] at h
      simp only [List.mem_cons, ht2, false_or] at h
      rw [show rmF a (.cons t rest) = .cons t (rmF a rest) from by simp [rmF, ht]]
      rw [show prevTop (.cons t rest) pr a = prevTop rest (some t.key) a from by
        simp [prevTop, ht]]
      cases rest with
      | nil => simp [topKeys] at h
      | cons u rest2 =>
        rw [show lastKey (.cons t (.cons u rest2)) = lastKey (.cons u rest2) from by
          simp [lastKey, lastTree]] at hlast
        cases hrm : rmF a (.cons u rest2) with
        | nil =>
          by_cases hu : u.key = a
          · have hr2 : rest2 = .nil := by
              rw [show rmF a (.cons u rest2) = rest2 from by simp [rmF, hu]] at hrm
              exact hrm
            subst hr2
            rw [show prevTop (.cons u .nil) (some t.key) a = some t.key from by
              simp [prevTop, hu]]
            rfl
          · exfalso
            rw [show rmF a (.cons u rest2) = .cons u (rmF a rest2) from by
              simp [rmF, hu]] at hrm
            exact Forest.noConfusion hrm
        | cons v vs =>
          rw [show lastKey (.cons t (.cons v vs)) = lastKey (.cons v vs) from by
            simp [lastKey, lastTree]]
          rw [← hrm]
          refine rmF_lastKey_eq a (.cons u rest2) (some t.key)
            (List.nodup_cons.mp hnd).2 h hlast ?_
          intro x hx hhd
          have hu : u.key = a := by simpa [headKey] using hhd
          have hr2ne : rest2 ≠ .nil := by
            intro hr2
            subst hr2
            rw [show rmF a (.cons u .nil) = .nil from by simp [rmF, hu]] at hrm
            exact Forest.noConfusion hrm
          cases rest2 with
          | nil => exact hr2ne rfl
          | cons w ws =>
            rw [show lastKey (.cons u (.cons w ws)) = lastKey (.cons w ws) from by
              simp [lastKey, lastTree]] at hlast
            have hmem2 := lastKey_mem_topKeys _ a hlast
            rw [topKeys_cons] at hnd
            exact (List.nodup_cons.mp (List.nodup_cons.mp hnd).2).1 (hu ▸ hmem2)

theorem subAt_top_disjoint : ∀ (ts : Forest) (a : Key) (acs : Forest) (b : Key),
    (preF ts).Nodup → subAt ts a = some acs → b ∈ topKeys ts → b ≠ a →
    ¬ b ∈ preT (.node a acs)
  | .nil, a, acs, b, _, hsub, _, _ => by simp [subAt] at hsub
  | .cons t rest, a, acs, b, hnd, hsub, hmem, hba => by
    obtain ⟨tk, tcs⟩ := t
    by_cases ht : tk = a
    · subst ht
      have hacs : acs = tcs := by
        have := hsub
        simp only [subAt, RT.key, RT.children, if_pos rfl] at this
        exact (Option.some.injEq _ _).mp this.symm
      subst hacs
      rw [topKeys_cons] at hmem
      simp only [List.mem_cons, RT.key] at hmem
      cases hmem with
      | inl h1 => exact absurd h1 hba
      | inr h1 =>
        intro hb
        exact (nodup_preF_of_cons hnd).2.2 b hb (mem_preF_of_mem_topKeys h1)
    · have hsub2 : subAt rest a = some acs := by
        simpa [subAt, RT.key, ht] using hsub
      rw [topKeys_cons] at hmem
      simp only [List.mem_cons, RT.key] at hmem
      have hsubm : ∀ x ∈ preT (.node a acs), x ∈ preF rest := by
        intro x hx
        exact findF_sub_mem rest a _
          (subAt_findF rest a acs (nodup_preF_of_cons hnd).2.1 hsub2) x hx
      cases hmem with
      | inl h1 =>
        subst h1
        intro hb
        exact (nodup_preF_of_cons hnd).2.2 b (key_mem_preT (.node b tcs)) (hsubm b hb)
      | inr h1 =>
        exact subAt_top_disjoint rest a acs b (nodup_preF_of_cons hnd).2.1
          hsub2 h1 hba

theorem rmF_perm (a : Key) : ∀ (ts : Forest) (acs : Forest),
    subAt ts a = some acs →
    (preF (rmF a ts) ++ preT (.node a acs)).Perm (preF ts)
  | .nil, acs, hsub => by simp [subAt] at hsub
  | .cons t rest, acs, hsub => by
    obtain ⟨tk, tcs⟩ := t
    by_cases ht : tk = a
    · subst ht
      have hacs : acs = tcs := by
        have := hsub
        simp only [subAt, RT.key, RT.children, if_pos rfl] at this
        exact (Option.some.injEq _ _).mp this.symm
      subst hacs
      rw [show rmF tk (.cons (.node tk acs) rest) = rest from by
        simp [rmF, RT.key]]
      rw [show preF (.cons (.node tk acs) rest) = preT (.node tk acs) ++ preF rest
        from rfl]
      exact List.perm_append_comm
    · have hsub2 : subAt rest a = some acs := by
        simpa [subAt, RT.key, ht] using hsub
      rw [show rmF a (.cons (.node tk tcs) rest) =
        .cons (.node tk tcs) (rmF a rest) from by simp [rmF, RT.key, ht]]
      rw [show preF (.cons (.node tk tcs) (rmF a rest)) =
        preT (.node tk tcs) ++ preF (rmF a rest) from rfl]
      rw [show preF (.cons (.node tk tcs) rest) =
        preT (.node tk tcs) ++ preF rest from rfl]
      rw [List.append_assoc]
      exact List.Perm.append_left _ (rmF_perm a rest acs hsub2)

theorem rmF_not_mem (a : Key) : ∀ (ts : Forest) (acs : Forest) (x : Key),
    (preF ts).Nodup → subAt ts a = some acs → x ∈ preT (.node a acs) →
    ¬ x ∈ preF (rmF a ts)
  | .nil, acs, x, _, hsub, _ => by simp [subAt] at hsub
  | .cons t rest, acs, x, hnd, hsub, hx => by
    obtain ⟨tk, tcs⟩ := t
    by_cases ht : tk = a
    · subst ht
      have hacs : acs = tcs := by
        have := hsub
        simp only [subAt, RT.key, RT.children, if_pos rfl] at this
        exact (Option.some.injEq _ _).mp this.symm
      subst hacs
      rw [show rmF tk (.cons (.node tk acs) rest) = rest from by
        simp [rmF, RT.key]]
      exact fun hm => (nodup_preF_of_cons hnd).2.2 x hx hm
    · have hsub2 : subAt rest a = some acs := by
        simpa [subAt, RT.key, ht] using hsub
      have hsubm : x ∈ preF rest :=
        findF_sub_mem rest a _
          (subAt_findF rest a acs (nodup_preF_of_cons hnd).2.1 hsub2) x hx
      rw [show rmF a (.cons (.node tk tcs) rest) =
        .cons (.node tk tcs) (rmF a rest) from by simp [rmF, RT.key, ht]]
      intro hm
      rw [show preF (.cons (.node tk tcs) (rmF a rest)) =
        preT (.node tk tcs) ++ preF (rmF a rest) from rfl] at hm
      rw [List.mem_append] at hm
      cases hm with
      | inl h1 => exact (nodup_preF_of_cons hnd).2.2 x h1 hsubm
      | inr h1 =>
        exact rmF_not_mem a rest acs x (nodup_preF_of_cons hnd).2.1 hsub2 hx h1

/-- The record transform of `delete`: keys of the removed subtree vanish,
the removed tree's previous top sibling gains its next, and vice versa. -/
def TRdel (del : List Key) (PV NX : Option Key) (q : Key)
    (v : Option NodeRelations) : Option NodeRelations :=
  if q ∈ del then none
  else if some q = PV then v.map (fun r => { r with next_sibling := NX })
  else if some q = NX then v.map (fun r => { r with previous_sibling := PV })
  else v

theorem TRdel_relAux (pA a : Key) : ∀ (ts : Forest) (pr : Option Key) (acs : Forest),
    (preF ts).Nodup → subAt ts a = some acs →
    (∀ x, pr = some x → ¬ x ∈ preF ts) →
    ∀ q, relF (some pA) pr (rmF a ts) q =
      TRdel (preT (.node a acs)) (prevTop ts pr a) (nextTop ts a) q
        (relF (some pA) pr ts q)
  | .nil, pr, acs, _, hsub, _, q => by simp [subAt] at hsub
  | .cons (.node tk tcs) rest, pr, acs, hnd, hsub, hpr, q => by
    have hndr : (preF rest).Nodup := (nodup_preF_of_cons hnd).2.1
    have htkr : ¬ tk ∈ preF rest := by
      intro hm
      exact (nodup_preF_of_cons hnd).2.2 tk (key_mem_preT (.node tk tcs)) hm
    by_cases ht : tk = a
    · subst ht
      have hacs : acs = tcs := by
        have := hsub
        simp only [subAt, RT.key, RT.children, if_pos rfl] at this
        exact (Option.some.injEq _ _).mp this.symm
      subst hacs
      rw [show rmF tk (.cons (.node tk acs) rest) = rest from by
        simp [rmF, RT.key]]
      rw [show prevTop (.cons (.node tk acs) rest) pr tk = pr from by
        simp [prevTop, RT.key]]
      rw [show nextTop (.cons (.node tk acs) rest) tk = headKey rest from by
        simp [nextTop, RT.key]]
      rw [show relF (some pA) pr (.cons (.node tk acs) rest) q =
        (match relT (some pA) pr (headKey rest) (.node tk acs) q with
         | some r => some r
         | none => relF (some pA) (some tk) rest q) from rfl]
      by_cases hqd : q ∈ preT (.node tk acs)
      · have hqr : ¬ q ∈ preF rest := fun hm =>
          (nodup_preF_of_cons hnd).2.2 q hqd hm
        rw [relF_none_of_not_mem hqr (some pA) pr]
        have hqdd : q ∈ preT (RT.node tk acs) := hqd
        simp only [TRdel, if_pos hqdd]
      · rw [relT_none_of_not_mem hqd (some pA) pr (headKey rest)]
        rw [show (match (none : Option NodeRelations) with
           | some r => some r
           | none => relF (some pA) (some tk) rest q) =
          relF (some pA) (some tk) rest q from rfl]
        rw [relF_prev_map rest (some pA) pr (some tk) q]
        by_cases hqh : some q = headKey rest
        · have hqpr : ¬ (some q = pr) := by
            intro he
            exact hpr q he.symm
              (by
                have := mem_preF_of_mem_topKeys (headKey_mem_topKeys rest q hqh.symm)
                simp [preF, this])
          rw [if_pos hqh]
          simp only [TRdel, if_neg hqd, if_neg hqpr, if_pos hqh]
        · rw [if_neg hqh]
          by_cases hqpr : some q = pr
          · have hqnm : ¬ q ∈ preF rest := by
              intro hm
              exact hpr q hqpr.symm (by simp [preF, hm])
            rw [relF_none_of_not_mem hqnm (some pA) (some tk)]
            simp [TRdel, hqd, hqpr, hqh]
          · simp only [TRdel, if_neg hqd, if_neg hqpr, if_neg hqh]
    · have hsub2 : subAt rest a = some acs := by
        simpa [subAt, RT.key, ht] using hsub
      have hamem : a ∈ topKeys rest := (subAt_isSome rest a).mp (by simp [hsub2])
      have hsubm : ∀ x ∈ preT (.node a acs), x ∈ preF rest := by
        intro x hx
        exact findF_sub_mem rest a _ (subAt_findF rest a acs hndr hsub2) x hx
      rw [show rmF a (.cons (.node tk tcs) rest) =
        .cons (.node tk tcs) (rmF a rest) from by simp [rmF, RT.key, ht]]
      rw [show prevTop (.cons (.node tk tcs) rest) pr a =
        prevTop rest (some tk) a from by simp [prevTop, RT.key, ht]]
      rw [show nextTop (.cons (.node tk tcs) rest) a = nextTop rest a from by
        simp [nextTop, RT.key, ht]]
      rw [show relF (some pA) pr (.cons (.node tk tcs) (rmF a rest)) q =
        (match relT (some pA) pr (headKey (rmF a rest)) (.node tk tcs) q with
         | some r => some r
         | none => relF (some pA) (some tk) (rmF a rest) q) from rfl]
      rw [show relF (some pA) pr (.cons (.node tk tcs) rest) q =
        (match relT (some pA) pr (headKey rest) (.node tk tcs) q with
         | some r => some r
         | none => relF (some pA) (some tk) rest q) from rfl]
      by_cases hqt : q = tk
      · subst hqt
        rw [show relT (some pA) pr (headKey (rmF a rest)) (.node q tcs) q =
          some ⟨some pA, pr, headKey (rmF a rest), headKey tcs, lastKey tcs⟩
          from by simp [relT]]
        rw [show relT (some pA) pr (headKey rest) (.node q tcs) q =
          some ⟨some pA, pr, headKey rest, headKey tcs, lastKey tcs⟩ from by
            simp [relT]]
        rw [rmF_headKey a rest hamem]
        have hqd : ¬ q ∈ preT (.node a acs) := fun hm => htkr (hsubm q hm)
        by_cases hhd : headKey rest = some a
        · rw [if_pos hhd]
          rw [prevTop_head rest (some q) a hhd]
          simp [TRdel, hqd]
        · rw [if_neg hhd]
          have hqpv : ¬ (some q = prevTop rest (some q) a) := by
            intro he
            have := prevTop_mem_of_not_head rest (some q) a hamem hhd q he.symm
            exact htkr (mem_preF_of_mem_topKeys this)
          have hqnx : ¬ (some q = nextTop rest a) := by
            intro he
            exact htkr (mem_preF_of_mem_topKeys (nextTop_mem rest a q he.symm))
          simp [TRdel, hqd, hqpv, hqnx]
      · rw [relT_congr (show q ≠ (RT.node tk tcs).key from hqt) (some pA) pr
          (headKey (rmF a rest)) (some pA) pr (headKey rest)]
        cases hrt : relT (some pA) pr (headKey rest) (.node tk tcs) q with
        | some r =>
          have hqm : q ∈ preT (.node tk tcs) :=
            (relT_isSome _ (some pA) pr (headKey rest) q).mp (by simp [hrt])
          have hqd : ¬ q ∈ preT (.node a acs) := by
            intro hm
            exact (nodup_preF_of_cons hnd).2.2 q hqm (hsubm q hm)
          have hqpv : ¬ (some q = prevTop rest (some tk) a) := by
            intro he
            cases prevTop_cases rest (some tk) a q he.symm with
            | inl h1 =>
              have : tk = q := by simpa using h1
              exact hqt this.symm
            | inr h1 =>
              exact (nodup_preF_of_cons hnd).2.2 q hqm (mem_preF_of_mem_topKeys h1)
          have hqnx : ¬ (some q = nextTop rest a) := by
            intro he
            exact (nodup_preF_of_cons hnd).2.2 q hqm
              (mem_preF_of_mem_topKeys (nextTop_mem rest a q he.symm))
          simp [TRdel, hqd, hqpv, hqnx]
        | none =>
          exact TRdel_relAux pA a rest (some tk) acs hndr hsub2
            (by
              intro x hx
              have : tk = x := by simpa using hx
              subst this
              exact htkr) q

theorem TRdel_rel (pA a : Key) (pcs acs : Forest) (hnd : (preF pcs).Nodup)
    (hsub : subAt pcs a = some acs) :
    ∀ q, q ≠ pA →
      relF (some pA) none (rmF a pcs) q =
        TRdel (preT (.node a acs)) (prevTop pcs none a) (nextTop pcs a) q
          (relF (some pA) none pcs q) := by
  intro q _
  exact TRdel_relAux pA a pcs none acs hnd hsub
    (fun x hx => Option.noConfusion hx) q

theorem TRdel_some (pA a : Key) (pcs acs : Forest) (hnd : (preF pcs).Nodup)
    (hsub : subAt pcs a = some acs) :
    ∀ q r, ¬ q ∈ preF pcs →
      TRdel (preT (.node a acs)) (prevTop pcs none a) (nextTop pcs a) q
        (some r) = some r := by
  intro q r hq
  have hsubm2 : ∀ x ∈ preT (.node a acs), x ∈ preF pcs := by
    intro x hx
    exact findF_sub_mem pcs a _ (subAt_findF pcs a acs hnd hsub) x hx
  have hqd : ¬ q ∈ preT (.node a acs) := fun hm => hq (hsubm2 q hm)
  have hqpv : ¬ (some q = prevTop pcs none a) := by
    intro he
    cases prevTop_cases pcs none a q he.symm with
    | inl h1 => exact Option.noConfusion h1
    | inr h1 => exact hq (mem_preF_of_mem_topKeys h1)
  have hqnx : ¬ (some q = nextTop pcs a) := by
    intro he
    exact hq (mem_preF_of_mem_topKeys (nextTop_mem pcs a q he.symm))
  simp [TRdel, hqd, hqpv, hqnx]

/-- The forward descendant iterator under any state that realizes the
layer's child forest and stores its boundary links. -/
theorem decList_of_realized (s : Structure) (L : Key) (cs : Forest)
    (hfc : first_childS s L = headKey cs) (hlc : last_childS s L = lastKey cs)
    (hrcs : RealizedF s (some L) none cs) (hnd : (preF cs).Nodup)
    (hsz : (preF cs).length ≤ s.length) :
    decendantsList s L = preF cs := by
  have hfront : descFront s L = headKey cs := by simp [descFront, hfc]
  cases cs with
  | nil =>
    rw [show decendantsList s L = descFwdList s (s.length + 1) (s.length + 1)
      (descFront s L) (descBack s (s.length + 1) L) from rfl, hfront]
    rw [show headKey .nil = (none : Option Key) from rfl, descFwdList_none]
    rfl
  | cons c cs2 =>
    obtain ⟨u, hu⟩ := lastTree_cons_isSome c cs2
    obtain ⟨prev2, hru⟩ := realizedF_lastTree hrcs hnd hu
    obtain ⟨pre, hpre⟩ := preF_of_lastTree hu
    have hndu : (preT u).Nodup := by
      have h2 := hnd
      rw [hpre] at h2
      exact h2.of_append_right
    have hlenu : (preT u).length ≤ (preF (.cons c cs2)).length := by
      have h3 : (preF (.cons c cs2)).length = pre.length + (preT u).length := by
        rw [hpre]
        simp
      omega
    have hldu : lastDesc s (s.length + 1) u.key = lastDescT u :=
      lastDesc_eq u s (some L) prev2 none (s.length + 1) hru hndu (by omega)
    have hlk : lastKey (.cons c cs2) = some u.key := by simp [lastKey, hu]
    have hbx : descBack s (s.length + 1) L = some (lastDescT u) := by
      simp [descBack, hlc, hlk, hldu]
    have hldf : lastDescF (.cons c cs2) = some (lastDescT u) := by
      rw [lastDescF_eq_lastTree, hu]
      rfl
    rw [show decendantsList s L = descFwdList s (s.length + 1) (s.length + 1)
      (descFront s L) (descBack s (s.length + 1) L) from rfl, hfront, hbx]
    exact finF (.cons c cs2) s L none (by intro hc; exact Forest.noConfusion hc)
      hrcs hnd (s.length + 1) (s.length + 1) (lastDescT u) hldf (by omega) (by omega)

theorem sset_length : ∀ (s : Structure) (k : Key) (r : NodeRelations),
    (sfind? s k).isSome = true → (sset s k r).length = s.length
  | [], k, r, h => by simp [sfind?] at h
  | (k2, r2) :: rest, k, r, h => by
    by_cases hk : k = k2
    · simp [sset, hk]
    · simp only [sfind?, hk, if_false] at h
      simp [sset, hk, sset_length rest k r h]

theorem supdate_length (s : Structure) (k : Key) (f : NodeRelations → NodeRelations)
    (h : (sfind? s k).isSome = true) : (supdate s k f).length = s.length :=
  sset_length s k _ h

theorem sensure_length (s : Structure) (k : Key)
    (h : (sfind? s k).isSome = true) : (sensure s k).length = s.length :=
  sset_length s k _ h

theorem sfind?_foldl_sremove : ∀ (L : List Key) (s : Structure) (q : Key),
    sfind? (L.foldl sremove s) q = if q ∈ L then none else sfind? s q
  | [], s, q => by simp
  | a :: L, s, q => by
    rw [show (a :: L).foldl sremove s = L.foldl sremove (sremove s a) from rfl]
    rw [sfind?_foldl_sremove L (sremove s a) q, sfind?_sremove]
    by_cases hqL : q ∈ L
    · simp [hqL]
    · by_cases hqa : q = a
      · simp [hqL, hqa]
      · simp [hqL, hqa]

theorem prevTop_ne_nextTop : ∀ (ts : Forest) (pr : Option Key) (a p n : Key),
    (topKeys ts).Nodup → (∀ y, pr = some y → ¬ y ∈ topKeys ts) →
    prevTop ts pr a = some p → nextTop ts a = some n → p ≠ n
  | .nil, pr, a, p, n, _, _, hp, _ => by simp [prevTop] at hp
  | .cons t rest, pr, a, p, n, hnd, hpr, hp, hn => by
    rw [topKeys_cons] at hnd
    by_cases ht : t.key = a
    · simp only [prevTop, ht, if_pos] at hp
      simp only [nextTop, ht, if_pos] at hn
      have hpn : ¬ p ∈ topKeys (.cons t rest) := hpr p hp
      have hnn : n ∈ topKeys (.cons t rest) := by
        rw [topKeys_cons]
        exact List.mem_cons_of_mem _ (headKey_mem_topKeys rest n hn)
      intro he
      exact hpn (he ▸ hnn)
    · simp only [prevTop, ht, if_false] at hp
      simp only [nextTop, ht, if_false] at hn
      refine prevTop_ne_nextTop rest (some t.key) a p n (List.nodup_cons.mp hnd).2
        ?_ hp hn
      intro y hy
      have : t.key = y := by simpa using hy
      subst this
      exact (List.nodup_cons.mp hnd).1

/-- `delete` on an absent key leaves every binding unchanged. -/
theorem delete_absent (s : Structure) (self : Key)
    (h : existsS s self = false) : ∀ q, sfind? (delete s self) q = sfind? s q := by
  intro q
  have hfind : sfind? s self = none := by
    rw [show existsS s self = (sfind? s self).isSome from rfl] at h
    exact Option.not_isSome_iff_eq_none.mp (by simp [h])
  simp only [delete]
  simp only [show previous_siblingS s self = (none : Option Key) from by
    simp [previous_siblingS, hfind]]
  simp only [show next_siblingS s self = (none : Option Key) from by
    simp [next_siblingS, hfind]]
  simp only [show parentS s self = (none : Option Key) from by
    simp [parentS, hfind]]
  rw [show decendantsList s self = [] from by
    rw [show decendantsList s self = descFwdList s (s.length + 1) (s.length + 1)
      (descFront s self) (descBack s (s.length + 1) self) from rfl,
      show descFront s self = none from by simp [descFront, first_childS, hfind],
      descFwdList_none]]
  rw [show List.foldl sremove s [self] = sremove s self from rfl, sfind?_sremove]
  by_cases hq : q = self
  · subst hq
    rw [if_pos rfl, hfind]
  · rw [if_neg hq]

/-- `delete ROOT` empties a consistent tree state. -/
theorem delete_root (s : Structure) (t : RT) (h : TreeState s t) :
    EmptyState (delete s ROOT) := by
  obtain ⟨k, cs⟩ := t
  have hk : k = ROOT := h.1
  subst hk
  have hrec : sfind? s ROOT =
      some ⟨none, none, none, headKey cs, lastKey cs⟩ := by
    rw [h.2.2 ROOT]
    simp [relT]
  have hsize := treeState_size_le h
  obtain ⟨hfind2, hrcs⟩ := realizedT_node h.2.1 (treeState_realized h)
  have hdec : decendantsList s ROOT = preF cs := by
    refine decList_of_realized s ROOT cs (by simp [first_childS, hrec])
      (by simp [last_childS, hrec]) hrcs (nodup_preT ROOT cs h.2.1).2 ?_
    have : (preT (RT.node ROOT cs)).length = (preF cs).length + 1 := by
      simp [preT]
    omega
  intro q
  simp only [delete]
  simp only [show previous_siblingS s ROOT = (none : Option Key) from by
    simp [previous_siblingS, hrec]]
  simp only [show next_siblingS s ROOT = (none : Option Key) from by
    simp [next_siblingS, hrec]]
  simp only [show parentS s ROOT = (none : Option Key) from by
    simp [parentS, hrec]]
  rw [hdec, sfind?_foldl_sremove]
  by_cases hq : q ∈ ROOT :: preF cs
  · rw [if_pos hq]
  · rw [if_neg hq]
    rw [h.2.2 q]
    refine relT_none_of_not_mem ?_ none none none
    rw [preT_def]
    exact hq

/-- `delete` of a present non-root key maps a consistent tree state to the
consistent tree state with that key's whole subtree removed from its
parent's child forest. -/
theorem delete_preserves (s : Structure) (t : RT) (h : TreeState s t)
    (self : Key) (hsp : existsS s self = true) (hsr : self ≠ ROOT) :
    ∃ t2, TreeState (delete s self) t2 := by
  have hamem : self ∈ preT t := by
    rw [show existsS s self = (sfind? s self).isSome from rfl, h.2.2 self] at hsp
    exact (relT_isSome t none none none self).mp hsp
  have hanr : self ≠ t.key := by rw [h.1]; exact hsr
  obtain ⟨pA, pcs, hfindP, htopA⟩ := findParentT t self h.2.1 hamem hanr
  obtain ⟨hkeyP, ⟨p2, v2, n2, hrsub⟩, hndP, hlenP⟩ :=
    findT_realized t s none none none (treeState_realized h) h.2.1 pA _ hfindP
  obtain ⟨hrecp, hrF⟩ := realizedT_node hndP hrsub
  have hsubP := findT_sub_mem t pA _ hfindP
  obtain ⟨acs, hsubA⟩ := Option.isSome_iff_exists.mp ((subAt_isSome pcs self).mpr htopA)
  have hndpcs : (preF pcs).Nodup := (nodup_preT pA pcs hndP).2
  have hreca : sfind? s self = some ⟨some pA, prevTop pcs none self,
      nextTop pcs self, headKey acs, lastKey acs⟩ := by
    rw [hrF self (mem_preF_of_mem_topKeys htopA)]
    exact relF_topRec pcs (some pA) none self acs hndpcs hsubA
  have hpApcs : ¬ pA ∈ preF pcs := (nodup_preT pA pcs hndP).1
  have haP : self ≠ pA := fun he => hpApcs (he ▸ mem_preF_of_mem_topKeys htopA)
  obtain ⟨hkeyS, ⟨p3, v3, n3, hrTsub⟩, hndsub, hlensub⟩ :=
    findF_realized pcs s (some pA) none hrF hndpcs self (.node self acs)
      (subAt_findF pcs self acs hndpcs hsubA)
  obtain ⟨hrecS, hsubreal⟩ := realizedT_node hndsub hrTsub
  have hsubin : ∀ x, x ∈ preT (.node self acs) → x ∈ preF pcs :=
    findF_sub_mem pcs self _ (subAt_findF pcs self acs hndpcs hsubA)
  have hpA_not_sub : ¬ pA ∈ preT (.node self acs) := fun hm => hpApcs (hsubin pA hm)
  have hszt := treeState_size_le h
  have e1 : (preT (RT.node self acs)).length = (preF acs).length + 1 := by simp [preT]
  have e2 : (preT (RT.node pA pcs)).length = (preF pcs).length + 1 := by simp [preT]
  have hnd3 : (preF acs).Nodup := (nodup_preT self acs hndsub).2
  have hL : lastKey (rmF self pcs) =
      (if lastKey pcs = some self then prevTop pcs none self else lastKey pcs) := by
    by_cases hls : lastKey pcs = some self
    · rw [if_pos hls]
      exact rmF_lastKey_eq self pcs none (topKeys_nodup hndpcs) htopA hls
        (fun x hx => Option.noConfusion hx)
    · rw [if_neg hls]
      exact rmF_lastKey_ne self pcs htopA hls
  have hTn : ∀ q2, TRdel (preT (.node self acs)) (prevTop pcs none self)
      (nextTop pcs self) q2 none = none := by
    intro q2
    by_cases h1 : q2 ∈ preT (RT.node self acs)
    · simp [TRdel, h1]
    · by_cases h2 : some q2 = prevTop pcs none self
      · simp [TRdel, h1, h2]
      · by_cases h3 : some q2 = nextTop pcs self
        · simp [TRdel, h1, h2, h3]
        · simp [TRdel, h1, h2, h3]
  have hstate : ∀ q, sfind? (delete s self) q =
      chCT pA (if headKey pcs = some self then nextTop pcs self else headKey pcs)
        (if lastKey pcs = some self then prevTop pcs none self else lastKey pcs)
        (TRdel (preT (.node self acs)) (prevTop pcs none self) (nextTop pcs self))
        q (sfind? s q) := by
    cases hPV : prevTop pcs none self with
    | none =>
      have hheadq : headKey pcs = some self := prevTop_none_head pcs self htopA hPV
      cases hNX : nextTop pcs self with
      | none =>
        rw [hPV, hNX] at hreca
        have hlastq : lastKey pcs = some self := nextTop_none_last pcs self htopA hNX
        have hfc3 : first_childS (supdate (supdate (sensure s pA) pA
            (fun r => { r with first_child := none })) pA
            (fun r => { r with last_child := none })) self = headKey acs := by
          simp [first_childS, sfind?_supdate, sfind?_sensure, haP, hreca]
        have hlc3 : last_childS (supdate (supdate (sensure s pA) pA
            (fun r => { r with first_child := none })) pA
            (fun r => { r with last_child := none })) self = lastKey acs := by
          simp [last_childS, sfind?_supdate, sfind?_sensure, haP, hreca]
        have hrcs3 : RealizedF (supdate (supdate (sensure s pA) pA
            (fun r => { r with first_child := none })) pA
            (fun r => { r with last_child := none })) (some self) none acs := by
          intro q2 hq2
          have hq2sub : q2 ∈ preT (.node self acs) := by simp [preT, hq2]
          have hq2pA : ¬ (q2 = pA) := fun he => hpA_not_sub (he ▸ hq2sub)
          rw [show sfind? (supdate (supdate (sensure s pA) pA
            (fun r => { r with first_child := none })) pA
            (fun r => { r with last_child := none })) q2 = sfind? s q2 from by
            simp [sfind?_supdate, sfind?_sensure, hq2pA]]
          exact hsubreal q2 hq2
        have hsz3 : (preF acs).length ≤ (supdate (supdate (sensure s pA) pA
            (fun r => { r with first_child := none })) pA
            (fun r => { r with last_child := none })).length := by
          rw [supdate_length _ _ _ (by simp [sfind?_supdate]),
            supdate_length _ _ _ (by simp [sfind?_sensure]),
            sensure_length _ _ (by simp [hrecp])]
          omega
        intro q
        simp only [delete]
        simp only [show previous_siblingS s self = (none : Option Key) from by
          simp [previous_siblingS, hreca]]
        simp only [show next_siblingS s self = (none : Option Key) from by
          simp [next_siblingS, hreca]]
        simp only [show parentS s self = some pA from by simp [parentS, hreca]]
        rw [if_pos (show first_childS (sensure s pA) pA = some self from by
          simp [first_childS, sfind?_sensure, hrecp, hheadq])]
        rw [if_pos (show last_childS (supdate (sensure s pA) pA
            (fun r => { r with first_child := none })) pA = some self from by
          simp [last_childS, sfind?_supdate, sfind?_sensure, hrecp, hlastq])]
        rw [show decendantsList (supdate (supdate (sensure s pA) pA
            (fun r => { r with first_child := none })) pA
            (fun r => { r with last_child := none })) self = preF acs from
          decList_of_realized _ self acs hfc3 hlc3 hrcs3 hnd3 hsz3]
        rw [sfind?_foldl_sremove, preT_def]
        by_cases hqdel : q ∈ self :: preF acs
        · rw [if_pos hqdel]
          have hqpA : ¬ (q = pA) := fun he => hpA_not_sub (he ▸ hqdel)
          simp [chCT, hqpA, TRdel, hqdel]
        · rw [if_neg hqdel]
          by_cases hq : q = pA
          · subst hq
            simp [sfind?_supdate, sfind?_sensure, hrecp, chCT, hheadq, hlastq]
          · simp [sfind?_supdate, sfind?_sensure, hq, chCT, TRdel, hqdel]
      | some nxk =>
        rw [hPV, hNX] at hreca
        have hnxtop : nxk ∈ topKeys pcs := nextTop_mem pcs self nxk hNX
        have hnx_self : nxk ≠ self := nextTop_ne pcs self nxk (topKeys_nodup hndpcs) hNX
        have hnx_mem : nxk ∈ preF pcs := mem_preF_of_mem_topKeys hnxtop
        have hnx_pA : ¬ (nxk = pA) := fun he => hpApcs (he ▸ hnx_mem)
        have hpA_nx : ¬ (pA = nxk) := fun he => hnx_pA he.symm
        have hself_nx : ¬ (self = nxk) := fun he => hnx_self he.symm
        have hnx_nsub : ¬ nxk ∈ preT (.node self acs) :=
          subAt_top_disjoint pcs self acs nxk hndpcs hsubA hnxtop hnx_self
        have hnx_pres : (sfind? s nxk).isSome = true := by
          rw [h.2.2 nxk]
          exact (relT_isSome t none none none nxk).mpr
            (hsubP nxk (by simp [preT, hnx_mem]))
        obtain ⟨rnx, hrnx⟩ := Option.isSome_iff_exists.mp hnx_pres
        have hlastne : ¬ (lastKey pcs = some self) := by
          intro hls
          rw [nextTop_last_none pcs self (topKeys_nodup hndpcs) hls] at hNX
          exact Option.noConfusion hNX
        have hfc3 : first_childS (supdate (sensure (supdate s nxk
            (fun r => { r with previous_sibling := none })) pA) pA
            (fun r => { r with first_child := some nxk })) self = headKey acs := by
          simp [first_childS, sfind?_supdate, sfind?_sensure, haP, hself_nx, hreca]
        have hlc3 : last_childS (supdate (sensure (supdate s nxk
            (fun r => { r with previous_sibling := none })) pA) pA
            (fun r => { r with first_child := some nxk })) self = lastKey acs := by
          simp [last_childS, sfind?_supdate, sfind?_sensure, haP, hself_nx, hreca]
        have hrcs3 : RealizedF (supdate (sensure (supdate s nxk
            (fun r => { r with previous_sibling := none })) pA) pA
            (fun r => { r with first_child := some nxk })) (some self) none acs := by
          intro q2 hq2
          have hq2sub : q2 ∈ preT (.node self acs) := by simp [preT, hq2]
          have hq2pA : ¬ (q2 = pA) := fun he => hpA_not_sub (he ▸ hq2sub)
          have hq2nx : ¬ (q2 = nxk) := fun he => hnx_nsub (he ▸ hq2sub)
          rw [show sfind? (supdate (sensure (supdate s nxk
            (fun r => { r with previous_sibling := none })) pA) pA
            (fun r => { r with first_child := some nxk })) q2 = sfind? s q2 from by
            simp [sfind?_supdate, sfind?_sensure, hq2pA, hq2nx]]
          exact hsubreal q2 hq2
        have hsz3 : (preF acs).length ≤ (supdate (sensure (supdate s nxk
            (fun r => { r with previous_sibling := none })) pA) pA
            (fun r => { r with first_child := some nxk })).length := by
          rw [supdate_length _ _ _ (by
              simp [sfind?_sensure, sfind?_supdate, hpA_nx, hrecp]),
            sensure_length _ _ (by simp [sfind?_supdate, hpA_nx, hrecp]),
            supdate_length _ _ _ (by simp [hrnx])]
          omega
        intro q
        simp only [delete]
        simp only [show previous_siblingS s self = (none : Option Key) from by
          simp [previous_siblingS, hreca]]
        simp only [show next_siblingS s self = some nxk from by
          simp [next_siblingS, hreca]]
        simp only [show parentS (supdate s nxk
            (fun r => { r with previous_sibling := none })) self = some pA from by
          simp [parentS, sfind?_supdate, hself_nx, hreca]]
        rw [if_pos (show first_childS (sensure (supdate s nxk
            (fun r => { r with previous_sibling := none })) pA) pA = some self from by
          simp [first_childS, sfind?_sensure, sfind?_supdate, hpA_nx, hrecp, hheadq])]
        rw [if_neg (show ¬ (last_childS (supdate (sensure (supdate s nxk
            (fun r => { r with previous_sibling := none })) pA) pA
            (fun r => { r with first_child := some nxk })) pA = some self) from by
          simp [last_childS, sfind?_supdate, sfind?_sensure, hpA_nx, hrecp, hlastne])]
        rw [show decendantsList (supdate (sensure (supdate s nxk
            (fun r => { r with previous_sibling := none })) pA) pA
            (fun r => { r with first_child := some nxk })) self = preF acs from
          decList_of_realized _ self acs hfc3 hlc3 hrcs3 hnd3 hsz3]
        rw [sfind?_foldl_sremove, preT_def]
        by_cases hqdel : q ∈ self :: preF acs
        · rw [if_pos hqdel]
          have hqpA : ¬ (q = pA) := fun he => hpA_not_sub (he ▸ hqdel)
          simp [chCT, hqpA, TRdel, hqdel]
        · rw [if_neg hqdel]
          by_cases hq : q = pA
          · subst hq
            simp [sfind?_supdate, sfind?_sensure, hpA_nx, hrecp, chCT, hheadq,
              hlastne]
          · by_cases hqnx : q = nxk
            · subst hqnx
              simp [sfind?_supdate, sfind?_sensure, hnx_pA, hrnx, chCT, TRdel,
                hqdel]
            · simp [sfind?_supdate, sfind?_sensure, hq, hqnx, chCT, TRdel, hqdel]
    | some pvk =>
      have hpvtop : pvk ∈ topKeys pcs := by
        cases prevTop_cases pcs none self pvk hPV with
        | inl h1 => exact absurd h1 (by simp)
        | inr h1 => exact h1
      have hpv_self : pvk ≠ self := prevTop_ne pcs none self pvk
        (topKeys_nodup hndpcs) htopA (fun y hy => Option.noConfusion hy) hPV
      have hpv_mem : pvk ∈ preF pcs := mem_preF_of_mem_topKeys hpvtop
      have hpv_pA : ¬ (pvk = pA) := fun he => hpApcs (he ▸ hpv_mem)
      have hpA_pv : ¬ (pA = pvk) := fun he => hpv_pA he.symm
      have hself_pv : ¬ (self = pvk) := fun he => hpv_self he.symm
      have hpv_nsub : ¬ pvk ∈ preT (.node self acs) :=
        subAt_top_disjoint pcs self acs pvk hndpcs hsubA hpvtop hpv_self
      have hpv_pres : (sfind? s pvk).isSome = true := by
        rw [h.2.2 pvk]
        exact (relT_isSome t none none none pvk).mpr
          (hsubP pvk (by simp [preT, hpv_mem]))
      obtain ⟨rpv, hrpv⟩ := Option.isSome_iff_exists.mp hpv_pres
      have hheadne : ¬ (headKey pcs = some self) := by
        intro hhd
        rw [prevTop_head pcs none self hhd] at hPV
        exact Option.noConfusion hPV
      cases hNX : nextTop pcs self with
      | none =>
        rw [hPV, hNX] at hreca
        have hlastq : lastKey pcs = some self := nextTop_none_last pcs self htopA hNX
        have hfc3 : first_childS (supdate (sensure (supdate s pvk
            (fun r => { r with next_sibling := none })) pA) pA
            (fun r => { r with last_child := some pvk })) self = headKey acs := by
          simp [first_childS, sfind?_supdate, sfind?_sensure, haP, hself_pv, hreca]
        have hlc3 : last_childS (supdate (sensure (supdate s pvk
            (fun r => { r with next_sibling := none })) pA) pA
            (fun r => { r with last_child := some pvk })) self = lastKey acs := by
          simp [last_childS, sfind?_supdate, sfind?_sensure, haP, hself_pv, hreca]
        have hrcs3 : RealizedF (supdate (sensure (supdate s pvk
            (fun r => { r with next_sibling := none })) pA) pA
            (fun r => { r with last_child := some pvk })) (some self) none acs := by
          intro q2 hq2
          have hq2sub : q2 ∈ preT (.node self acs) := by simp [preT, hq2]
          have hq2pA : ¬ (q2 = pA) := fun he => hpA_not_sub (he ▸ hq2sub)
          have hq2pv : ¬ (q2 = pvk) := fun he => hpv_nsub (he ▸ hq2sub)
          rw [show sfind? (supdate (sensure (supdate s pvk
            (fun r => { r with next_sibling := none })) pA) pA
            (fun r => { r with last_child := some pvk })) q2 = sfind? s q2 from by
            simp [sfind?_supdate, sfind?_sensure, hq2pA, hq2pv]]
          exact hsubreal q2 hq2
        have hsz3 : (preF acs).length ≤ (supdate (sensure (supdate s pvk
            (fun r => { r with next_sibling := none })) pA) pA
            (fun r => { r with last_child := some pvk })).length := by
          rw [supdate_length _ _ _ (by
              simp [sfind?_sensure, sfind?_supdate, hpA_pv, hrecp]),
            sensure_length _ _ (by simp [sfind?_supdate, hpA_pv, hrecp]),
            supdate_length _ _ _ (by simp [hrpv])]
          omega
        intro q
        simp only [delete]
        simp only [show previous_siblingS s self = some pvk from by
          simp [previous_siblingS, hreca]]
        simp only [show next_siblingS s self = (none : Option Key) from by
          simp [next_siblingS, hreca]]
        simp only [show parentS (supdate s pvk
            (fun r => { r with next_sibling := none })) self = some pA from by
          simp [parentS, sfind?_supdate, hself_pv, hreca]]
        rw [if_neg (show ¬ (first_childS (sensure (supdate s pvk
            (fun r => { r with next_sibling := none })) pA) pA = some self) from by
          simp [first_childS, sfind?_sensure, sfind?_supdate, hpA_pv, hrecp, hheadne])]
        rw [if_pos (show last_childS (sensure (supdate s pvk
            (fun r => { r with next_sibling := none })) pA) pA = some self from by
          simp [last_childS, sfind?_sensure, sfind?_supdate, hpA_pv, hrecp, hlastq])]
        rw [show decendantsList (supdate (sensure (supdate s pvk
            (fun r => { r with next_sibling := none })) pA) pA
            (fun r => { r with last_child := some pvk })) self = preF acs from
          decList_of_realized _ self acs hfc3 hlc3 hrcs3 hnd3 hsz3]
        rw [sfind?_foldl_sremove, preT_def]
        by_cases hqdel : q ∈ self :: preF acs
        · rw [if_pos hqdel]
          have hqpA : ¬ (q = pA) := fun he => hpA_not_sub (he ▸ hqdel)
          simp [chCT, hqpA, TRdel, hqdel]
        · rw [if_neg hqdel]
          by_cases hq : q = pA
          · subst hq
            simp [sfind?_supdate, sfind?_sensure, hpA_pv, hrecp, chCT, hheadne,
              hlastq]
          · by_cases hqpv : q = pvk
            · subst hqpv
              simp [sfind?_supdate, sfind?_sensure, hpv_pA, hrpv, chCT, TRdel,
                hqdel]
            · simp [sfind?_supdate, sfind?_sensure, hq, hqpv, chCT, TRdel, hqdel]
      | some nxk =>
        rw [hPV, hNX] at hreca
        have hnxtop : nxk ∈ topKeys pcs := nextTop_mem pcs self nxk hNX
        have hnx_self : nxk ≠ self := nextTop_ne pcs self nxk (topKeys_nodup hndpcs) hNX
        have hnx_mem : nxk ∈ preF pcs := mem_preF_of_mem_topKeys hnxtop
        have hnx_pA : ¬ (nxk = pA) := fun he => hpApcs (he ▸ hnx_mem)
        have hpA_nx : ¬ (pA = nxk) := fun he => hnx_pA he.symm
        have hself_nx : ¬ (self = nxk) := fun he => hnx_self he.symm
        have hnx_nsub : ¬ nxk ∈ preT (.node self acs) :=
          subAt_top_disjoint pcs self acs nxk hndpcs hsubA hnxtop hnx_self
        have hnx_pres : (sfind? s nxk).isSome = true := by
          rw [h.2.2 nxk]
          exact (relT_isSome t none none none nxk).mpr
            (hsubP nxk (by simp [preT, hnx_mem]))
        obtain ⟨rnx, hrnx⟩ := Option.isSome_iff_exists.mp hnx_pres
        have hpvnx : pvk ≠ nxk := prevTop_ne_nextTop pcs none self pvk nxk
          (topKeys_nodup hndpcs) (fun y hy => Option.noConfusion hy) hPV hNX
        have hnx_pv : ¬ (nxk = pvk) := fun he => hpvnx he.symm
        have hlastne : ¬ (lastKey pcs = some self) := by
          intro hls
          rw [nextTop_last_none pcs self (topKeys_nodup hndpcs) hls] at hNX
          exact Option.noConfusion hNX
        have hfc3 : first_childS (sensure (supdate (supdate s pvk
            (fun r => { r with next_sibling := some nxk })) nxk
            (fun r => { r with previous_sibling := some pvk })) pA) self =
            headKey acs := by
          simp [first_childS, sfind?_sensure, sfind?_supdate, haP, hself_nx,
            hself_pv, hreca]
        have hlc3 : last_childS (sensure (supdate (supdate s pvk
            (fun r => { r with next_sibling := some nxk })) nxk
            (fun r => { r with previous_sibling := some pvk })) pA) self =
            lastKey acs := by
          simp [last_childS, sfind?_sensure, sfind?_supdate, haP, hself_nx,
            hself_pv, hreca]
        have hrcs3 : RealizedF (sensure (supdate (supdate s pvk
            (fun r => { r with next_sibling := some nxk })) nxk
            (fun r => { r with previous_sibling := some pvk })) pA)
            (some self) none acs := by
          intro q2 hq2
          have hq2sub : q2 ∈ preT (.node self acs) := by simp [preT, hq2]
          have hq2pA : ¬ (q2 = pA) := fun he => hpA_not_sub (he ▸ hq2sub)
          have hq2pv : ¬ (q2 = pvk) := fun he => hpv_nsub (he ▸ hq2sub)
          have hq2nx : ¬ (q2 = nxk) := fun he => hnx_nsub (he ▸ hq2sub)
          rw [show sfind? (sensure (supdate (supdate s pvk
            (fun r => { r with next_sibling := some nxk })) nxk
            (fun r => { r with previous_sibling := some pvk })) pA) q2 =
            sfind? s q2 from by
            simp [sfind?_sensure, sfind?_supdate, hq2pA, hq2pv, hq2nx]]
          exact hsubreal q2 hq2
        have hsz3 : (preF acs).length ≤ (sensure (supdate (supdate s pvk
            (fun r => { r with next_sibling := some nxk })) nxk
            (fun r => { r with previous_sibling := some pvk })) pA).length := by
          rw [sensure_length _ _ (by
              simp [sfind?_supdate, hpA_nx, hpA_pv, hrecp]),
            supdate_length _ _ _ (by simp [sfind?_supdate, hnx_pv, hrnx]),
            supdate_length _ _ _ (by simp [hrpv])]
          omega
        intro q
        simp only [delete]
        simp only [show previous_siblingS s self = some pvk from by
          simp [previous_siblingS, hreca]]
        simp only [show next_siblingS s self = some nxk from by
          simp [next_siblingS, hreca]]
        simp only [show parentS (supdate (supdate s pvk
            (fun r => { r with next_sibling := some nxk })) nxk
            (fun r => { r with previous_sibling := some pvk })) self = some pA from by
          simp [parentS, sfind?_supdate, hself_nx, hself_pv, hreca]]
        rw [if_neg (show ¬ (first_childS (sensure (supdate (supdate s pvk
            (fun r => { r with next_sibling := some nxk })) nxk
            (fun r => { r with previous_sibling := some pvk })) pA) pA =
            some self) from by
          simp [first_childS, sfind?_sensure, sfind?_supdate, hpA_nx, hpA_pv,
            hrecp, hheadne])]
        rw [if_neg (show ¬ (last_childS (sensure (supdate (supdate s pvk
            (fun r => { r with next_sibling := some nxk })) nxk
            (fun r => { r with previous_sibling := some pvk })) pA) pA =
            some self) from by
          simp [last_childS, sfind?_sensure, sfind?_supdate, hpA_nx, hpA_pv,
            hrecp, hlastne])]
        rw [show decendantsList (sensure (supdate (supdate s pvk
            (fun r => { r with next_sibling := some nxk })) nxk
            (fun r => { r with previous_sibling := some pvk })) pA) self =
            preF acs from
          decList_of_realized _ self acs hfc3 hlc3 hrcs3 hnd3 hsz3]
        rw [sfind?_foldl_sremove, preT_def]
        by_cases hqdel : q ∈ self :: preF acs
        · rw [if_pos hqdel]
          have hqpA : ¬ (q = pA) := fun he => hpA_not_sub (he ▸ hqdel)
          simp [chCT, hqpA, TRdel, hqdel]
        · rw [if_neg hqdel]
          by_cases hq : q = pA
          · subst hq
            simp [sfind?_sensure, sfind?_supdate, hpA_nx, hpA_pv, hrecp, chCT,
              hheadne, hlastne]
          · by_cases hqpv : q = pvk
            · subst hqpv
              simp [sfind?_sensure, sfind?_supdate, hpv_pA, hpvnx, hrpv, chCT,
                TRdel, hqdel]
            · by_cases hqnx : q = nxk
              · subst hqnx
                simp [sfind?_sensure, sfind?_supdate, hnx_pA, hnx_pv, hrnx, chCT,
                  TRdel, hqdel]
              · simp [sfind?_sensure, sfind?_supdate, hq, hqpv, hqnx, chCT,
                  TRdel, hqdel]
  refine ⟨chT pA (rmF self) t, ?_, ?_, ?_⟩
  · rw [chT_key]
    exact h.1
  · have hperm0 : (preF (rmF self pcs) ++ preT (.node self acs)).Perm
        ([] ++ preF pcs) := by
      rw [List.nil_append]
      exact rmF_perm self pcs acs hsubA
    have hperm := chT_perm t pA (rmF self) pcs [] (preT (.node self acs))
      h.2.1 hfindP hperm0
    rw [List.nil_append] at hperm
    exact (hperm.nodup_iff.mpr h.2.1).of_append_left
  · intro q
    rw [hstate q, h.2.2 q]
    exact (chRelT t pA (rmF self) pcs
      (TRdel (preT (.node self acs)) (prevTop pcs none self) (nextTop pcs self)) _ _
      (TRdel_rel pA self pcs acs hndpcs hsubA)
      (rmF_headKey self pcs htopA) hL
      (TRdel_some pA self pcs acs hndpcs hsubA)
      h.2.1 hfindP (fun q2 hne => absurd (hTn q2) hne) none none none q).symm

/-! ### Reachable states and the tree-consistency invariant -/

/-- The default structure is the consistent tree state of the bare root. -/
theorem treeState_default : TreeState defaultStructure (.node ROOT .nil) :=
  ⟨rfl, by decide, fun q => by
    by_cases hq : q = ROOT
    · subst hq
      rfl
    · simp [defaultStructure, sfind?, relT, relF, hq,
        show ¬ (q = ROOT) from hq]⟩

/-- A structure that is either a consistent tree state or empty. -/
def GoodState (s : Structure) : Prop :=
  (∃ t, TreeState s t) ∨ EmptyState s

/-- The states reachable from the default structure by the five tree
operations, each insertion applied to a present parent/anchor (the anchor
non-root for the sibling insertions) and succeeding (the new identifier
absent). -/
inductive Reachable : Structure → Prop where
  | init : Reachable defaultStructure
  | pfc : ∀ (s s2 : Structure) (self new : Key), Reachable s →
      existsS s self = true → push_front_child s self new = some s2 →
      Reachable s2
  | pc : ∀ (s s2 : Structure) (self new : Key), Reachable s →
      existsS s self = true → push_child s self new = some s2 →
      Reachable s2
  | ab : ∀ (s s2 : Structure) (self new : Key), Reachable s →
      existsS s self = true → self ≠ ROOT → add_before s self new = some s2 →
      Reachable s2
  | aa : ∀ (s s2 : Structure) (self new : Key), Reachable s →
      existsS s self = true → self ≠ ROOT → add_after s self new = some s2 →
      Reachable s2
  | del : ∀ (s : Structure) (self : Key), Reachable s →
      Reachable (delete s self)

/-- Every reachable structure is a consistent tree state or empty. -/
theorem good_of_reachable (s : Structure) (h : Reachable s) : GoodState s := by
  induction h with
  | init => exact Or.inl ⟨.node ROOT .nil, treeState_default⟩
  | pfc s s2 self new hr hself hop ih =>
    have hnew : existsS s new = false := by
      by_cases hn : existsS s new = true
      · rw [push_front_child, if_pos hn] at hop
        exact Option.noConfusion hop
      · simpa using hn
    have hs2 : push_front_child_go s self new = s2 := by
      rw [push_front_child, if_neg (by simp [hnew])] at hop
      exact (Option.some.injEq _ _).mp hop
    subst hs2
    cases ih with
    | inl htree =>
      obtain ⟨t, ht⟩ := htree
      exact Or.inl ⟨_, push_front_child_preserves s t ht self new hself hnew⟩
    | inr hempty =>
      exfalso
      rw [show existsS s self = (sfind? s self).isSome from rfl,
        hempty self] at hself
      simp at hself
  | pc s s2 self new hr hself hop ih =>
    have hnew : existsS s new = false := by
      by_cases hn : existsS s new = true
      · rw [push_child, if_pos hn] at hop
        exact Option.noConfusion hop
      · simpa using hn
    have hs2 : push_child_go s self new = s2 := by
      rw [push_child, if_neg (by simp [hnew])] at hop
      exact (Option.some.injEq _ _).mp hop
    subst hs2
    cases ih with
    | inl htree =>
      obtain ⟨t, ht⟩ := htree
      exact Or.inl ⟨_, push_child_preserves s t ht self new hself hnew⟩
    | inr hempty =>
      exfalso
      rw [show existsS s self = (sfind? s self).isSome from rfl,
        hempty self] at hself
      simp at hself
  | ab s s2 self new hr hself hroot hop ih =>
    have hnew : existsS s new = false := by
      by_cases hn : existsS s new = true
      · rw [add_before, if_pos hn] at hop
        exact Option.noConfusion hop
      · simpa using hn
    have hs2 : add_before_go s self new = s2 := by
      rw [add_before, if_neg (by simp [hnew])] at hop
      exact (Option.some.injEq _ _).mp hop
    subst hs2
    cases ih with
    | inl htree =>
      obtain ⟨t, ht⟩ := htree
      exact Or.inl (add_before_preserves s t ht self new hself hroot hnew)
    | inr hempty =>
      exfalso
      rw [show existsS s self = (sfind? s self).isSome from rfl,
        hempty self] at hself
      simp at hself
  | aa s s2 self new hr hself hroot hop ih =>
    have hnew : existsS s new = false := by
      by_cases hn : existsS s new = true
      · rw [add_after, if_pos hn] at hop
        exact Option.noConfusion hop
      · simpa using hn
    have hs2 : add_after_go s self new = s2 := by
      rw [add_after, if_neg (by simp [hnew])] at hop
      exact (Option.some.injEq _ _).mp hop
    subst hs2
    cases ih with
    | inl htree =>
      obtain ⟨t, ht⟩ := htree
      exact Or.inl (add_after_preserves s t ht self new hself hroot hnew)
    | inr hempty =>
      exfalso
      rw [show existsS s self = (sfind? s self).isSome from rfl,
        hempty self] at hself
      simp at hself
  | del s self hr ih =>
    cases ih with
    | inl htree =>
      obtain ⟨t, ht⟩ := htree
      by_cases hp : existsS s self = true
      · by_cases hroot : self = ROOT
        · subst hroot
          exact Or.inr (delete_root s t ht)
        · exact Or.inl (delete_preserves s t ht self hp hroot)
      · have habs : existsS s self = false := by simpa using hp
        refine Or.inl ⟨t, ht.1, ht.2.1, fun q => ?_⟩
        rw [delete_absent s self habs q]
        exact ht.2.2 q
    | inr hempty =>
      have habs : existsS s self = false := by
        rw [show existsS s self = (sfind? s self).isSome from rfl, hempty self]
        rfl
      refine Or.inr (fun q => ?_)
      rw [delete_absent s self habs q]
      exact hempty q

/-- C1 counterexample: the stated precondition (only the inserted identifier
absent) is not enough. `push_child` on the absent parent `6` succeeds, and
the resulting structure has the non-root key `6` present with no parent
link, so the chain-consistency conclusion fails at `6`. -/
theorem tree_chain_consistency_cex :
    push_child defaultStructure 6 8 =
      some (push_child_go defaultStructure 6 8) ∧
    existsS (push_child_go defaultStructure 6 8) 6 = true ∧
    (6 : Key) ≠ ROOT ∧
    parentS (push_child_go defaultStructure 6 8) 6 = none ∧
    ¬ ChainConsistent (push_child_go defaultStructure 6 8) := by
  refine ⟨rfl, by decide, by decide, by decide, fun hc => ?_⟩
  obtain ⟨p, hp, _⟩ := hc 6 (by decide) (by decide)
  rw [show parentS (push_child_go defaultStructure 6 8) 6 = none from by decide]
    at hp
  exact Option.noConfusion hp

/-- C1 (amended): starting from the default state, under any sequence of the
five tree operations in which every insertion is applied to a present
parent/anchor (the anchor non-root for `add_before`/`add_after`) and
satisfies its precondition that the inserted identifier is absent, every
non-root layer present in the structure appears exactly once in its
parent's forward child chain and exactly once in the backward chain, its
parent link names that parent, and the backward chain is the reverse of the
forward chain. -/
theorem tree_chain_consistency (s : Structure) (h : Reachable s) :
    ChainConsistent s := by
  cases good_of_reachable s h with
  | inl htree =>
    obtain ⟨t, ht⟩ := htree
    exact chainConsistent_of_treeState ht
  | inr hempty => exact chainConsistent_of_empty hempty

theorem tree_chain_consistency_witness :
    Reachable (push_child_go defaultStructure ROOT 5) ∧
    ChainConsistent (push_child_go defaultStructure ROOT 5) :=
  have hr : Reachable (push_child_go defaultStructure ROOT 5) :=
    Reachable.pc defaultStructure (push_child_go defaultStructure ROOT 5) ROOT 5
      Reachable.init (by decide) rfl
  ⟨hr, tree_chain_consistency (push_child_go defaultStructure ROOT 5) hr⟩

end Graphite
